import Mathlib

/-!
# Supervised descent (`superviseddescent.hpp`, namespace `superviseddescent::v2`)

A shallow embedding of the cascaded-regression core of the repository:
`Regulariser`, `LinearRegressor`, `SupervisedDescentOptimiser` and `GenericDM1D`.

* `cv::Mat` is a matrix whose numbers of rows and columns are run-time values; the
  operations that OpenCV checks at run time (`-`, `+`, `*`, `row`, `push_back`, `at`)
  return an error on operands of the wrong shape. The reads `at<float>(i)` of
  `GenericDM1D`, which OpenCV checks in debug builds only, return what lies past the
  buffer for an index outside the matrix; that content is a parameter.
* Scalars are the elements of a type `α`; the cascade needs only subtraction, the
  regressor a field (exact arithmetic stands for the `float` of the source).
* The square root behind `cv::norm` and the `Eigen::FullPivLU` decomposition are
  external to the repository and enter as a parameter, `Provider`.
* Calls of the feature function `h`, of `learn` and of the observer callback are
  recorded in an event trace.
-/

namespace superviseddescent

/-! ## `cv::Mat` -/

/-- Errors the embedded code can raise. -/
inductive Err where
  /-- A `cv::Exception` of a matrix operation whose operands do not fit. -/
  | sizeMismatch
  /-- An element or row access outside the matrix. -/
  | outOfRange
  /-- The `std::runtime_error` of the scalar `predict` overload. -/
  | predictShape
  deriving DecidableEq, Repr

/-- A `cv::Mat` with one channel: `rows`, `cols` and the entries. -/
structure Mat (α : Type) where
  rows : ℕ
  cols : ℕ
  val : Matrix (Fin rows) (Fin cols) α

namespace Mat

variable {α : Type}

/-- The `cv::Mat` holding a matrix of known shape. -/
def of {n m : ℕ} (A : Matrix (Fin n) (Fin m) α) : Mat α := ⟨n, m, A⟩

/-- The one-row `cv::Mat` holding a row vector. -/
def ofRow {m : ℕ} (v : Fin m → α) : Mat α := ⟨1, m, Matrix.of fun _ j => v j⟩

/-- The default-constructed `cv::Mat` of `Mat features;`: no rows, no columns. -/
def empty : Mat α := ⟨0, 0, Matrix.of fun i _ => i.elim0⟩

/-- Transposition, `m.t()`. -/
def t (m : Mat α) : Mat α := ⟨m.cols, m.rows, m.val.transpose⟩

/-- Row header `m.row(i)`: a `1 x cols` matrix; an index outside the matrix is an error. -/
def row (m : Mat α) (i : ℕ) : Except Err (Mat α) :=
  if h : i < m.rows then .ok ⟨1, m.cols, Matrix.of fun _ j => m.val ⟨i, h⟩ j⟩
  else .error .outOfRange

/-- Elementwise difference `a - b`; OpenCV raises an exception unless the sizes agree. -/
def sub [Sub α] (a b : Mat α) : Except Err (Mat α) :=
  if h : a.rows = b.rows ∧ a.cols = b.cols then
    .ok ⟨a.rows, a.cols, Matrix.of fun i j => a.val i j - b.val (Fin.cast h.1 i) (Fin.cast h.2 j)⟩
  else .error .sizeMismatch

/-- Elementwise sum `a + b`; OpenCV raises an exception unless the sizes agree. -/
def add [Add α] (a b : Mat α) : Except Err (Mat α) :=
  if h : a.rows = b.rows ∧ a.cols = b.cols then
    .ok ⟨a.rows, a.cols, Matrix.of fun i j => a.val i j + b.val (Fin.cast h.1 i) (Fin.cast h.2 j)⟩
  else .error .sizeMismatch

/-- Matrix product `a * b`; OpenCV raises an exception unless `a.cols = b.rows`. -/
def mul [Mul α] [AddCommMonoid α] (a b : Mat α) : Except Err (Mat α) :=
  if h : a.cols = b.rows then
    .ok ⟨a.rows, b.cols, a.val * b.val.submatrix (Fin.cast h) id⟩
  else .error .sizeMismatch

/-- Product with a scalar, `m * s`. -/
def scale [Mul α] (m : Mat α) (s : α) : Mat α :=
  ⟨m.rows, m.cols, Matrix.of fun i j => m.val i j * s⟩

/-- The matrix `Mat::eye(rows, cols, CV_32FC1)`: ones on the main diagonal, zeros elsewhere. -/
def eye [Zero α] [One α] (rows cols : ℕ) : Mat α :=
  ⟨rows, cols, Matrix.of fun i j => if i.val = j.val then 1 else 0⟩

/-- The assignment `m.at<float>(i, j) = v` with the `int` indices of the source; an index
outside the matrix is an error (OpenCV asserts the bounds in debug builds). -/
def setAt (m : Mat α) (i j : ℤ) (v : α) : Except Err (Mat α) :=
  if 0 ≤ i ∧ i < m.rows ∧ 0 ≤ j ∧ j < m.cols then
    .ok ⟨m.rows, m.cols,
      Matrix.of fun a b => if (a.val : ℤ) = i ∧ (b.val : ℤ) = j then v else m.val a b⟩
  else .error .outOfRange

/-- Row append `m.push_back(elems)`: nothing happens when `elems` has no rows, a matrix
without data becomes a copy of `elems`, otherwise the numbers of columns must agree. -/
def push_back (m elems : Mat α) : Except Err (Mat α) :=
  if elems.rows = 0 then .ok m
  else if m.rows = 0 ∨ m.cols = 0 then .ok elems
  else if h : m.cols = elems.cols then
    .ok ⟨m.rows + elems.rows, m.cols,
      Matrix.of fun i j => Fin.addCases (fun a => m.val a j) (fun b => elems.val b (Fin.cast h j)) i⟩
  else .error .sizeMismatch

/-- The matrix `Mat(rows, cols, CV_32FC1)` before any entry is written; the entries, which
the source leaves uninitialised, are zero here. -/
def zeros [Zero α] (rows cols : ℕ) : Mat α := ⟨rows, cols, 0⟩

/-- Element read `m.at<float>(i)` with one index: entry `i` in row-major order. OpenCV
checks the index in debug builds only; a read outside the matrix returns what lies past the
buffer, `past i`. -/
def atFlat (m : Mat α) (past : ℕ → α) (i : ℕ) : α :=
  if h : i < m.rows * m.cols then
    have hc : 0 < m.cols := Nat.pos_of_ne_zero fun h0 => by simp [h0] at h
    m.val ⟨i / m.cols, Nat.div_lt_of_lt_mul (by rwa [Nat.mul_comm] at h)⟩
      ⟨i % m.cols, Nat.mod_lt i hc⟩
  else past i

/-- The assignment `m.at<float>(i) = v` with one index: the entry `i` in row-major order
becomes `v`, the other entries of the matrix stay. -/
def setAtFlat (m : Mat α) (i : ℕ) (v : α) : Mat α :=
  ⟨m.rows, m.cols, Matrix.of fun a b => if a.val * m.cols + b.val = i then v else m.val a b⟩

/-- Sum of the squared entries. -/
def sumSq [Mul α] [AddCommMonoid α] (m : Mat α) : α :=
  ∑ i, ∑ j, m.val i j * m.val i j

end Mat

/-! ## Event traces -/

/-- What a run of the optimiser does that is visible from outside. -/
inductive Event (α : Type) where
  /-- The feature function `h` is invoked on `arg`. -/
  | feature (arg : Mat α)
  /-- The regressor of stage `stage` is asked to `learn(data, labels)`. -/
  | learn (stage : ℕ) (data labels : Mat α)
  /-- The observer callback is invoked with `currentX`. -/
  | callback (currentX : Mat α)

/-- A computation that can fail and that records events. -/
def Traced (α β : Type) : Type := Except Err (β × List (Event α))

namespace Traced

variable {α β γ : Type}

/-- Sequencing: the events of the first computation come first. -/
def bind (m : Traced α β) (f : β → Traced α γ) : Traced α γ :=
  match m with
  | .error e => .error e
  | .ok (b, t) =>
    match f b with
    | .error e => .error e
    | .ok (c, u) => .ok (c, t ++ u)

instance : Monad (Traced α) where
  pure b := .ok (b, [])
  bind := Traced.bind

/-- A step that can fail and records nothing. -/
def lift (e : Except Err β) : Traced α β :=
  match e with
  | .error err => .error err
  | .ok b => .ok (b, [])

/-- Record one event. -/
def emit (e : Event α) : Traced α Unit := .ok ((), [e])

instance : MonadLift (Except Err) (Traced α) where
  monadLift := Traced.lift

end Traced

/-- The loop `for (int i = 0; i < n; ++i) { acc.push_back(f(i)); }` on `Mat acc;`. -/
def pushRows {α : Type} {m : Type → Type} [Monad m] [MonadLiftT (Except Err) m]
    (f : ℕ → m (Mat α)) : ℕ → m (Mat α)
  | 0 => pure Mat.empty
  | k + 1 => do
    let acc ← pushRows f k
    let elems ← f k
    liftM (acc.push_back elems)

/-! ## External linear algebra -/

/-- What the code takes from OpenCV and Eigen besides the matrix operations above: the
square root inside `cv::norm`, and `isInvertible()` and `inverse()` of the
`Eigen::FullPivLU` decomposition of a matrix. -/
structure Provider (α : Type) where
  sqrt : α → α
  isInvertible : Mat α → Bool
  inverse : Mat α → Mat α

/-- The L2 norm `cv::norm(m)`, the square root of the sum of the squared entries. -/
def Provider.norm {α : Type} [Mul α] [AddCommMonoid α] (P : Provider α) (m : Mat α) : α :=
  P.sqrt m.sumSq

/-- The L2 norm of a difference, `cv::norm(a, b, cv::NORM_L2)`; the sizes must agree. -/
def Provider.normDiff {α : Type} [Ring α] (P : Provider α) (a b : Mat α) : Except Err α := do
  let d ← a.sub b
  pure (P.norm d)

/-- The decomposition is exact: on a square matrix `isInvertible` says whether the matrix is
invertible, `inverse` is the inverse of an invertible matrix, and for a matrix that is not
invertible `inverse` is some matrix of the same shape. -/
structure Provider.ExactLU {α : Type} [Field α] (P : Provider α) : Prop where
  isInvertible_iff : ∀ (n : ℕ) (A : Matrix (Fin n) (Fin n) α),
    P.isInvertible (Mat.of A) = true ↔ IsUnit A.det
  inverse_eq : ∀ (n : ℕ) (A : Matrix (Fin n) (Fin n) α),
    IsUnit A.det → P.inverse (Mat.of A) = Mat.of A⁻¹
  inverse_shape : ∀ (n : ℕ) (A : Matrix (Fin n) (Fin n) α),
    ∃ B : Matrix (Fin n) (Fin n) α, P.inverse (Mat.of A) = Mat.of B

/-- An exact decomposition for a field with decidable equality, to run the code on
concrete matrices: a square matrix is invertible when its determinant is not zero, and its
inverse is the adjugate divided by the determinant (what the LU decomposition computes in
exact arithmetic). `cv::norm` takes the square root `sqrt`. -/
def exactProvider {α : Type} [Field α] [DecidableEq α] (sqrt : α → α) : Provider α where
  sqrt := sqrt
  isInvertible m :=
    if h : m.rows = m.cols then decide ((m.val.submatrix id (Fin.cast h)).det ≠ 0) else false
  inverse m :=
    if h : m.rows = m.cols then
      ⟨m.rows, m.rows, (m.val.submatrix id (Fin.cast h)).det⁻¹ •
        (m.val.submatrix id (Fin.cast h)).adjugate⟩
    else m

/-! ## `Regulariser` -/

/-- The enumeration `Regulariser::RegularisationType`. -/
inductive RegularisationType where
  | Manual
  | MatrixNorm
  | EigenvalueThreshold
  deriving DecidableEq, Repr

/-- The members of `Regulariser`, with the defaults of its constructor. -/
structure Regulariser (α : Type) [Zero α] where
  regularisationType : RegularisationType := .Manual
  lambda : α := 0
  regulariseLastRow : Bool := true

/-- The `switch` of `getMatrix`: the value of the member `lambda` after it. (The division
is the one of the field; `numTrainingElements = 0`, where the source divides by zero, is
outside every statement that depends on the value of the quotient.) -/
def Regulariser.switchLambda {α : Type} [Field α] (P : Provider α) (self : Regulariser α)
    (data : Mat α) (numTrainingElements : ℤ) : α :=
  match self.regularisationType with
  | .Manual => self.lambda
  | .MatrixNorm => self.lambda * P.norm data / (numTrainingElements : α)
  | .EigenvalueThreshold => 1 / 2

/-- The method `Regulariser::getMatrix(data, numTrainingElements)`: the regularisation matrix,
and the regulariser after the call (the `switch` assigns to the member `lambda`). -/
def Regulariser.getMatrix {α : Type} [Field α] (P : Provider α) (self : Regulariser α)
    (data : Mat α) (numTrainingElements : ℤ) : Except Err (Mat α × Regulariser α) :=
  let self : Regulariser α :=
    { self with lambda := self.switchLambda P data numTrainingElements }
  let regulariser : Mat α := (Mat.eye data.rows data.cols).scale self.lambda
  if !self.regulariseLastRow then do
    let regulariser ← regulariser.setAt ((regulariser.rows : ℤ) - 1) ((regulariser.cols : ℤ) - 1) 0
    pure (regulariser, self)
  else
    pure (regulariser, self)

/-! ## `LinearRegressor` -/

/-- The members of `LinearRegressor`: the coefficient matrix `x` and the regulariser. -/
structure LinearRegressor (α : Type) [Zero α] where
  x : Mat α := Mat.empty
  regulariser : Regulariser α := {}

namespace LinearRegressor

variable {α : Type} [Field α]

/-- The method `LinearRegressor::learn(data, labels)`: whether the regularised matrix was
invertible, and the regressor after the call. (`AtAReg` is freshly allocated, hence
continuous: the `isContinuous` branch is never taken.) -/
def learn (P : Provider α) (self : LinearRegressor α) (data labels : Mat α) :
    Except Err (Bool × LinearRegressor α) := do
  let AtA ← data.t.mul data
  let (regularisationMatrix, regulariser) ← self.regulariser.getMatrix P AtA data.rows
  let AtAReg ← AtA.add regularisationMatrix
  let AtARegInvFullLU := P.inverse AtAReg
  let AtARegInvAt ← AtARegInvFullLU.mul data.t
  let AtARegInvAtb ← AtARegInvAt.mul labels
  pure (P.isInvertible AtAReg, { x := AtARegInvAtb, regulariser := regulariser })

/-- The method `LinearRegressor::predict(cv::Mat values)`. -/
def predict (self : LinearRegressor α) (values : Mat α) : Except Err (Mat α) :=
  values.mul self.x

/-- The method `LinearRegressor::predict(cv::Mat values)` as the member function it is (it is
not declared `const`): the prediction, and the regressor after the call. The body assigns to
no member. -/
def predictState (self : LinearRegressor α)
    (values : Mat α) : Except Err (Mat α × LinearRegressor α) := do
  let prediction ← values.mul self.x
  pure (prediction, self)

/-- The method `LinearRegressor::predict(float value)`. -/
def predictScalar (self : LinearRegressor α) (value : α) : Except Err α :=
  if h : self.x.rows ≠ 1 ∨ self.x.cols ≠ 1 then .error .predictShape
  else .ok (value * self.x.val ⟨0, by omega⟩ ⟨0, by omega⟩)

/-- The method `LinearRegressor::test(data, labels)`. -/
def test (P : Provider α) (self : LinearRegressor α) (data labels : Mat α) : Except Err α := do
  let predictions ← pushRows (fun i => do self.predict (← data.row i)) data.rows
  let num ← P.normDiff predictions labels
  pure (num / P.norm labels)

end LinearRegressor

/-! ## `SupervisedDescentOptimiser` -/

/-- What the optimiser asks of its template parameter `RegressorType`, for regressors whose
state is a value of `R`: `learn` returns its result and the regressor after the call,
`predict` reads the regressor. -/
structure RegressorType (α R : Type) where
  learn : R → Mat α → Mat α → Except Err (Bool × R)
  predict : R → Mat α → Except Err (Mat α)

/-- The instance `SupervisedDescentOptimiser<LinearRegressor>`. -/
def linearRegressorType {α : Type} [Field α] (P : Provider α) :
    RegressorType α (LinearRegressor α) where
  learn := LinearRegressor.learn P
  predict := LinearRegressor.predict

/-- The entries of a `cv::Mat` read as a matrix of a given shape (zero outside the matrix). -/
def Mat.toMatrix {α : Type} [Zero α] (m : Mat α) (n k : ℕ) : Matrix (Fin n) (Fin k) α :=
  Matrix.of fun i j =>
    if h : i.val < m.rows ∧ j.val < m.cols then m.val ⟨i.val, h.1⟩ ⟨j.val, h.2⟩ else 0

/-- The regressor after `learn(data, labels)` (unchanged when `learn` throws). -/
def LinearRegressor.learned {α : Type} [Field α] {n q p : ℕ} (P : Provider α)
    (self : LinearRegressor α) (data : Matrix (Fin n) (Fin q) α) (labels : Matrix (Fin n) (Fin p) α) :
    LinearRegressor α :=
  match self.learn P (Mat.of data) (Mat.of labels) with
  | .ok (_, regressor) => regressor
  | .error _ => self

/-- The prediction for one row as a vector: the row times the coefficient matrix. -/
def LinearRegressor.predictRow {α : Type} [Field α] {q p : ℕ} (self : LinearRegressor α)
    (values : Fin q → α) : Fin p → α :=
  Matrix.vecMul values (self.x.toMatrix q p)

/-- A stage of training with a ridge regression that has a solution: the regulariser of the
regressor is Manual with `lambda >= 0`, and the regularised normal-equation matrix for the
stage input `A` is invertible. -/
def LinearRegressor.RidgeStage {α : Type} [LinearOrderedField α] (P : Provider α)
    (r : LinearRegressor α) {n q : ℕ} (A : Matrix (Fin n) (Fin q) α) : Prop :=
  r.regulariser.regularisationType = .Manual ∧ 0 ≤ r.regulariser.lambda ∧
    ∃ (Rm : Matrix (Fin q) (Fin q) α) (reg : Regulariser α),
      r.regulariser.getMatrix P (Mat.of (A.transpose * A)) (n : ℤ) = Except.ok (Mat.of Rm, reg) ∧
      IsUnit (A.transpose * A + Rm).det

/-- A call `h(arg)` of the feature function. -/
def callH {α : Type} (h : Mat α → Mat α) (arg : Mat α) : Traced α (Mat α) :=
  .ok (h arg, [Event.feature arg])

namespace SupervisedDescentOptimiser

variable {α R : Type} [Sub α]

/-- The loop over the regressors in `train`, from stage `k` on with state `currentX`: the
regressors after the loop. -/
def trainLoop (ops : RegressorType α R) (x y : Mat α) (h : Mat α → Mat α) :
    ℕ → List R → Mat α → Traced α (List R)
  | _, [], _ => pure []
  | k, regressor :: rest, currentX => do
    let features ← pushRows (fun i => do callH h (← currentX.row i)) currentX.rows
    let insideRegressor ← features.sub y
    let b ← currentX.sub x
    Traced.emit (Event.learn k insideRegressor b)
    let (_, regressor) ← ops.learn regressor insideRegressor b
    let x_k ← pushRows (fun i => do
      let prediction ← ops.predict regressor (← insideRegressor.row i)
      (← currentX.row i).sub prediction) currentX.rows
    Traced.emit (Event.callback x_k)
    let rest ← trainLoop ops x y h (k + 1) rest x_k
    pure (regressor :: rest)

/-- The method `train(x, y, x0, h, onTrainingEpochCallback)`: the regressors after the call. -/
def train (ops : RegressorType α R) (regressors : List R) (x y x0 : Mat α)
    (h : Mat α → Mat α) : Traced α (List R) :=
  trainLoop ops x y h 0 regressors x0

/-- The loop over the regressors in `test`, with state `currentX`. -/
def testLoop (ops : RegressorType α R) (y : Mat α) (h : Mat α → Mat α) :
    List R → Mat α → Traced α (Mat α)
  | [], currentX => pure currentX
  | regressor :: rest, currentX => do
    let features ← pushRows (fun i => do callH h (← currentX.row i)) currentX.rows
    let _insideRegressor ← features.sub y
    let x_k ← pushRows (fun i => do
      let myInside ← (← callH h (← currentX.row i)).sub (← y.row i)
      let prediction ← ops.predict regressor myInside
      (← currentX.row i).sub prediction) currentX.rows
    Traced.emit (Event.callback x_k)
    testLoop ops y h rest x_k

/-- The method `test(y, x0, h, onRegressorIterationCallback)`: the final prediction. -/
def test (ops : RegressorType α R) (regressors : List R) (y x0 : Mat α)
    (h : Mat α → Mat α) : Traced α (Mat α) :=
  testLoop ops y h regressors x0

/-- The update loop of `test`, iterations `0` to `k - 1`, for a regressor whose `predict`
may change it: `x_k`, and the regressor after the loop. -/
def testUpdateRowsState (predict : R → Mat α → Except Err (Mat α × R)) (y : Mat α)
    (h : Mat α → Mat α) (currentX : Mat α) : ℕ → R → Traced α (Mat α × R)
  | 0, regressor => pure (Mat.empty, regressor)
  | i + 1, regressor => do
    let (x_k, regressor) ← testUpdateRowsState predict y h currentX i regressor
    let myInside ← (← callH h (← currentX.row i)).sub (← y.row i)
    let (prediction, regressor) ← predict regressor myInside
    let elems ← (← currentX.row i).sub prediction
    let x_k ← x_k.push_back elems
    pure (x_k, regressor)

/-- The loop over the regressors in `test`, which binds each regressor by reference, for
regressors whose `predict` may change them: the final prediction, and the regressors after
the loop. -/
def testLoopState (predict : R → Mat α → Except Err (Mat α × R)) (y : Mat α)
    (h : Mat α → Mat α) : List R → Mat α → Traced α (Mat α × List R)
  | [], currentX => pure (currentX, [])
  | regressor :: rest, currentX => do
    let features ← pushRows (fun i => do callH h (← currentX.row i)) currentX.rows
    let _insideRegressor ← features.sub y
    let (x_k, regressor) ← testUpdateRowsState predict y h currentX currentX.rows regressor
    Traced.emit (Event.callback x_k)
    let (result, rest) ← testLoopState predict y h rest x_k
    pure (result, regressor :: rest)

/-- The method `test(y, x0, h, onRegressorIterationCallback)` with the member `regressors`
as state: the final prediction, and `regressors` after the call. -/
def testState (predict : R → Mat α → Except Err (Mat α × R)) (regressors : List R)
    (y x0 : Mat α) (h : Mat α → Mat α) : Traced α (Mat α × List R) :=
  testLoopState predict y h regressors x0

/-- The loop over the regressors in `predict`, with state `currentX`; `h` is called on the
whole state and there is no callback. -/
def predictLoop (ops : RegressorType α R) (y : Mat α) (h : Mat α → Mat α) :
    List R → Mat α → Traced α (Mat α)
  | [], currentX => pure currentX
  | regressor :: rest, currentX => do
    let myInside ← (← callH h currentX).sub y
    let x_k ← currentX.sub (← ops.predict regressor myInside)
    predictLoop ops y h rest x_k

/-- The method `predict(x0, template_y, h)`. Its body subtracts a matrix named `y`, which is
neither a parameter nor a member of the class, and never reads `template_y`; the matrix the
name `y` stands for is the first argument here. -/
def predict (ops : RegressorType α R) (regressors : List R) (y : Mat α) (x0 _template_y : Mat α)
    (h : Mat α → Mat α) : Traced α (Mat α) :=
  predictLoop ops y h regressors x0

end SupervisedDescentOptimiser

/-! ## `GenericDM1D` -/

namespace GenericDM1D

variable {α : Type} [Field α]

/-- What the reads of `train` find past the buffers of `x_prev` and of `labels`, by iteration
of the outer loop and index: `train` does not compare the sizes of its arguments, and the
reads `at<float>(i)` are checked in debug builds only. -/
structure Memory (α : Type) where
  pastPrev : ℕ → ℕ → α
  pastLabels : ℕ → ℕ → α

/-- The inner loop of `train` in iteration `iter` of the outer loop, iterations `0` to
`k - 1`: entry `i` of `x_next` becomes
`x_prev[i] - genericDescentMap * (h(x_prev[i]) - labels[i])`. -/
def updateRows (mem : Memory α) (labels : Mat α) (genericDescentMap : α) (h : α → α)
    (iter : ℕ) (x_prev : Mat α) : ℕ → Mat α → Mat α
  | 0, x_next => x_next
  | k + 1, x_next =>
    let x_next := updateRows mem labels genericDescentMap h iter x_prev k x_next
    let thisDelta := h (x_prev.atFlat (mem.pastPrev iter) k) -
      labels.atFlat (mem.pastLabels iter) k
    let thisDeltaRegressed := genericDescentMap * thisDelta
    x_next.setAtFlat k (x_prev.atFlat (mem.pastPrev iter) k - thisDeltaRegressed)

/-- The outer loop of `train`, `count` iterations from iteration `iter` and `x_prev`: the
matrices `x_next` it logs, in order. -/
def iterate (mem : Memory α) (labels : Mat α) (genericDescentMap : α) (h : α → α) :
    ℕ → ℕ → Mat α → List (Mat α)
  | 0, _, _ => []
  | count + 1, iter, x_prev =>
    let x_next := updateRows mem labels genericDescentMap h iter x_prev x_prev.rows
      (Mat.zeros x_prev.rows 1)
    x_next :: iterate mem labels genericDescentMap h count (iter + 1) x_next

/-- The method `GenericDM1D::train(data, labels, genericDescentMap, h)`, which returns
nothing: the matrices it logs, `x_0` and then `x_next` of each of the iterations
`i = 1, ..., 25` of `for (int i = 1; i <= 25; ++i)`. -/
def train (mem : Memory α) (data labels : Mat α) (genericDescentMap : α) (h : α → α) :
    List (Mat α) :=
  data :: iterate mem labels genericDescentMap h 25 1 data

end GenericDM1D

end superviseddescent

/-! ## The cascade in the words of the specification

The stages on matrices of known shape: `N` examples, states with `Pd` entries,
observations with `Qd` entries. A regressor is seen through `lrn` (the regressor after
`learn`) and `prd` (its prediction for one row). -/

namespace superviseddescent

namespace Spec

variable {α R : Type} [Sub α] {N Pd Qd : ℕ}

/-- Regressor input of a stage, `A = h(X) - y`, with `h` applied row by row. -/
def stageInput (hrow : (Fin Pd → α) → (Fin Qd → α)) (Y : Matrix (Fin N) (Fin Qd) α)
    (X : Matrix (Fin N) (Fin Pd) α) : Matrix (Fin N) (Fin Qd) α :=
  Matrix.of fun i => hrow (X i) - Y i

/-- Training target of a stage, `b = X - x_truth`. -/
def stageTarget (Xt X : Matrix (Fin N) (Fin Pd) α) : Matrix (Fin N) (Fin Pd) α :=
  X - Xt

/-- State after a stage, `X_next[i] = X[i] - predict(A[i])` for every row `i`. -/
def stageUpdate (prd : (Fin Qd → α) → (Fin Pd → α)) (A : Matrix (Fin N) (Fin Qd) α)
    (X : Matrix (Fin N) (Fin Pd) α) : Matrix (Fin N) (Fin Pd) α :=
  Matrix.of fun i => X i - prd (A i)

/-- One `h` call per row of `X`, in row order. -/
def featureEvents (X : Matrix (Fin N) (Fin Pd) α) : List (Event α) :=
  List.ofFn fun i => Event.feature (Mat.ofRow (X i))

/-- Training from state `X`: the regressors after it. Each stage learns from
`A = h(X) - y` and `b = X - x_truth`, then moves to `X - predict(A)`. -/
def trainRegressors (lrn : R → Matrix (Fin N) (Fin Qd) α → Matrix (Fin N) (Fin Pd) α → R)
    (prd : R → (Fin Qd → α) → (Fin Pd → α)) (hrow : (Fin Pd → α) → (Fin Qd → α))
    (Xt : Matrix (Fin N) (Fin Pd) α) (Y : Matrix (Fin N) (Fin Qd) α) :
    List R → Matrix (Fin N) (Fin Pd) α → List R
  | [], _ => []
  | r :: rs, X =>
    let A := stageInput hrow Y X
    let r1 := lrn r A (stageTarget Xt X)
    r1 :: trainRegressors lrn prd hrow Xt Y rs (stageUpdate (prd r1) A X)

/-- Training from state `X`: the states after the stages, in stage order. -/
def trainStates (lrn : R → Matrix (Fin N) (Fin Qd) α → Matrix (Fin N) (Fin Pd) α → R)
    (prd : R → (Fin Qd → α) → (Fin Pd → α)) (hrow : (Fin Pd → α) → (Fin Qd → α))
    (Xt : Matrix (Fin N) (Fin Pd) α) (Y : Matrix (Fin N) (Fin Qd) α) :
    List R → Matrix (Fin N) (Fin Pd) α → List (Matrix (Fin N) (Fin Pd) α)
  | [], _ => []
  | r :: rs, X =>
    let A := stageInput hrow Y X
    let r1 := lrn r A (stageTarget Xt X)
    let X1 := stageUpdate (prd r1) A X
    X1 :: trainStates lrn prd hrow Xt Y rs X1

/-- Training from stage `k` and state `X`: the events. A stage calls `h` on every row,
calls `learn` once, on `(A, b)`, and hands the new state to the callback. -/
def trainEvents (lrn : R → Matrix (Fin N) (Fin Qd) α → Matrix (Fin N) (Fin Pd) α → R)
    (prd : R → (Fin Qd → α) → (Fin Pd → α)) (hrow : (Fin Pd → α) → (Fin Qd → α))
    (Xt : Matrix (Fin N) (Fin Pd) α) (Y : Matrix (Fin N) (Fin Qd) α) :
    ℕ → List R → Matrix (Fin N) (Fin Pd) α → List (Event α)
  | _, [], _ => []
  | k, r :: rs, X =>
    let A := stageInput hrow Y X
    let b := stageTarget Xt X
    let r1 := lrn r A b
    let X1 := stageUpdate (prd r1) A X
    featureEvents X ++ Event.learn k (Mat.of A) (Mat.of b) :: Event.callback (Mat.of X1) ::
      trainEvents lrn prd hrow Xt Y (k + 1) rs X1

/-- Inference from state `X`: the states after the stages, in stage order, with
`X_next[i] = X[i] - predict_k(h(X[i]) - y[i])`. -/
def testStates (prd : R → (Fin Qd → α) → (Fin Pd → α)) (hrow : (Fin Pd → α) → (Fin Qd → α))
    (Y : Matrix (Fin N) (Fin Qd) α) :
    List R → Matrix (Fin N) (Fin Pd) α → List (Matrix (Fin N) (Fin Pd) α)
  | [], _ => []
  | r :: rs, X =>
    let X1 := stageUpdate (prd r) (stageInput hrow Y X) X
    X1 :: testStates prd hrow Y rs X1

/-- Inference from state `X`: the state after the last stage. -/
def testResult (prd : R → (Fin Qd → α) → (Fin Pd → α)) (hrow : (Fin Pd → α) → (Fin Qd → α))
    (Y : Matrix (Fin N) (Fin Qd) α) :
    List R → Matrix (Fin N) (Fin Pd) α → Matrix (Fin N) (Fin Pd) α
  | [], X => X
  | r :: rs, X => testResult prd hrow Y rs (stageUpdate (prd r) (stageInput hrow Y X) X)

/-- Inference from state `X`: the events. A stage calls `h` on every row in its feature
loop and again on every row in its update loop, and hands the new state to the callback. -/
def testEvents (prd : R → (Fin Qd → α) → (Fin Pd → α)) (hrow : (Fin Pd → α) → (Fin Qd → α))
    (Y : Matrix (Fin N) (Fin Qd) α) :
    List R → Matrix (Fin N) (Fin Pd) α → List (Event α)
  | [], _ => []
  | r :: rs, X =>
    let X1 := stageUpdate (prd r) (stageInput hrow Y X) X
    featureEvents X ++ (featureEvents X ++ Event.callback (Mat.of X1) ::
      testEvents prd hrow Y rs X1)

end Spec

/-- The states handed to the observer callback, in order. -/
def callbackStates {α : Type} : List (Event α) → List (Mat α)
  | [] => []
  | Event.callback X :: es => X :: callbackStates es
  | _ :: es => callbackStates es

/-- The `learn` calls, in order: stage, data and labels. -/
def learnCalls {α : Type} : List (Event α) → List (ℕ × Mat α × Mat α)
  | [] => []
  | Event.learn k A b :: es => (k, A, b) :: learnCalls es
  | _ :: es => learnCalls es

/-- The arguments of the calls of `h`, in order. -/
def featureCalls {α : Type} : List (Event α) → List (Mat α)
  | [] => []
  | Event.feature v :: es => v :: featureCalls es
  | _ :: es => featureCalls es

end superviseddescent

/-! ## Concrete inputs -/

namespace superviseddescent

namespace Example

/-- Exact arithmetic on the rationals, with the rational square root. -/
def provider : Provider ℚ := exactProvider Rat.sqrt

/-- The default-constructed regressor, `LinearRegressor()`. -/
def regressor : LinearRegressor ℚ := {}

/-- A regressor with the fitted coefficient matrix `[2]`. -/
def fitted : LinearRegressor ℚ := { x := Mat.of !![(2 : ℚ)] }

/-- The identity as feature function. -/
def hId (v : Mat ℚ) : Mat ℚ := v

end Example

end superviseddescent

/-! ## Basic facts about the embedding -/

namespace superviseddescent

section Basic

variable {α β γ : Type}

theorem Traced.pure_eq (b : β) : (pure b : Traced α β) = Except.ok (b, []) := rfl

theorem Traced.liftM_eq (e : Except Err β) : (liftM e : Traced α β) = Traced.lift e := rfl

theorem Traced.bind_ok {m : Traced α β} {f : β → Traced α γ} {b : β} {t : List (Event α)}
    {c : γ} {u : List (Event α)} (h1 : m = Except.ok (b, t)) (h2 : f b = Except.ok (c, u)) :
    (m >>= f) = Except.ok (c, t ++ u) := by
  subst h1
  show Traced.bind _ _ = _
  simp only [Traced.bind, h2]

theorem Traced.ok_bind (b : β) (t : List (Event α)) (f : β → Traced α γ) :
    @Bind.bind (Traced α) _ β γ (Except.ok (b, t)) f =
      (match f b with
        | Except.error e => Except.error e
        | Except.ok (c, u) => Except.ok (c, t ++ u) : Traced α γ) := rfl

theorem Traced.liftM_ok (b : β) : (liftM (Except.ok b : Except Err β) : Traced α β) =
    Except.ok (b, []) := rfl

theorem Mat.sub_of [Sub α] {n m : ℕ} (A B : Matrix (Fin n) (Fin m) α) :
    (Mat.of A).sub (Mat.of B) = Except.ok (Mat.of (A - B)) := by
  simp only [Mat.sub, Mat.of, and_self, dite_true]
  rfl

theorem Mat.add_of [Add α] {n m : ℕ} (A B : Matrix (Fin n) (Fin m) α) :
    (Mat.of A).add (Mat.of B) = Except.ok (Mat.of (A + B)) := by
  simp only [Mat.add, Mat.of, and_self, dite_true]
  rfl

theorem Mat.mul_of [Mul α] [AddCommMonoid α] {n m k : ℕ} (A : Matrix (Fin n) (Fin m) α)
    (B : Matrix (Fin m) (Fin k) α) :
    (Mat.of A).mul (Mat.of B) = Except.ok (Mat.of (A * B)) := by
  simp only [Mat.mul, Mat.of, dite_true]
  rfl

theorem Mat.t_of {n m : ℕ} (A : Matrix (Fin n) (Fin m) α) :
    (Mat.of A).t = Mat.of A.transpose := rfl

theorem Mat.row_of {n m : ℕ} (A : Matrix (Fin n) (Fin m) α) (i : ℕ) (hi : i < n) :
    (Mat.of A).row i = Except.ok (Mat.ofRow (A ⟨i, hi⟩)) := by
  simp [Mat.row, Mat.of, Mat.ofRow, hi]

theorem Mat.ofRow_sub [Sub α] {m : ℕ} (u v : Fin m → α) :
    (Mat.ofRow u).sub (Mat.ofRow v) = Except.ok (Mat.ofRow (u - v)) := by
  simp only [Mat.sub, Mat.ofRow, and_self, dite_true]
  rfl

theorem Mat.push_back_row {n Q : ℕ} (hn : 0 < n) (hQ : 0 < Q) (g : ℕ → Fin Q → α) :
    (Mat.of (Matrix.of fun (i : Fin n) j => g i.val j)).push_back (Mat.ofRow (g n)) =
      Except.ok (Mat.of (Matrix.of fun (i : Fin (n + 1)) j => g i.val j)) := by
  have h1 : ¬ (n = 0 ∨ Q = 0) := by omega
  simp only [Mat.push_back, Mat.of, Mat.ofRow, one_ne_zero, if_false, h1, dite_true]
  congr 1
  congr 1
  ext i j
  refine Fin.addCases (fun a => ?_) (fun b => ?_) i
  · simp
  · simp

/-- The row-collecting loop, when every `f i` returns one row of `Q ≥ 1` entries: the
result has `n` rows, row `i` being the row returned by `f i`, and the events of the
iterations follow each other. -/
theorem pushRows_rows {n Q : ℕ} (hQ : 0 < Q) (f : ℕ → Traced α (Mat α))
    (g : ℕ → Fin Q → α) (ev : ℕ → List (Event α))
    (hf : ∀ i, i < n + 1 → f i = Except.ok (Mat.ofRow (g i), ev i)) :
    pushRows f (n + 1) =
      Except.ok (Mat.of (Matrix.of fun (i : Fin (n + 1)) j => g i.val j),
        ((List.range (n + 1)).map ev).flatten) := by
  induction n with
  | zero =>
    have h0 := hf 0 (by omega)
    have hpush : (liftM (Mat.empty.push_back (Mat.ofRow (g 0))) : Traced α (Mat α)) =
        Except.ok (Mat.of (Matrix.of fun (i : Fin (0 + 1)) j => g i.val j), []) := by
      simp only [Traced.liftM_eq, Mat.push_back, Mat.ofRow, Mat.empty, one_ne_zero, if_false,
        true_or, if_true, Traced.lift, Mat.of]
      congr 3
      ext i j
      have hi : i = 0 := Subsingleton.elim _ _
      simp [hi]
    refine (Traced.bind_ok (Traced.pure_eq _) (Traced.bind_ok h0 hpush)).trans ?_
    simp [List.range_succ]
  | succ k ih =>
    have hk := ih (fun i hi => hf i (by omega))
    have hlast := hf (k + 1) (by omega)
    have hpush : (liftM ((Mat.of (Matrix.of fun (i : Fin (k + 1)) j => g i.val j)).push_back
        (Mat.ofRow (g (k + 1)))) : Traced α (Mat α)) =
        Except.ok (Mat.of (Matrix.of fun (i : Fin (k + 1 + 1)) j => g i.val j), []) := by
      rw [Traced.liftM_eq, Mat.push_back_row (Nat.succ_pos k) hQ g]
      rfl
    refine (Traced.bind_ok hk (Traced.bind_ok hlast hpush)).trans ?_
    rw [List.range_succ (n := k + 1)]
    simp

/-- The row-collecting loop in typed form: when iteration `i` returns row `i` of `G`, the
loop returns `G`. -/
theorem pushRows_of {n q : ℕ} (f : ℕ → Traced α (Mat α))
    (G : Matrix (Fin (n + 1)) (Fin (q + 1)) α) (ev : Fin (n + 1) → List (Event α))
    (hf : ∀ i : Fin (n + 1), f i.val = Except.ok (Mat.ofRow (G i), ev i)) :
    pushRows f (n + 1) = Except.ok (Mat.of G, (List.ofFn ev).flatten) := by
  have hmin : ∀ i : ℕ, min i n < n + 1 := fun i => by omega
  have key := pushRows_rows (Nat.succ_pos q) f (fun i => G ⟨min i n, hmin i⟩)
    (fun i => ev ⟨min i n, hmin i⟩) (fun i hi => by
      have h1 := hf ⟨i, hi⟩
      have h2 : (⟨min i n, hmin i⟩ : Fin (n + 1)) = ⟨i, hi⟩ := by
        apply Fin.ext
        simp only
        omega
      show f i = Except.ok (Mat.ofRow (G ⟨min i n, hmin i⟩), ev ⟨min i n, hmin i⟩)
      rw [h2]
      exact h1)
  rw [key]
  have e1 : (Matrix.of fun (i : Fin (n + 1)) j => G ⟨min i.val n, hmin i.val⟩ j) = G := by
    ext i j
    have h2 : (⟨min i.val n, hmin i.val⟩ : Fin (n + 1)) = i := by
      apply Fin.ext
      have := i.isLt
      simp only
      omega
    simp [h2]
  have e2 : (List.range (n + 1)).map (fun i => ev ⟨min i n, hmin i⟩) = List.ofFn ev := by
    apply List.ext_getElem
    · simp
    · intro i h1 h2
      simp only [List.getElem_map, List.getElem_range, List.getElem_ofFn]
      congr 1
      apply Fin.ext
      simp only [List.length_map, List.length_range] at h1
      simp only
      omega
  rw [e1, e2]

theorem List.flatten_ofFn_singleton {n : ℕ} (e : Fin n → β) :
    (List.ofFn fun i => [e i]).flatten = List.ofFn e := by
  simp only [List.ofFn_eq_map]
  induction (List.finRange n) with
  | nil => rfl
  | cons a l ih => simp [List.flatten, ih]

theorem List.flatten_ofFn_nil {n : ℕ} :
    (List.ofFn fun (_ : Fin n) => ([] : List β)).flatten = [] := by
  simp only [List.ofFn_eq_map]
  induction (List.finRange n) with
  | nil => rfl
  | cons a l ih => simp [List.flatten, ih]

end Basic

/-! ## The cascade on matrices of known shape -/

section Cascade

variable {α R : Type} [Sub α] {n p q : ℕ}

omit [Sub α] in
/-- The feature loop of `train` and `test`: `h` is called once on every row, in row
order, and the results are stacked. -/
theorem featureLoop_of (h : Mat α → Mat α) (hrow : (Fin (p + 1) → α) → (Fin (q + 1) → α))
    (hh : ∀ v : Fin (p + 1) → α, h (Mat.ofRow v) = Mat.ofRow (hrow v))
    (X : Matrix (Fin (n + 1)) (Fin (p + 1)) α) :
    (pushRows (fun i => do callH h (← (Mat.of X).row i)) (Mat.of X).rows : Traced α (Mat α)) =
      Except.ok (Mat.of (Matrix.of fun i => hrow (X i)), Spec.featureEvents X) := by
  show pushRows _ (n + 1) = _
  rw [pushRows_of _ (Matrix.of fun i => hrow (X i))
    (fun i => [Event.feature (Mat.ofRow (X i))])]
  · rw [List.flatten_ofFn_singleton]
    rfl
  · intro i
    simp only [Mat.row_of X i.val i.isLt, Traced.liftM_ok, Traced.ok_bind, callH, hh,
      List.nil_append, Fin.eta, Matrix.of_apply]
    rfl

/-- The update loop of `train`: row `i` of the new state is `X[i] - predict(A[i])`. -/
theorem trainUpdateLoop_of (ops : RegressorType α R) (r : R)
    (prd : (Fin (q + 1) → α) → (Fin (p + 1) → α))
    (hp : ∀ v : Fin (q + 1) → α, ops.predict r (Mat.ofRow v) = Except.ok (Mat.ofRow (prd v)))
    (A : Matrix (Fin (n + 1)) (Fin (q + 1)) α) (X : Matrix (Fin (n + 1)) (Fin (p + 1)) α) :
    (pushRows (fun i => do
      let prediction ← ops.predict r (← (Mat.of A).row i)
      (← (Mat.of X).row i).sub prediction) (Mat.of X).rows : Traced α (Mat α)) =
      Except.ok (Mat.of (Spec.stageUpdate prd A X), []) := by
  show pushRows _ (n + 1) = _
  rw [pushRows_of _ (Spec.stageUpdate prd A X) (fun _ => [])]
  · rw [List.flatten_ofFn_nil]
  · intro i
    simp only [Mat.row_of X i.val i.isLt, Mat.row_of A i.val i.isLt, Traced.liftM_ok,
      Traced.ok_bind, hp, Mat.ofRow_sub, List.nil_append, Fin.eta]
    rfl

/-- The update loop of `test`: `h` is called again on every row, and row `i` of the new
state is `X[i] - predict(h(X[i]) - y[i])`. -/
theorem testUpdateLoop_of (ops : RegressorType α R) (r : R)
    (prd : (Fin (q + 1) → α) → (Fin (p + 1) → α))
    (hp : ∀ v : Fin (q + 1) → α, ops.predict r (Mat.ofRow v) = Except.ok (Mat.ofRow (prd v)))
    (h : Mat α → Mat α) (hrow : (Fin (p + 1) → α) → (Fin (q + 1) → α))
    (hh : ∀ v : Fin (p + 1) → α, h (Mat.ofRow v) = Mat.ofRow (hrow v))
    (Y : Matrix (Fin (n + 1)) (Fin (q + 1)) α) (X : Matrix (Fin (n + 1)) (Fin (p + 1)) α) :
    (pushRows (fun i => do
      let myInside ← (← callH h (← (Mat.of X).row i)).sub (← (Mat.of Y).row i)
      let prediction ← ops.predict r myInside
      (← (Mat.of X).row i).sub prediction) (Mat.of X).rows : Traced α (Mat α)) =
      Except.ok (Mat.of (Spec.stageUpdate prd (Spec.stageInput hrow Y X) X),
        Spec.featureEvents X) := by
  show pushRows _ (n + 1) = _
  rw [pushRows_of _ (Spec.stageUpdate prd (Spec.stageInput hrow Y X) X)
    (fun i => [Event.feature (Mat.ofRow (X i))])]
  · rw [List.flatten_ofFn_singleton]
    rfl
  · intro i
    simp only [Mat.row_of X i.val i.isLt, Mat.row_of Y i.val i.isLt, Traced.liftM_ok,
      Traced.ok_bind, hp, Mat.ofRow_sub, List.nil_append, List.append_nil, Fin.eta, callH, hh]
    rfl

/-- The method `train` on matrices of known shape, for a regressor that learns from such
matrices and then predicts rows: the regressors after the call and the events are those of
the specification. -/
theorem trainLoop_of (ops : RegressorType α R)
    (lrn : R → Matrix (Fin (n + 1)) (Fin (q + 1)) α → Matrix (Fin (n + 1)) (Fin (p + 1)) α → R)
    (prd : R → (Fin (q + 1) → α) → (Fin (p + 1) → α))
    (h : Mat α → Mat α) (hrow : (Fin (p + 1) → α) → (Fin (q + 1) → α))
    (hh : ∀ v : Fin (p + 1) → α, h (Mat.ofRow v) = Mat.ofRow (hrow v))
    (hl : ∀ r A B, ∃ success, ops.learn r (Mat.of A) (Mat.of B) =
      Except.ok (success, lrn r A B))
    (hp : ∀ r A B v, ops.predict (lrn r A B) (Mat.ofRow v) =
      Except.ok (Mat.ofRow (prd (lrn r A B) v)))
    (Xt : Matrix (Fin (n + 1)) (Fin (p + 1)) α) (Y : Matrix (Fin (n + 1)) (Fin (q + 1)) α)
    (regressors : List R) (k : ℕ) (X : Matrix (Fin (n + 1)) (Fin (p + 1)) α) :
    SupervisedDescentOptimiser.trainLoop ops (Mat.of Xt) (Mat.of Y) h k regressors (Mat.of X) =
      Except.ok (Spec.trainRegressors lrn prd hrow Xt Y regressors X,
        Spec.trainEvents lrn prd hrow Xt Y k regressors X) := by
  induction regressors generalizing k X with
  | nil => rfl
  | cons r rs ih =>
    obtain ⟨success, hlearn⟩ := hl r (Spec.stageInput hrow Y X) (Spec.stageTarget Xt X)
    have hA : (Matrix.of fun i => hrow (X i)) - Y = Spec.stageInput hrow Y X := rfl
    have hb : X - Xt = Spec.stageTarget Xt X := rfl
    rw [SupervisedDescentOptimiser.trainLoop]
    simp only [featureLoop_of h hrow hh X, Traced.ok_bind, Mat.sub_of, Traced.liftM_ok, hA, hb,
      Traced.emit, hlearn,
      trainUpdateLoop_of ops _ _ (hp r (Spec.stageInput hrow Y X) (Spec.stageTarget Xt X)),
      ih, Traced.pure_eq]
    simp [Spec.trainRegressors, Spec.trainEvents]

/-- The method `test` on matrices of known shape, for regressors that predict rows: the
result and the events are those of the specification. -/
theorem testLoop_of (ops : RegressorType α R) (prd : R → (Fin (q + 1) → α) → (Fin (p + 1) → α))
    (h : Mat α → Mat α) (hrow : (Fin (p + 1) → α) → (Fin (q + 1) → α))
    (hh : ∀ v : Fin (p + 1) → α, h (Mat.ofRow v) = Mat.ofRow (hrow v))
    (Y : Matrix (Fin (n + 1)) (Fin (q + 1)) α) (regressors : List R)
    (hp : ∀ r ∈ regressors, ∀ v, ops.predict r (Mat.ofRow v) = Except.ok (Mat.ofRow (prd r v)))
    (X : Matrix (Fin (n + 1)) (Fin (p + 1)) α) :
    SupervisedDescentOptimiser.testLoop ops (Mat.of Y) h regressors (Mat.of X) =
      Except.ok (Mat.of (Spec.testResult prd hrow Y regressors X),
        Spec.testEvents prd hrow Y regressors X) := by
  induction regressors generalizing X with
  | nil => rfl
  | cons r rs ih =>
    have hA : (Matrix.of fun i => hrow (X i)) - Y = Spec.stageInput hrow Y X := rfl
    rw [SupervisedDescentOptimiser.testLoop]
    simp only [featureLoop_of h hrow hh X, Traced.ok_bind, Mat.sub_of, Traced.liftM_ok, hA,
      Traced.emit,
      testUpdateLoop_of ops r (prd r) (hp r (List.mem_cons_self r rs)) h hrow hh Y X,
      ih (fun r1 hr1 => hp r1 (List.mem_cons_of_mem r hr1))]
    simp [Spec.testResult, Spec.testEvents]

end Cascade

/-! ## The regulariser and the linear regressor on matrices of known shape -/

section Linear

variable {α : Type} [Field α]

theorem Mat.toMatrix_of {n k : ℕ} (X : Matrix (Fin n) (Fin k) α) :
    (Mat.of X).toMatrix n k = X := by
  ext i j
  simp [Mat.toMatrix, Mat.of]

theorem exactProvider_exactLU [DecidableEq α] (sqrt : α → α) :
    (exactProvider sqrt).ExactLU where
  isInvertible_iff n A := by
    simp only [exactProvider, Mat.of, dite_true, decide_eq_true_eq, isUnit_iff_ne_zero]
    rfl
  inverse_eq n A hA := by
    simp only [exactProvider, Mat.of, dite_true, Matrix.inv_def, Ring.inverse_eq_inv']
    rfl
  inverse_shape n A := by
    refine ⟨A.det⁻¹ • A.adjugate, ?_⟩
    simp only [exactProvider, Mat.of, dite_true]
    rfl

/-- The regularisation matrix with every diagonal entry regularised. -/
theorem Regulariser.getMatrix_lastRow (P : Provider α) (self : Regulariser α)
    (hlast : self.regulariseLastRow = true) (data : Mat α) (numTrainingElements : ℤ) :
    self.getMatrix P data numTrainingElements =
      Except.ok (⟨data.rows, data.cols, Matrix.of fun i j =>
          if i.val = j.val then self.switchLambda P data numTrainingElements else 0⟩,
        { self with lambda := self.switchLambda P data numTrainingElements }) := by
  simp only [Regulariser.getMatrix, hlast, Bool.not_true, Bool.false_eq_true, if_false,
    Mat.scale, Mat.eye, Matrix.of_apply]
  congr 3
  ext i j
  by_cases hij : i.val = j.val <;> simp [hij]

/-- The regularisation matrix for a square matrix, every diagonal entry regularised. -/
theorem Regulariser.getMatrix_square (P : Provider α) (self : Regulariser α)
    (hlast : self.regulariseLastRow = true) {d : ℕ} (data : Matrix (Fin d) (Fin d) α)
    (numTrainingElements : ℤ) :
    self.getMatrix P (Mat.of data) numTrainingElements =
      Except.ok (Mat.of (self.switchLambda P (Mat.of data) numTrainingElements •
          (1 : Matrix (Fin d) (Fin d) α)),
        { self with lambda := self.switchLambda P (Mat.of data) numTrainingElements }) := by
  rw [Regulariser.getMatrix_lastRow P self hlast (Mat.of data) numTrainingElements]
  congr 2
  simp only [Mat.of]
  congr 1
  ext i j
  simp [Matrix.one_apply, Fin.ext_iff]

/-- The regularisation matrix with the last diagonal entry exempt. -/
theorem Regulariser.getMatrix_noLastRow (P : Provider α) (self : Regulariser α)
    (hlast : self.regulariseLastRow = false) {r c : ℕ}
    (data : Matrix (Fin (r + 1)) (Fin (c + 1)) α) (numTrainingElements : ℤ) :
    self.getMatrix P (Mat.of data) numTrainingElements =
      Except.ok (Mat.of (Matrix.of fun (i : Fin (r + 1)) (j : Fin (c + 1)) =>
          if i.val = r ∧ j.val = c then 0
          else if i.val = j.val then self.switchLambda P (Mat.of data) numTrainingElements
          else 0),
        { self with lambda := self.switchLambda P (Mat.of data) numTrainingElements }) := by
  have hb : (0 : ℤ) ≤ (r : ℤ) + 1 - 1 ∧ (r : ℤ) + 1 - 1 < (r : ℤ) + 1 ∧
      (0 : ℤ) ≤ (c : ℤ) + 1 - 1 ∧ (c : ℤ) + 1 - 1 < (c : ℤ) + 1 := by omega
  generalize hlam : self.switchLambda P (Mat.of data) numTrainingElements = lam
  simp only [Regulariser.getMatrix, hlam, hlast, Bool.not_false, if_true]
  simp only [Mat.setAt, Mat.scale, Mat.eye, Mat.of, Nat.cast_add, Nat.cast_one, hb, and_self,
    if_true, bind, Except.bind, pure, Except.pure]
  congr 3
  ext i j
  simp only [Matrix.of_apply]
  have e1 : ((i.val : ℤ) = (r : ℤ) + 1 - 1 ∧ (j.val : ℤ) = (c : ℤ) + 1 - 1) ↔
      (i.val = r ∧ j.val = c) := by omega
  simp only [e1]
  by_cases h1 : i.val = r ∧ j.val = c
  · simp [h1]
  · simp only [h1, if_false]
    by_cases h2 : i.val = j.val <;> simp [h2]

/-- On a non-empty square matrix `getMatrix` returns a matrix of the same shape. -/
theorem Regulariser.getMatrix_ok (P : Provider α) (self : Regulariser α) {d : ℕ}
    (data : Matrix (Fin (d + 1)) (Fin (d + 1)) α) (numTrainingElements : ℤ) :
    ∃ (Rm : Matrix (Fin (d + 1)) (Fin (d + 1)) α) (reg : Regulariser α),
      self.getMatrix P (Mat.of data) numTrainingElements = Except.ok (Mat.of Rm, reg) := by
  cases hlast : self.regulariseLastRow with
  | true => exact ⟨_, _, Regulariser.getMatrix_square P self hlast data numTrainingElements⟩
  | false => exact ⟨_, _, Regulariser.getMatrix_noLastRow P self hlast data numTrainingElements⟩

/-- The call `learn` on matrices of known shape, given the regularisation matrix. -/
theorem LinearRegressor.learn_of (P : Provider α) (self : LinearRegressor α) {n d m : ℕ}
    (data : Matrix (Fin n) (Fin d) α) (labels : Matrix (Fin n) (Fin m) α)
    (Rm Inv : Matrix (Fin d) (Fin d) α) (reg : Regulariser α)
    (hR : self.regulariser.getMatrix P (Mat.of (data.transpose * data)) (n : ℤ) =
      Except.ok (Mat.of Rm, reg))
    (hInv : P.inverse (Mat.of (data.transpose * data + Rm)) = Mat.of Inv) :
    self.learn P (Mat.of data) (Mat.of labels) =
      Except.ok (P.isInvertible (Mat.of (data.transpose * data + Rm)),
        { x := Mat.of (Inv * data.transpose * labels), regulariser := reg }) := by
  have hrows : (((Mat.of data).rows : ℕ) : ℤ) = (n : ℤ) := rfl
  simp only [LinearRegressor.learn, Mat.t_of, Mat.mul_of, hrows, hR, Mat.add_of, hInv,
    bind, Except.bind, pure, Except.pure]

theorem LinearRegressor.predict_of (self : LinearRegressor α) {q p : ℕ}
    (X : Matrix (Fin q) (Fin p) α) (hx : self.x = Mat.of X) (v : Fin q → α) :
    self.predict (Mat.ofRow v) = Except.ok (Mat.ofRow (Matrix.vecMul v X)) := by
  obtain ⟨x, reg⟩ := self
  simp only at hx
  subst hx
  simp only [LinearRegressor.predict, Mat.mul, Mat.ofRow, Mat.of, dite_true]
  congr 2

/-- With a decomposition that keeps the shape, `learn` on a data matrix with at least one
column raises no error and stores a coefficient matrix with one row per data column and
one column per label column. -/
theorem LinearRegressor.learn_ok (P : Provider α) (hP : P.ExactLU) (self : LinearRegressor α)
    {n q p : ℕ} (data : Matrix (Fin n) (Fin (q + 1)) α) (labels : Matrix (Fin n) (Fin p) α) :
    ∃ (success : Bool) (X : Matrix (Fin (q + 1)) (Fin p) α) (reg : Regulariser α),
      self.learn P (Mat.of data) (Mat.of labels) =
        Except.ok (success, { x := Mat.of X, regulariser := reg }) := by
  obtain ⟨Rm, reg, hR⟩ := self.regulariser.getMatrix_ok P (data.transpose * data) (n : ℤ)
  obtain ⟨Inv, hInv⟩ := hP.inverse_shape _ (data.transpose * data + Rm)
  exact ⟨_, _, _, LinearRegressor.learn_of P self data labels Rm Inv reg hR hInv⟩

theorem linearRegressorType_learn (P : Provider α) (hP : P.ExactLU) {n q p : ℕ}
    (r : LinearRegressor α) (A : Matrix (Fin n) (Fin (q + 1)) α)
    (B : Matrix (Fin n) (Fin p) α) :
    ∃ success, (linearRegressorType P).learn r (Mat.of A) (Mat.of B) =
      Except.ok (success, r.learned P A B) := by
  obtain ⟨success, X, reg, h⟩ := LinearRegressor.learn_ok P hP r A B
  refine ⟨success, ?_⟩
  show r.learn P (Mat.of A) (Mat.of B) = _
  simp only [LinearRegressor.learned, h]

theorem linearRegressorType_predict (P : Provider α) (hP : P.ExactLU) {n q p : ℕ}
    (r : LinearRegressor α) (A : Matrix (Fin n) (Fin (q + 1)) α)
    (B : Matrix (Fin n) (Fin p) α) (v : Fin (q + 1) → α) :
    (linearRegressorType P).predict (r.learned P A B) (Mat.ofRow v) =
      Except.ok (Mat.ofRow ((r.learned P A B).predictRow v : Fin p → α)) := by
  obtain ⟨success, X, reg, h⟩ := LinearRegressor.learn_ok P hP r A B
  have hx : (r.learned P A B).x = Mat.of X := by
    simp only [LinearRegressor.learned, h]
  show (r.learned P A B).predict (Mat.ofRow v) = _
  rw [LinearRegressor.predict_of _ X hx v]
  simp only [LinearRegressor.predictRow, hx, Mat.toMatrix_of]

end Linear

/-! ## Events of the specification -/

section Events

variable {α R : Type} [Sub α] {N Pd Qd : ℕ}

omit [Sub α] in
theorem callbackStates_featureEvents (X : Matrix (Fin N) (Fin Pd) α) (l : List (Event α)) :
    callbackStates (Spec.featureEvents X ++ l) = callbackStates l := by
  simp only [Spec.featureEvents, List.ofFn_eq_map]
  induction (List.finRange N) with
  | nil => rfl
  | cons a t ih => simpa [callbackStates] using ih

omit [Sub α] in
theorem learnCalls_featureEvents (X : Matrix (Fin N) (Fin Pd) α) (l : List (Event α)) :
    learnCalls (Spec.featureEvents X ++ l) = learnCalls l := by
  simp only [Spec.featureEvents, List.ofFn_eq_map]
  induction (List.finRange N) with
  | nil => rfl
  | cons a t ih => simpa [learnCalls] using ih

omit [Sub α] in
theorem featureCalls_featureEvents (X : Matrix (Fin N) (Fin Pd) α) (l : List (Event α)) :
    featureCalls (Spec.featureEvents X ++ l) =
      (List.ofFn fun i => Mat.ofRow (X i)) ++ featureCalls l := by
  simp only [Spec.featureEvents, List.ofFn_eq_map]
  induction (List.finRange N) with
  | nil => rfl
  | cons a t ih => simpa [featureCalls] using ih

variable (lrn : R → Matrix (Fin N) (Fin Qd) α → Matrix (Fin N) (Fin Pd) α → R)
  (prd : R → (Fin Qd → α) → (Fin Pd → α)) (hrow : (Fin Pd → α) → (Fin Qd → α))
  (Xt : Matrix (Fin N) (Fin Pd) α) (Y : Matrix (Fin N) (Fin Qd) α)

theorem callbackStates_trainEvents (regressors : List R) (k : ℕ)
    (X : Matrix (Fin N) (Fin Pd) α) :
    callbackStates (Spec.trainEvents lrn prd hrow Xt Y k regressors X) =
      (Spec.trainStates lrn prd hrow Xt Y regressors X).map Mat.of := by
  induction regressors generalizing k X with
  | nil => rfl
  | cons r rs ih =>
    simp only [Spec.trainEvents, Spec.trainStates, callbackStates_featureEvents, callbackStates,
      ih, List.map_cons]

theorem callbackStates_testEvents (regressors : List R) (X : Matrix (Fin N) (Fin Pd) α) :
    callbackStates (Spec.testEvents prd hrow Y regressors X) =
      (Spec.testStates prd hrow Y regressors X).map Mat.of := by
  induction regressors generalizing X with
  | nil => rfl
  | cons r rs ih =>
    simp only [Spec.testEvents, Spec.testStates, callbackStates_featureEvents, callbackStates,
      ih, List.map_cons]

theorem learnCalls_testEvents (regressors : List R) (X : Matrix (Fin N) (Fin Pd) α) :
    learnCalls (Spec.testEvents prd hrow Y regressors X) = [] := by
  induction regressors generalizing X with
  | nil => rfl
  | cons r rs ih =>
    simp only [Spec.testEvents, learnCalls_featureEvents, learnCalls, ih]

/-- Inference on the trained regressors passes through the states of training. -/
theorem testStates_trainRegressors (regressors : List R) (X : Matrix (Fin N) (Fin Pd) α) :
    Spec.testStates prd hrow Y (Spec.trainRegressors lrn prd hrow Xt Y regressors X) X =
      Spec.trainStates lrn prd hrow Xt Y regressors X := by
  induction regressors generalizing X with
  | nil => rfl
  | cons r rs ih =>
    simp only [Spec.trainRegressors, Spec.testStates, Spec.trainStates, ih]

/-- The result of inference is the last of its states, or the start without stages. -/
theorem testResult_eq_getLast (regressors : List R) (X : Matrix (Fin N) (Fin Pd) α) :
    Spec.testResult prd hrow Y regressors X =
      ((Spec.testStates prd hrow Y regressors X).getLast?).getD X := by
  induction regressors generalizing X with
  | nil => rfl
  | cons r rs ih =>
    simp only [Spec.testResult, Spec.testStates, ih]
    cases hrs : Spec.testStates prd hrow Y rs
        (Spec.stageUpdate (prd r) (Spec.stageInput hrow Y X) X) with
    | nil => simp
    | cons a l =>
      rw [List.getLast?_cons_cons, List.getLast?_eq_getLast _ (List.cons_ne_nil a l)]
      rfl

theorem length_trainRegressors (regressors : List R) (X : Matrix (Fin N) (Fin Pd) α) :
    (Spec.trainRegressors lrn prd hrow Xt Y regressors X).length = regressors.length := by
  induction regressors generalizing X with
  | nil => rfl
  | cons r rs ih => simp only [Spec.trainRegressors, List.length_cons, ih]

theorem length_trainStates (regressors : List R) (X : Matrix (Fin N) (Fin Pd) α) :
    (Spec.trainStates lrn prd hrow Xt Y regressors X).length = regressors.length := by
  induction regressors generalizing X with
  | nil => rfl
  | cons r rs ih => simp only [Spec.trainStates, List.length_cons, ih]

theorem length_testStates (regressors : List R) (X : Matrix (Fin N) (Fin Pd) α) :
    (Spec.testStates prd hrow Y regressors X).length = regressors.length := by
  induction regressors generalizing X with
  | nil => rfl
  | cons r rs ih => simp only [Spec.testStates, List.length_cons, ih]

theorem length_learnCalls_trainEvents (regressors : List R) (k : ℕ)
    (X : Matrix (Fin N) (Fin Pd) α) :
    (learnCalls (Spec.trainEvents lrn prd hrow Xt Y k regressors X)).length =
      regressors.length := by
  induction regressors generalizing k X with
  | nil => rfl
  | cons r rs ih =>
    simp only [Spec.trainEvents, learnCalls_featureEvents, learnCalls, List.length_cons, ih]

/-- Stage `k` of training, read off the lists: the regressor learns from `A = h(X) - y` and
`b = X - x_truth` in the `k`-th call of `learn`, and the next state is `X - predict(A)`. -/
theorem trainSpec_stage (regressors : List R) (k0 : ℕ) (X0 : Matrix (Fin N) (Fin Pd) α)
    (k : ℕ) (r : R) (X : Matrix (Fin N) (Fin Pd) α) (hr : regressors[k]? = some r)
    (hX : (X0 :: Spec.trainStates lrn prd hrow Xt Y regressors X0)[k]? = some X) :
    (Spec.trainRegressors lrn prd hrow Xt Y regressors X0)[k]? =
        some (lrn r (Spec.stageInput hrow Y X) (Spec.stageTarget Xt X)) ∧
      (learnCalls (Spec.trainEvents lrn prd hrow Xt Y k0 regressors X0))[k]? =
        some (k0 + k, Mat.of (Spec.stageInput hrow Y X), Mat.of (Spec.stageTarget Xt X)) ∧
      (Spec.trainStates lrn prd hrow Xt Y regressors X0)[k]? =
        some (Spec.stageUpdate (prd (lrn r (Spec.stageInput hrow Y X) (Spec.stageTarget Xt X)))
          (Spec.stageInput hrow Y X) X) := by
  induction regressors generalizing k0 X0 k with
  | nil => simp at hr
  | cons r0 rs ih =>
    cases k with
    | zero =>
      simp only [List.getElem?_cons_zero, Option.some.injEq] at hr hX
      subst hr hX
      simp only [Spec.trainRegressors, Spec.trainEvents, Spec.trainStates,
        learnCalls_featureEvents, learnCalls, List.getElem?_cons_zero, Nat.add_zero, and_self]
    | succ k1 =>
      simp only [List.getElem?_cons_succ] at hr
      simp only [Spec.trainStates, List.getElem?_cons_succ] at hX
      have h3 := ih (k0 + 1) _ k1 hr hX
      simp only [Spec.trainRegressors, Spec.trainEvents, Spec.trainStates,
        learnCalls_featureEvents, learnCalls, List.getElem?_cons_succ]
      refine ⟨h3.1, ?_, h3.2.2⟩
      rw [h3.2.1]
      congr 2
      omega

/-- Stage `k` of inference, read off the list of states. -/
theorem testSpec_stage (regressors : List R) (X0 : Matrix (Fin N) (Fin Pd) α)
    (k : ℕ) (r : R) (X : Matrix (Fin N) (Fin Pd) α) (hr : regressors[k]? = some r)
    (hX : (X0 :: Spec.testStates prd hrow Y regressors X0)[k]? = some X) :
    (Spec.testStates prd hrow Y regressors X0)[k]? =
      some (Spec.stageUpdate (prd r) (Spec.stageInput hrow Y X) X) := by
  induction regressors generalizing X0 k with
  | nil => simp at hr
  | cons r0 rs ih =>
    cases k with
    | zero =>
      simp only [List.getElem?_cons_zero, Option.some.injEq] at hr hX
      subst hr hX
      simp only [Spec.testStates, List.getElem?_cons_zero]
    | succ k1 =>
      simp only [List.getElem?_cons_succ] at hr
      simp only [Spec.testStates, List.getElem?_cons_succ] at hX
      simpa only [Spec.testStates, List.getElem?_cons_succ] using ih _ k1 hr hX

theorem mem_trainRegressors (regressors : List R) (X : Matrix (Fin N) (Fin Pd) α) (r1 : R)
    (h1 : r1 ∈ Spec.trainRegressors lrn prd hrow Xt Y regressors X) :
    ∃ r A B, r1 = lrn r A B := by
  induction regressors generalizing X with
  | nil => simp [Spec.trainRegressors] at h1
  | cons r rs ih =>
    simp only [Spec.trainRegressors, List.mem_cons] at h1
    rcases h1 with h1 | h1
    · exact ⟨_, _, _, h1⟩
    · exact ih _ h1

end Events

end superviseddescent

/-! ## Linear algebra behind `learn` -/

namespace superviseddescent

section LearnAlgebra

variable {α : Type} [Field α]

theorem isUnit_det_iff_rank {α : Type} [Field α] {d : ℕ} (M : Matrix (Fin d) (Fin d) α) :
    IsUnit M.det ↔ M.rank = d := by
  constructor
  · intro h
    have := Matrix.rank_of_isUnit M ((Matrix.isUnit_iff_isUnit_det M).2 h)
    simpa using this
  · intro h
    rw [← Matrix.isUnit_iff_isUnit_det, ← Matrix.mulVec_surjective_iff_isUnit]
    have h1 : LinearMap.range M.mulVecLin = ⊤ := by
      apply Submodule.eq_top_of_finrank_eq
      rw [← Matrix.rank, h]
      simp
    intro v
    have hv : v ∈ LinearMap.range M.mulVecLin := by rw [h1]; trivial
    obtain ⟨w, hw⟩ := hv
    exact ⟨w, by simpa using hw⟩

theorem nonsing_solution {d m : ℕ} (M : Matrix (Fin d) (Fin d) α) (hM : IsUnit M.det)
    (c : Matrix (Fin d) (Fin m) α) :
    M * (M⁻¹ * c) = c ∧ ∀ w : Matrix (Fin d) (Fin m) α, M * w = c → w = M⁻¹ * c := by
  constructor
  · rw [← Matrix.mul_assoc, Matrix.mul_nonsing_inv M hM, Matrix.one_mul]
  · intro w hw
    rw [← hw, ← Matrix.mul_assoc, Matrix.nonsing_inv_mul M hM, Matrix.one_mul]

theorem LinearRegressor.learn_invertible (P : Provider α) (hP : P.ExactLU)
    (self : LinearRegressor α) {n d m : ℕ}
    (data : Matrix (Fin n) (Fin d) α) (labels : Matrix (Fin n) (Fin m) α)
    (Rm : Matrix (Fin d) (Fin d) α) (reg : Regulariser α)
    (hR : self.regulariser.getMatrix P (Mat.of (data.transpose * data)) (n : ℤ) =
      Except.ok (Mat.of Rm, reg))
    (hinv : IsUnit (data.transpose * data + Rm).det) :
    self.learn P (Mat.of data) (Mat.of labels) =
      Except.ok (true,
        { x := Mat.of ((data.transpose * data + Rm)⁻¹ * data.transpose * labels),
          regulariser := reg }) := by
  rw [LinearRegressor.learn_of P self data labels Rm _ reg hR (hP.inverse_eq d _ hinv),
    (hP.isInvertible_iff d _).2 hinv]

/-- Whatever the decomposition says, `learn` stores a coefficient matrix with one row per
data column and one column per label column, and returns `isInvertible()`. -/
theorem LinearRegressor.learn_result (P : Provider α) (hP : P.ExactLU)
    (self : LinearRegressor α) {n d m : ℕ}
    (data : Matrix (Fin n) (Fin d) α) (labels : Matrix (Fin n) (Fin m) α)
    (Rm : Matrix (Fin d) (Fin d) α) (reg : Regulariser α)
    (hR : self.regulariser.getMatrix P (Mat.of (data.transpose * data)) (n : ℤ) =
      Except.ok (Mat.of Rm, reg)) :
    ∃ X : Matrix (Fin d) (Fin m) α,
      self.learn P (Mat.of data) (Mat.of labels) =
        Except.ok (P.isInvertible (Mat.of (data.transpose * data + Rm)),
          { x := Mat.of X, regulariser := reg }) := by
  obtain ⟨Inv, hInv⟩ := hP.inverse_shape d (data.transpose * data + Rm)
  exact ⟨_, LinearRegressor.learn_of P self data labels Rm Inv reg hR hInv⟩

theorem Mat.of_injective {n m : ℕ} (A B : Matrix (Fin n) (Fin m) α)
    (h : Mat.of A = Mat.of B) : A = B := by
  have h2 := congrArg (fun M => M.toMatrix n m) h
  simpa only [Mat.toMatrix_of] using h2

/-- A data matrix with linearly dependent columns has a singular normal-equation matrix. -/
theorem det_transpose_mul_self_eq_zero {n d : ℕ} (data : Matrix (Fin n) (Fin d) α)
    (v : Fin d → α) (hv : v ≠ 0) (hzero : data.mulVec v = 0) :
    (data.transpose * data).det = 0 := by
  apply Matrix.exists_mulVec_eq_zero_iff.1
  refine ⟨v, hv, ?_⟩
  rw [← Matrix.mulVec_mulVec, hzero, Matrix.mulVec_zero]

/-- Two equal columns are linearly dependent. -/
theorem exists_kernel_of_equal_columns {n d : ℕ} (data : Matrix (Fin n) (Fin d) α)
    (j1 j2 : Fin d) (hne : j1 ≠ j2) (heq : ∀ i, data i j1 = data i j2) :
    ∃ v : Fin d → α, v ≠ 0 ∧ data.mulVec v = 0 := by
  refine ⟨Pi.single j1 1 - Pi.single j2 1, ?_, ?_⟩
  · intro h
    have h1 := congrFun h j1
    simp [Pi.single_apply, hne] at h1
  · ext i
    simp [Matrix.mulVec_sub, Matrix.mulVec_single, heq i]

end LearnAlgebra

section Ridge

variable {α : Type} [LinearOrderedField α]

/-- Frobenius inner product as a trace. -/
theorem sumSq_of_eq_trace {n m : ℕ} (U : Matrix (Fin n) (Fin m) α) :
    (Mat.of U).sumSq = (U.transpose * U).trace := by
  simp only [Mat.sumSq, Mat.of, Matrix.trace, Matrix.diag_apply, Matrix.mul_apply,
    Matrix.transpose_apply]
  exact Finset.sum_comm

theorem sumSq_of_nonneg {n m : ℕ} (U : Matrix (Fin n) (Fin m) α) : 0 ≤ (Mat.of U).sumSq :=
  Finset.sum_nonneg fun _ _ => Finset.sum_nonneg fun _ _ => mul_self_nonneg _

theorem trace_transpose_mul_comm {n m : ℕ} (U V : Matrix (Fin n) (Fin m) α) :
    (U.transpose * V).trace = (V.transpose * U).trace := by
  rw [← Matrix.trace_transpose, Matrix.transpose_mul, Matrix.transpose_transpose]

theorem sumSq_add {n m : ℕ} (U V : Matrix (Fin n) (Fin m) α) :
    (Mat.of (U + V)).sumSq =
      (Mat.of U).sumSq + 2 * (U.transpose * V).trace + (Mat.of V).sumSq := by
  simp only [sumSq_of_eq_trace, Matrix.transpose_add, Matrix.add_mul, Matrix.mul_add,
    Matrix.trace_add]
  rw [trace_transpose_mul_comm V U]
  ring

/-- The solution of the regularised normal equations minimises the ridge objective. -/
theorem ridge_minimiser {n d m : ℕ} (A : Matrix (Fin n) (Fin d) α) (b : Matrix (Fin n) (Fin m) α)
    (lam : α) (hlam : 0 ≤ lam) (x : Matrix (Fin d) (Fin m) α)
    (hx : (A.transpose * A + lam • (1 : Matrix (Fin d) (Fin d) α)) * x = A.transpose * b)
    (w : Matrix (Fin d) (Fin m) α) :
    (Mat.of (A * x - b)).sumSq + lam * (Mat.of x).sumSq ≤
      (Mat.of (A * w - b)).sumSq + lam * (Mat.of w).sumSq := by
  obtain ⟨e, rfl⟩ : ∃ e, w = x + e := ⟨w - x, by abel⟩
  have hw1 : A * (x + e) - b = (A * x - b) + A * e := by
    rw [Matrix.mul_add]; abel
  have hcross : ((A * x - b).transpose * (A * e)).trace +
      lam * (x.transpose * e).trace = 0 := by
    have h1 : (A * x - b).transpose * (A * e) =
        (A.transpose * (A * x - b)).transpose * e := by
      rw [Matrix.transpose_mul, Matrix.transpose_transpose, Matrix.mul_assoc]
    have h2 : A.transpose * (A * x - b) = -(lam • x) := by
      have : A.transpose * A * x + lam • x = A.transpose * b := by
        rw [← hx, Matrix.add_mul, Matrix.smul_mul, Matrix.one_mul]
      rw [Matrix.mul_sub, ← Matrix.mul_assoc, ← this]
      abel
    rw [h1, h2]
    simp [Matrix.trace_neg, Matrix.trace_smul]
  rw [hw1, sumSq_add, sumSq_add]
  have h3 := sumSq_of_nonneg (A * e)
  have h4 := sumSq_of_nonneg e
  nlinarith [mul_nonneg hlam h4]

end Ridge

end superviseddescent

/-! ## Claims on the cascade -/

namespace superviseddescent

section CascadeExample

theorem Example.stageInput_eq :
    Spec.stageInput (id : (Fin 1 → ℚ) → (Fin 1 → ℚ)) !![(2 : ℚ)] !![(3 : ℚ)] = !![(1 : ℚ)] := by
  ext i j
  fin_cases i; fin_cases j
  simp [Spec.stageInput]
  norm_num

theorem Example.stageTarget_eq : Spec.stageTarget !![(1 : ℚ)] !![(3 : ℚ)] = !![(2 : ℚ)] := by
  ext i j
  fin_cases i; fin_cases j
  simp [Spec.stageTarget]
  norm_num

theorem Example.learned_eq :
    Example.regressor.learned Example.provider !![(1 : ℚ)] !![(2 : ℚ)] =
      { x := Mat.of !![(2 : ℚ)], regulariser := {} } := by
  have hR := Regulariser.getMatrix_square Example.provider Example.regressor.regulariser rfl
    ((!![(1 : ℚ)]).transpose * !![(1 : ℚ)]) ((1 : ℕ) : ℤ)
  have hM : (!![(1 : ℚ)]).transpose * !![(1 : ℚ)] +
      Example.regressor.regulariser.switchLambda Example.provider
        (Mat.of ((!![(1 : ℚ)]).transpose * !![(1 : ℚ)])) ((1 : ℕ) : ℤ) •
        (1 : Matrix (Fin 1) (Fin 1) ℚ) = 1 := by
    ext i j
    fin_cases i; fin_cases j
    simp [Matrix.mul_apply, Matrix.transpose_apply, Regulariser.switchLambda, Example.regressor]
  have hx : (1 : Matrix (Fin 1) (Fin 1) ℚ)⁻¹ * (!![(1 : ℚ)]).transpose * !![(2 : ℚ)] =
      !![(2 : ℚ)] := by
    ext i j
    fin_cases i; fin_cases j
    simp [Matrix.mul_apply, Matrix.transpose_apply]
  have hl := LinearRegressor.learn_invertible Example.provider (exactProvider_exactLU Rat.sqrt)
    Example.regressor !![(1 : ℚ)] !![(2 : ℚ)] _ _ hR (by rw [hM]; simp)
  rw [hM, hx] at hl
  simp only [LinearRegressor.learned, hl]
  rfl

theorem Example.stageUpdate_eq :
    Spec.stageUpdate (LinearRegressor.predictRow
      ({ x := Mat.of !![(2 : ℚ)], regulariser := {} } : LinearRegressor ℚ))
      !![(1 : ℚ)] !![(3 : ℚ)] = !![(1 : ℚ)] := by
  ext i j
  fin_cases i; fin_cases j
  simp [Spec.stageUpdate, LinearRegressor.predictRow, Mat.toMatrix_of, Matrix.vecMul,
    Matrix.dotProduct, Matrix.vecHead]
  norm_num

end CascadeExample

section CascadeClaims

variable {α R : Type} [Sub α] {N Pd Qd : ℕ}

/-- C1: `train` processes the stages in order. At stage `k`, with state `X` (the start `x0`
for `k = 0`, else the state after stage `k - 1`), it calls `learn` once, on that stage's
regressor, with input `A = h(X) - y` (`h` row by row) and target `b = X - x_truth`, and the
state after the stage has the rows `X[i] - predict(A[i])`, predicted by the regressor just
learned. The `k`-th `learn` call is the one of stage `k`, there are as many `learn` calls as
stages, and the callback sees the states after the stages. -/
theorem train_stages (ops : RegressorType α R)
    (hN : 0 < N) (hPd : 0 < Pd) (hQd : 0 < Qd)
    (lrn : R → Matrix (Fin N) (Fin Qd) α → Matrix (Fin N) (Fin Pd) α → R)
    (prd : R → (Fin Qd → α) → (Fin Pd → α))
    (h : Mat α → Mat α) (hrow : (Fin Pd → α) → (Fin Qd → α))
    (hh : ∀ v : Fin Pd → α, h (Mat.ofRow v) = Mat.ofRow (hrow v))
    (hl : ∀ r A B, ∃ success, ops.learn r (Mat.of A) (Mat.of B) =
      Except.ok (success, lrn r A B))
    (hp : ∀ r A B v, ops.predict (lrn r A B) (Mat.ofRow v) =
      Except.ok (Mat.ofRow (prd (lrn r A B) v)))
    (Xt : Matrix (Fin N) (Fin Pd) α) (Y : Matrix (Fin N) (Fin Qd) α)
    (X0 : Matrix (Fin N) (Fin Pd) α) (regressors : List R) :
    SupervisedDescentOptimiser.train ops regressors (Mat.of Xt) (Mat.of Y) (Mat.of X0) h =
        Except.ok (Spec.trainRegressors lrn prd hrow Xt Y regressors X0,
          Spec.trainEvents lrn prd hrow Xt Y 0 regressors X0) ∧
      (learnCalls (Spec.trainEvents lrn prd hrow Xt Y 0 regressors X0)).length =
        regressors.length ∧
      callbackStates (Spec.trainEvents lrn prd hrow Xt Y 0 regressors X0) =
        (Spec.trainStates lrn prd hrow Xt Y regressors X0).map Mat.of ∧
      ∀ (k : ℕ) (r : R) (X : Matrix (Fin N) (Fin Pd) α),
        regressors[k]? = some r →
        (X0 :: Spec.trainStates lrn prd hrow Xt Y regressors X0)[k]? = some X →
        ∃ (A : Matrix (Fin N) (Fin Qd) α) (b X1 : Matrix (Fin N) (Fin Pd) α),
          (∀ i, A i = hrow (X i) - Y i) ∧ b = X - Xt ∧
          (∀ i, X1 i = X i - prd (lrn r A b) (A i)) ∧
          (Spec.trainRegressors lrn prd hrow Xt Y regressors X0)[k]? = some (lrn r A b) ∧
          (learnCalls (Spec.trainEvents lrn prd hrow Xt Y 0 regressors X0))[k]? =
            some (k, Mat.of A, Mat.of b) ∧
          (Spec.trainStates lrn prd hrow Xt Y regressors X0)[k]? = some X1 := by
  obtain ⟨n, rfl⟩ : ∃ n, N = n + 1 := ⟨N - 1, by omega⟩
  obtain ⟨p, rfl⟩ : ∃ p, Pd = p + 1 := ⟨Pd - 1, by omega⟩
  obtain ⟨q, rfl⟩ : ∃ q, Qd = q + 1 := ⟨Qd - 1, by omega⟩
  refine ⟨trainLoop_of ops lrn prd h hrow hh hl hp Xt Y regressors 0 X0,
    length_learnCalls_trainEvents lrn prd hrow Xt Y regressors 0 X0,
    callbackStates_trainEvents lrn prd hrow Xt Y regressors 0 X0, ?_⟩
  intro k r X hr hX
  have hst := trainSpec_stage lrn prd hrow Xt Y regressors 0 X0 k r X hr hX
  rw [Nat.zero_add] at hst
  exact ⟨Spec.stageInput hrow Y X, Spec.stageTarget Xt X, _, fun _ => rfl, rfl, fun _ => rfl,
    hst.1, hst.2.1, hst.2.2⟩

/-- C1, on a one-stage cascade with the default linear regressor over the rationals,
`x_truth = [1]`, `y = [2]`, `x0 = [3]` and `h` the identity: `learn` is called once, with
`A = [3 - 2]` and `b = [3 - 1]`, the regressor stores `x = [2]`, and the callback sees the
state `[3 - 1 * 2] = [1]`. -/
theorem train_stages_witness :
    ∃ events : List (Event ℚ),
      SupervisedDescentOptimiser.train (linearRegressorType Example.provider)
          [Example.regressor] (Mat.of !![(1 : ℚ)]) (Mat.of !![(2 : ℚ)]) (Mat.of !![(3 : ℚ)])
          Example.hId =
        Except.ok ([{ x := Mat.of !![(2 : ℚ)], regulariser := {} }], events) ∧
      learnCalls events = [(0, Mat.of !![(1 : ℚ)], Mat.of !![(2 : ℚ)])] ∧
      callbackStates events = [Mat.of !![(1 : ℚ)]] := by
  obtain ⟨h1, -, h3, -⟩ := train_stages (linearRegressorType Example.provider)
    Nat.one_pos Nat.one_pos Nat.one_pos
    (LinearRegressor.learned Example.provider) LinearRegressor.predictRow Example.hId id
    (fun _ => rfl)
    (linearRegressorType_learn Example.provider (exactProvider_exactLU Rat.sqrt))
    (linearRegressorType_predict Example.provider (exactProvider_exactLU Rat.sqrt))
    !![(1 : ℚ)] !![(2 : ℚ)] !![(3 : ℚ)] [Example.regressor]
  refine ⟨_, h1.trans ?_, ?_, h3.trans ?_⟩
  · simp only [Spec.trainRegressors, Example.stageInput_eq, Example.stageTarget_eq,
      Example.learned_eq]
  · simp only [Spec.trainEvents, learnCalls_featureEvents, learnCalls,
      Example.stageInput_eq, Example.stageTarget_eq]
  · simp only [Spec.trainStates, Example.stageInput_eq, Example.stageTarget_eq,
      Example.learned_eq, Example.stageUpdate_eq, List.map_cons, List.map_nil]

/-- C2: on a cascade whose regressors predict rows, `test(y, x0, h)` returns the state after
the last stage, where the state starts at `x0` and stage `k` replaces the state `X` by the
rows `X[i] - predict_k(h(X[i]) - y[i])`, in stage order; no `learn` call is made. -/
theorem test_stages (ops : RegressorType α R)
    (hN : 0 < N) (hPd : 0 < Pd) (hQd : 0 < Qd)
    (prd : R → (Fin Qd → α) → (Fin Pd → α))
    (h : Mat α → Mat α) (hrow : (Fin Pd → α) → (Fin Qd → α))
    (hh : ∀ v : Fin Pd → α, h (Mat.ofRow v) = Mat.ofRow (hrow v))
    (Y : Matrix (Fin N) (Fin Qd) α) (regressors : List R)
    (hp : ∀ r ∈ regressors, ∀ v, ops.predict r (Mat.ofRow v) = Except.ok (Mat.ofRow (prd r v)))
    (X0 : Matrix (Fin N) (Fin Pd) α) :
    ∃ events : List (Event α),
      SupervisedDescentOptimiser.test ops regressors (Mat.of Y) (Mat.of X0) h =
        Except.ok (Mat.of (((Spec.testStates prd hrow Y regressors X0).getLast?).getD X0),
          events) ∧
      learnCalls events = [] ∧
      (Spec.testStates prd hrow Y regressors X0).length = regressors.length ∧
      ∀ (k : ℕ) (r : R) (X : Matrix (Fin N) (Fin Pd) α),
        regressors[k]? = some r →
        (X0 :: Spec.testStates prd hrow Y regressors X0)[k]? = some X →
        ∃ X1 : Matrix (Fin N) (Fin Pd) α,
          (∀ i, X1 i = X i - prd r (hrow (X i) - Y i)) ∧
          (Spec.testStates prd hrow Y regressors X0)[k]? = some X1 := by
  obtain ⟨n, rfl⟩ : ∃ n, N = n + 1 := ⟨N - 1, by omega⟩
  obtain ⟨p, rfl⟩ : ∃ p, Pd = p + 1 := ⟨Pd - 1, by omega⟩
  obtain ⟨q, rfl⟩ : ∃ q, Qd = q + 1 := ⟨Qd - 1, by omega⟩
  refine ⟨Spec.testEvents prd hrow Y regressors X0, ?_,
    learnCalls_testEvents prd hrow Y regressors X0,
    length_testStates prd hrow Y regressors X0, ?_⟩
  · rw [← testResult_eq_getLast]
    exact testLoop_of ops prd h hrow hh Y regressors hp X0
  · intro k r X hr hX
    exact ⟨_, fun _ => rfl, testSpec_stage prd hrow Y regressors X0 k r X hr hX⟩

/-- C2, on a one-stage cascade of linear regressors over the rationals with coefficient
matrix `[2]`: `test(y = [2], x0 = [3], h = id)` returns `[3 - (3 - 2) * 2] = [1]`. -/
theorem test_stages_witness :
    ∃ events : List (Event ℚ),
      SupervisedDescentOptimiser.test (linearRegressorType Example.provider)
          [Example.fitted] (Mat.of !![(2 : ℚ)]) (Mat.of !![(3 : ℚ)]) Example.hId =
        Except.ok (Mat.of !![(1 : ℚ)], events) ∧
      learnCalls events = [] := by
  obtain ⟨events, h1, h2, _⟩ := test_stages (linearRegressorType Example.provider)
    Nat.one_pos Nat.one_pos Nat.one_pos
    LinearRegressor.predictRow Example.hId id (fun _ => rfl) !![(2 : ℚ)] [Example.fitted]
    (fun r hr v => by
      rw [List.mem_singleton] at hr
      subst hr
      exact (LinearRegressor.predict_of Example.fitted !![(2 : ℚ)] rfl v).trans
        (by simp only [LinearRegressor.predictRow, Example.fitted, Mat.toMatrix_of]))
    !![(3 : ℚ)]
  have hval : ((Spec.testStates LinearRegressor.predictRow id !![(2 : ℚ)]
      [Example.fitted] !![(3 : ℚ)]).getLast?).getD !![(3 : ℚ)] = !![(1 : ℚ)] := by
    simp only [Spec.testStates, List.getLast?_singleton, Option.getD_some]
    ext i j
    fin_cases i; fin_cases j
    simp [Spec.stageUpdate, Spec.stageInput, LinearRegressor.predictRow, Example.fitted,
      Mat.toMatrix_of, Matrix.vecMul, Matrix.dotProduct, Matrix.vecHead]
    norm_num
  rw [hval] at h1
  exact ⟨events, h1, h2⟩

/-- C3: after `train(x_truth, y, x0, h)`, the call `test(y, x0, h)` on the trained cascade
replays training: the callback sees the same states, stage by stage, and `test` returns the
last state the callback of `train` saw (`x0` for a cascade without stages). -/
theorem test_replays_train (ops : RegressorType α R)
    (hN : 0 < N) (hPd : 0 < Pd) (hQd : 0 < Qd)
    (lrn : R → Matrix (Fin N) (Fin Qd) α → Matrix (Fin N) (Fin Pd) α → R)
    (prd : R → (Fin Qd → α) → (Fin Pd → α))
    (h : Mat α → Mat α) (hrow : (Fin Pd → α) → (Fin Qd → α))
    (hh : ∀ v : Fin Pd → α, h (Mat.ofRow v) = Mat.ofRow (hrow v))
    (hl : ∀ r A B, ∃ success, ops.learn r (Mat.of A) (Mat.of B) =
      Except.ok (success, lrn r A B))
    (hp : ∀ r A B v, ops.predict (lrn r A B) (Mat.ofRow v) =
      Except.ok (Mat.ofRow (prd (lrn r A B) v)))
    (Xt : Matrix (Fin N) (Fin Pd) α) (Y : Matrix (Fin N) (Fin Qd) α)
    (X0 : Matrix (Fin N) (Fin Pd) α) (regressors : List R) :
    ∃ (trained : List R) (trainEvents testEvents : List (Event α)) (result : Mat α),
      SupervisedDescentOptimiser.train ops regressors (Mat.of Xt) (Mat.of Y) (Mat.of X0) h =
        Except.ok (trained, trainEvents) ∧
      SupervisedDescentOptimiser.test ops trained (Mat.of Y) (Mat.of X0) h =
        Except.ok (result, testEvents) ∧
      callbackStates testEvents = callbackStates trainEvents ∧
      (callbackStates trainEvents).length = regressors.length ∧
      result = ((callbackStates trainEvents).getLast?).getD (Mat.of X0) := by
  obtain ⟨n, rfl⟩ : ∃ n, N = n + 1 := ⟨N - 1, by omega⟩
  obtain ⟨p, rfl⟩ : ∃ p, Pd = p + 1 := ⟨Pd - 1, by omega⟩
  obtain ⟨q, rfl⟩ : ∃ q, Qd = q + 1 := ⟨Qd - 1, by omega⟩
  have hp1 : ∀ r ∈ Spec.trainRegressors lrn prd hrow Xt Y regressors X0, ∀ v,
      ops.predict r (Mat.ofRow v) = Except.ok (Mat.ofRow (prd r v)) := by
    intro r hr v
    obtain ⟨r0, A, B, rfl⟩ := mem_trainRegressors lrn prd hrow Xt Y regressors X0 r hr
    exact hp r0 A B v
  refine ⟨_, _, _, _, trainLoop_of ops lrn prd h hrow hh hl hp Xt Y regressors 0 X0,
    testLoop_of ops prd h hrow hh Y _ hp1 X0, ?_, ?_, ?_⟩
  · rw [callbackStates_testEvents, callbackStates_trainEvents, testStates_trainRegressors]
  · rw [callbackStates_trainEvents, List.length_map, length_trainStates]
  · rw [callbackStates_trainEvents, testResult_eq_getLast, testStates_trainRegressors,
      List.getLast?_map]
    cases (Spec.trainStates lrn prd hrow Xt Y regressors X0).getLast? <;> rfl

/-- C3, on a one-stage cascade of linear regressors over the rationals. -/
theorem test_replays_train_witness :
    ∃ (trained : List (LinearRegressor ℚ)) (trainEvents testEvents : List (Event ℚ))
      (result : Mat ℚ),
      SupervisedDescentOptimiser.train (linearRegressorType Example.provider)
          [Example.regressor] (Mat.of !![(1 : ℚ)]) (Mat.of !![(2 : ℚ)]) (Mat.of !![(3 : ℚ)])
          Example.hId = Except.ok (trained, trainEvents) ∧
      SupervisedDescentOptimiser.test (linearRegressorType Example.provider) trained
          (Mat.of !![(2 : ℚ)]) (Mat.of !![(3 : ℚ)]) Example.hId =
        Except.ok (result, testEvents) ∧
      callbackStates testEvents = callbackStates trainEvents ∧
      (callbackStates trainEvents).length = [Example.regressor].length ∧
      result = ((callbackStates trainEvents).getLast?).getD (Mat.of !![(3 : ℚ)]) :=
  test_replays_train (linearRegressorType Example.provider)
    Nat.one_pos Nat.one_pos Nat.one_pos
    (LinearRegressor.learned Example.provider) LinearRegressor.predictRow Example.hId id
    (fun _ => rfl)
    (linearRegressorType_learn Example.provider (exactProvider_exactLU Rat.sqrt))
    (linearRegressorType_predict Example.provider (exactProvider_exactLU Rat.sqrt))
    !![(1 : ℚ)] !![(2 : ℚ)] !![(3 : ℚ)] [Example.regressor]

end CascadeClaims

end superviseddescent

/-! ## Claims on `LinearRegressor.learn` -/

namespace superviseddescent

section LearnClaims

/-- C4: for `data` with `n` rows and `d` columns, `labels` with `n` rows and `m` columns
and `Rm = getMatrix(data^T data, n)`: whenever `data^T data + Rm` is invertible, `learn`
returns true and stores `x = ((data^T data + Rm)^-1 data^T) labels`, and this `x` is the
one solution of the regularised normal equations `(data^T data + Rm) x = data^T labels`. -/
theorem learn_normal_equations {α : Type} [Field α] (P : Provider α) (hP : P.ExactLU)
    (self : LinearRegressor α) {n d m : ℕ}
    (data : Matrix (Fin n) (Fin d) α) (labels : Matrix (Fin n) (Fin m) α)
    (Rm : Matrix (Fin d) (Fin d) α) (reg : Regulariser α)
    (hR : self.regulariser.getMatrix P (Mat.of (data.transpose * data)) (n : ℤ) =
      Except.ok (Mat.of Rm, reg))
    (hinv : IsUnit (data.transpose * data + Rm).det) :
    self.learn P (Mat.of data) (Mat.of labels) =
        Except.ok (true,
          { x := Mat.of ((data.transpose * data + Rm)⁻¹ * data.transpose * labels),
            regulariser := reg }) ∧
      (data.transpose * data + Rm) *
          ((data.transpose * data + Rm)⁻¹ * data.transpose * labels) =
        data.transpose * labels ∧
      ∀ w : Matrix (Fin d) (Fin m) α,
        (data.transpose * data + Rm) * w = data.transpose * labels →
        w = (data.transpose * data + Rm)⁻¹ * data.transpose * labels := by
  have hsol := nonsing_solution (data.transpose * data + Rm) hinv (data.transpose * labels)
  rw [← Matrix.mul_assoc (data.transpose * data + Rm)⁻¹ data.transpose labels] at hsol
  exact ⟨LinearRegressor.learn_invertible P hP self data labels Rm reg hR hinv, hsol.1, hsol.2⟩

/-- C4, on the default regressor with `data = [1; 2]` and `labels = [1; 2]` over the
rationals: `data^T data = [5]`, the regularisation matrix is zero, and `learn` returns true
and stores `x = [1]`, the solution of `[5] x = [5]`. -/
theorem learn_normal_equations_witness :
    Example.regressor.learn Example.provider (Mat.of !![(1 : ℚ); 2]) (Mat.of !![(1 : ℚ); 2]) =
      Except.ok (true, { x := Mat.of !![(1 : ℚ)], regulariser := {} }) := by
  obtain ⟨h1, -, h3⟩ := learn_normal_equations Example.provider
    (exactProvider_exactLU Rat.sqrt) Example.regressor
    !![(1 : ℚ); 2] !![(1 : ℚ); 2] ((0 : ℚ) • (1 : Matrix (Fin 1) (Fin 1) ℚ)) {}
    (Regulariser.getMatrix_square Example.provider Example.regressor.regulariser rfl _ _)
    (by
      rw [isUnit_iff_ne_zero, Matrix.det_fin_one, Matrix.add_apply, Matrix.mul_apply]
      simp [Fin.sum_univ_two]
      norm_num)
  have hx := h3 !![(1 : ℚ)] (by
    ext i j
    fin_cases i; fin_cases j
    simp [Matrix.mul_apply, Matrix.add_apply, Fin.sum_univ_two])
  rw [← hx] at h1
  exact h1

/-- C5 as stated fails when the last row is exempt from regularisation: with the Manual
regulariser `lambda = 1`, `regulariseLastRow = false`, `data = [1]` and `labels = [1]`, the
matrix `data^T data + lambda * I = [2]` is invertible and `learn` stores `x = [1]`, whose
objective `0 + 1 * 1 = 1` is larger than the objective `1/4 + 1 * 1/4 = 1/2` of
`w = [1/2]`. -/
theorem learn_minimises_counterexample :
    ({ x := Mat.empty,
        regulariser := { regularisationType := .Manual, lambda := 1,
                         regulariseLastRow := false } } :
        LinearRegressor ℚ).learn Example.provider (Mat.of !![(1 : ℚ)]) (Mat.of !![(1 : ℚ)]) =
      Except.ok (true,
        { x := Mat.of !![(1 : ℚ)],
          regulariser := { regularisationType := .Manual, lambda := 1,
                           regulariseLastRow := false } }) ∧
    IsUnit ((!![(1 : ℚ)]).transpose * !![(1 : ℚ)] +
      (1 : ℚ) • (1 : Matrix (Fin 1) (Fin 1) ℚ)).det ∧
    (Mat.of (!![(1 : ℚ)] * !![(1 / 2 : ℚ)] - !![(1 : ℚ)])).sumSq +
        1 * (Mat.of !![(1 / 2 : ℚ)]).sumSq <
      (Mat.of (!![(1 : ℚ)] * !![(1 : ℚ)] - !![(1 : ℚ)])).sumSq +
        1 * (Mat.of !![(1 : ℚ)]).sumSq := by
  refine ⟨?_, ?_, ?_⟩
  · have hR := Regulariser.getMatrix_noLastRow Example.provider
      ({ regularisationType := .Manual, lambda := 1, regulariseLastRow := false } :
        Regulariser ℚ) rfl ((!![(1 : ℚ)]).transpose * !![(1 : ℚ)]) ((1 : ℕ) : ℤ)
    have hM : (!![(1 : ℚ)]).transpose * !![(1 : ℚ)] +
        (Matrix.of fun (i : Fin (0 + 1)) (j : Fin (0 + 1)) =>
          if i.val = 0 ∧ j.val = 0 then (0 : ℚ)
          else if i.val = j.val then
            ({ regularisationType := .Manual, lambda := 1, regulariseLastRow := false } :
              Regulariser ℚ).switchLambda Example.provider
                (Mat.of ((!![(1 : ℚ)]).transpose * !![(1 : ℚ)])) ((1 : ℕ) : ℤ)
          else 0) = 1 := by
      ext i j
      fin_cases i; fin_cases j
      simp [Matrix.mul_apply, Matrix.transpose_apply]
    have hx : (1 : Matrix (Fin (0 + 1)) (Fin (0 + 1)) ℚ)⁻¹ * (!![(1 : ℚ)]).transpose *
        !![(1 : ℚ)] = !![(1 : ℚ)] := by
      ext i j
      fin_cases i; fin_cases j
      simp [Matrix.mul_apply, Matrix.transpose_apply]
    have hl := LinearRegressor.learn_invertible Example.provider
      (exactProvider_exactLU Rat.sqrt)
      ({ x := Mat.empty,
         regulariser := { regularisationType := .Manual, lambda := 1,
                          regulariseLastRow := false } } : LinearRegressor ℚ)
      !![(1 : ℚ)] !![(1 : ℚ)] _ _ hR (by rw [hM]; simp)
    rw [hl, hM, hx]
    rfl
  · rw [isUnit_iff_ne_zero, Matrix.det_fin_one, Matrix.add_apply, Matrix.mul_apply]
    simp
  · simp [Mat.sumSq, Mat.of]
    norm_num

/-- C5, amended: for a Manual regulariser with `lam >= 0` and `regulariseLastRow = true`,
and `data`, `labels` for which `data^T data + lam * I` is invertible, `learn` returns true
and the stored coefficient matrix `x` minimises
`||data * w - labels||_F^2 + lam * ||w||_F^2` over all `w` with the shape of `x`. -/
theorem learn_minimises {α : Type} [LinearOrderedField α] (P : Provider α) (hP : P.ExactLU)
    (x0 : Mat α) (lam : α) (hlam : 0 ≤ lam) {n d m : ℕ}
    (data : Matrix (Fin n) (Fin d) α) (labels : Matrix (Fin n) (Fin m) α)
    (hinv : IsUnit (data.transpose * data + lam • (1 : Matrix (Fin d) (Fin d) α)).det) :
    ∃ X : Matrix (Fin d) (Fin m) α,
      ({ x := x0,
          regulariser := { regularisationType := .Manual, lambda := lam,
                           regulariseLastRow := true } } :
          LinearRegressor α).learn P (Mat.of data) (Mat.of labels) =
        Except.ok (true,
          { x := Mat.of X,
            regulariser := { regularisationType := .Manual, lambda := lam,
                             regulariseLastRow := true } }) ∧
      ∀ w : Matrix (Fin d) (Fin m) α,
        (Mat.of (data * X - labels)).sumSq + lam * (Mat.of X).sumSq ≤
          (Mat.of (data * w - labels)).sumSq + lam * (Mat.of w).sumSq := by
  have hR := Regulariser.getMatrix_square P
    ({ regularisationType := .Manual, lambda := lam, regulariseLastRow := true } :
      Regulariser α) rfl (data.transpose * data) (n : ℤ)
  refine ⟨(data.transpose * data + lam • (1 : Matrix (Fin d) (Fin d) α))⁻¹ * data.transpose *
    labels, ?_, ?_⟩
  · exact LinearRegressor.learn_invertible P hP _ data labels _ _ hR hinv
  · intro w
    apply ridge_minimiser data labels lam hlam
    rw [Matrix.mul_assoc _ data.transpose labels]
    exact (nonsing_solution _ hinv _).1

/-- C5 amended, with `lam = 1`, `data = [1]` and `labels = [1]` over the rationals. -/
theorem learn_minimises_witness :
    ∃ X : Matrix (Fin 1) (Fin 1) ℚ,
      ({ x := Mat.empty,
          regulariser := { regularisationType := .Manual, lambda := 1,
                           regulariseLastRow := true } } :
          LinearRegressor ℚ).learn Example.provider (Mat.of !![(1 : ℚ)]) (Mat.of !![(1 : ℚ)]) =
        Except.ok (true,
          { x := Mat.of X,
            regulariser := { regularisationType := .Manual, lambda := 1,
                             regulariseLastRow := true } }) ∧
      ∀ w : Matrix (Fin 1) (Fin 1) ℚ,
        (Mat.of (!![(1 : ℚ)] * X - !![(1 : ℚ)])).sumSq + 1 * (Mat.of X).sumSq ≤
          (Mat.of (!![(1 : ℚ)] * w - !![(1 : ℚ)])).sumSq + 1 * (Mat.of w).sumSq :=
  learn_minimises Example.provider (exactProvider_exactLU Rat.sqrt) Mat.empty 1 (by norm_num)
    !![(1 : ℚ)] !![(1 : ℚ)] (by
      rw [isUnit_iff_ne_zero, Matrix.det_fin_one, Matrix.add_apply, Matrix.mul_apply]
      simp)

/-- C6: on a data matrix with at least one row and one column (`n = 0` would divide by zero
in the MatrixNorm case), with `Rm = getMatrix(data^T data, n)`, `learn` raises no error,
stores a coefficient matrix with one row per data column and one column per label column,
and returns true if and only if `data^T data + Rm` is invertible, that is, if and only if
its rank is the number of data columns; so it returns false when the matrix is not
invertible. -/
theorem learn_success_iff {α : Type} [Field α] (P : Provider α) (hP : P.ExactLU)
    (self : LinearRegressor α) {n d m : ℕ} (_hn : 0 < n) (hd : 0 < d)
    (data : Matrix (Fin n) (Fin d) α) (labels : Matrix (Fin n) (Fin m) α) :
    ∃ (Rm : Matrix (Fin d) (Fin d) α) (reg : Regulariser α) (success : Bool)
      (X : Matrix (Fin d) (Fin m) α),
      self.regulariser.getMatrix P (Mat.of (data.transpose * data)) (n : ℤ) =
        Except.ok (Mat.of Rm, reg) ∧
      self.learn P (Mat.of data) (Mat.of labels) =
        Except.ok (success, { x := Mat.of X, regulariser := reg }) ∧
      (success = true ↔ IsUnit (data.transpose * data + Rm).det) ∧
      (success = true ↔ (data.transpose * data + Rm).rank = d) ∧
      (¬ IsUnit (data.transpose * data + Rm).det → success = false) := by
  obtain ⟨d1, rfl⟩ : ∃ d1, d = d1 + 1 := ⟨d - 1, by omega⟩
  obtain ⟨Rm, reg, hR⟩ := self.regulariser.getMatrix_ok P (data.transpose * data) (n : ℤ)
  obtain ⟨X, hX⟩ := LinearRegressor.learn_result P hP self data labels Rm reg hR
  have hiff := hP.isInvertible_iff (d1 + 1) (data.transpose * data + Rm)
  refine ⟨Rm, reg, _, X, hR, hX, hiff, hiff.trans (isUnit_det_iff_rank _), ?_⟩
  intro hnot
  exact Bool.eq_false_iff.2 fun hs => hnot (hiff.1 hs)

/-- C6, on the default regressor with `data = [0]` and `labels = [1]` over the rationals:
the normal-equation matrix `[0]` is not invertible, and `learn` returns false and stores a
1 x 1 coefficient matrix. -/
theorem learn_success_iff_witness :
    ∃ X : Matrix (Fin 1) (Fin 1) ℚ,
      Example.regressor.learn Example.provider (Mat.of !![(0 : ℚ)]) (Mat.of !![(1 : ℚ)]) =
        Except.ok (false, { x := Mat.of X, regulariser := {} }) := by
  obtain ⟨Rm, reg, success, X, hR, hl, _, _, hfalse⟩ :=
    learn_success_iff Example.provider (exactProvider_exactLU Rat.sqrt) Example.regressor
      Nat.one_pos Nat.one_pos !![(0 : ℚ)] !![(1 : ℚ)]
  have hR2 := Regulariser.getMatrix_square Example.provider Example.regressor.regulariser rfl
    ((!![(0 : ℚ)]).transpose * !![(0 : ℚ)]) ((1 : ℕ) : ℤ)
  rw [hR2] at hR
  obtain ⟨hfst, hsnd⟩ := Prod.mk.inj (Except.ok.inj hR)
  have hRm : Rm = (0 : ℚ) • (1 : Matrix (Fin 1) (Fin 1) ℚ) :=
    (Mat.of_injective ((0 : ℚ) • (1 : Matrix (Fin 1) (Fin 1) ℚ)) Rm hfst).symm
  have hreg : reg = {} := hsnd.symm
  have hsing : ¬ IsUnit ((!![(0 : ℚ)]).transpose * !![(0 : ℚ)] + Rm).det := by
    rw [hRm, isUnit_iff_ne_zero, Matrix.det_fin_one, Matrix.add_apply, Matrix.mul_apply]
    simp
  rw [hfalse hsing, hreg] at hl
  exact ⟨X, hl⟩

/-- C7: for a data matrix with two identical columns, or more generally with linearly
dependent columns, and a Manual regulariser with `lambda = 0` (with either value of
`regulariseLastRow`), `learn` raises no error, returns false, and stores a coefficient
matrix with one row per data column and one column per label column. -/
theorem learn_dependent_columns {α : Type} [Field α] (P : Provider α) (hP : P.ExactLU)
    (x0 : Mat α) (lastRow : Bool) {n d m : ℕ}
    (data : Matrix (Fin n) (Fin d) α) (labels : Matrix (Fin n) (Fin m) α)
    (hdep : (∃ j1 j2 : Fin d, j1 ≠ j2 ∧ ∀ i, data i j1 = data i j2) ∨
      (∃ v : Fin d → α, v ≠ 0 ∧ data.mulVec v = 0)) :
    ∃ X : Matrix (Fin d) (Fin m) α,
      ({ x := x0,
          regulariser := { regularisationType := .Manual, lambda := 0,
                           regulariseLastRow := lastRow } } :
          LinearRegressor α).learn P (Mat.of data) (Mat.of labels) =
        Except.ok (false,
          { x := Mat.of X,
            regulariser := { regularisationType := .Manual, lambda := 0,
                             regulariseLastRow := lastRow } }) := by
  have hker : ∃ v : Fin d → α, v ≠ 0 ∧ data.mulVec v = 0 := by
    rcases hdep with ⟨j1, j2, hne, heq⟩ | hv
    · exact exists_kernel_of_equal_columns data j1 j2 hne heq
    · exact hv
  obtain ⟨v, hv, hzero⟩ := hker
  have hdet := det_transpose_mul_self_eq_zero data v hv hzero
  have hd : d ≠ 0 := by
    rintro rfl
    exact hv (funext fun i => i.elim0)
  obtain ⟨d1, rfl⟩ := Nat.exists_eq_succ_of_ne_zero hd
  have hR : ({ regularisationType := .Manual, lambda := 0, regulariseLastRow := lastRow } :
      Regulariser α).getMatrix P (Mat.of (data.transpose * data)) (n : ℤ) =
      Except.ok (Mat.of (0 : Matrix (Fin (d1 + 1)) (Fin (d1 + 1)) α),
        { regularisationType := .Manual, lambda := 0, regulariseLastRow := lastRow }) := by
    cases lastRow with
    | true =>
      rw [Regulariser.getMatrix_square P _ rfl (data.transpose * data) (n : ℤ)]
      simp [Regulariser.switchLambda]
    | false =>
      rw [Regulariser.getMatrix_noLastRow P _ rfl (data.transpose * data) (n : ℤ)]
      simp only [Regulariser.switchLambda, ite_self]
      rfl
  obtain ⟨X, hX⟩ := LinearRegressor.learn_result P hP
    ({ x := x0,
       regulariser := { regularisationType := .Manual, lambda := 0,
                        regulariseLastRow := lastRow } } : LinearRegressor α)
    data labels 0 _ hR
  refine ⟨X, ?_⟩
  rw [hX]
  have hfalse : P.isInvertible (Mat.of (data.transpose * data + 0)) = false := by
    apply Bool.eq_false_iff.2
    intro hs
    have hu := (hP.isInvertible_iff _ _).1 hs
    rw [add_zero, hdet] at hu
    exact not_isUnit_zero hu
  rw [hfalse]

/-- C7, on `data = [1 1]` (two identical columns) and `labels = [1]` over the rationals. -/
theorem learn_dependent_columns_witness :
    ∃ X : Matrix (Fin 2) (Fin 1) ℚ,
      ({ x := Mat.empty,
          regulariser := { regularisationType := .Manual, lambda := 0,
                           regulariseLastRow := true } } :
          LinearRegressor ℚ).learn Example.provider (Mat.of !![(1 : ℚ), 1])
            (Mat.of !![(1 : ℚ)]) =
        Except.ok (false,
          { x := Mat.of X,
            regulariser := { regularisationType := .Manual, lambda := 0,
                             regulariseLastRow := true } }) :=
  learn_dependent_columns Example.provider (exactProvider_exactLU Rat.sqrt) Mat.empty true
    !![(1 : ℚ), 1] !![(1 : ℚ)]
    (Or.inl ⟨0, 1, by decide, fun i => by fin_cases i; rfl⟩)

end LearnClaims

end superviseddescent

/-! ## Claims on the regulariser -/

namespace superviseddescent

section RegulariserClaims

/-- C9: for a Manual regulariser with parameter `lam` and `regulariseLastRow = true`,
`getMatrix(data, n)` returns, whatever the entries of `data` and whatever `n`, the matrix
with the rows and columns of `data`, `lam` on the diagonal and zero elsewhere, and leaves
the regulariser as it was; for a square `data` this is `lam` times the identity, and the
default-constructed regulariser (Manual, `lambda = 0`) returns the zero matrix. -/
theorem getMatrix_manual {α : Type} [Field α] (P : Provider α) (lam : α) (data : Mat α)
    (n : ℤ) :
    (({ regularisationType := .Manual, lambda := lam, regulariseLastRow := true } :
        Regulariser α).getMatrix P data n =
      Except.ok (⟨data.rows, data.cols, Matrix.of fun i j => if i.val = j.val then lam else 0⟩,
        { regularisationType := .Manual, lambda := lam, regulariseLastRow := true })) ∧
    (∀ (d : ℕ) (A : Matrix (Fin d) (Fin d) α),
      ({ regularisationType := .Manual, lambda := lam, regulariseLastRow := true } :
        Regulariser α).getMatrix P (Mat.of A) n =
      Except.ok (Mat.of (lam • (1 : Matrix (Fin d) (Fin d) α)),
        { regularisationType := .Manual, lambda := lam, regulariseLastRow := true })) ∧
    (∀ (r c : ℕ) (A : Matrix (Fin r) (Fin c) α),
      ({} : Regulariser α).getMatrix P (Mat.of A) n =
        Except.ok (Mat.of (0 : Matrix (Fin r) (Fin c) α), {})) := by
  refine ⟨?_, ?_, ?_⟩
  · exact Regulariser.getMatrix_lastRow P _ rfl data n
  · intro d A
    exact Regulariser.getMatrix_square P _ rfl A n
  · intro r c A
    rw [Regulariser.getMatrix_lastRow P _ rfl (Mat.of A) n]
    congr 2
    simp only [Mat.of]
    congr 1
    ext i j
    simp [Regulariser.switchLambda]

/-- C10 as stated fails when the last row is exempt from regularisation: the MatrixNorm
regulariser with factor 1 and `regulariseLastRow = false`, called for the first time on
the matrix `[1]` with one training element, returns `[0]`, not `lambda_eff * I = [1]`. -/
theorem getMatrix_matrixNorm_counterexample :
    ({ regularisationType := .MatrixNorm, lambda := 1, regulariseLastRow := false } :
        Regulariser ℚ).getMatrix Example.provider (Mat.of !![(1 : ℚ)]) 1 =
      Except.ok (Mat.of !![(0 : ℚ)],
        { regularisationType := .MatrixNorm, lambda := 1, regulariseLastRow := false }) ∧
    1 * Example.provider.norm (Mat.of !![(1 : ℚ)]) / ((1 : ℤ) : ℚ) = 1 ∧
    Mat.of !![(0 : ℚ)] ≠ Mat.of ((1 : ℚ) • (1 : Matrix (Fin 1) (Fin 1) ℚ)) := by
  have hnorm : Example.provider.norm (Mat.of !![(1 : ℚ)]) = 1 := by
    simp only [Provider.norm, Example.provider, exactProvider, Mat.sumSq, Mat.of]
    simp
  have hsw : ({ regularisationType := .MatrixNorm, lambda := 1, regulariseLastRow := false } :
      Regulariser ℚ).switchLambda Example.provider (Mat.of !![(1 : ℚ)]) 1 = 1 := by
    simp only [Regulariser.switchLambda, hnorm]
    norm_num
  refine ⟨?_, ?_, ?_⟩
  · rw [Regulariser.getMatrix_noLastRow Example.provider _ rfl !![(1 : ℚ)] 1, hsw]
    congr 3
    ext i j
    fin_cases i; fin_cases j
    simp
  · rw [hnorm]
    norm_num
  · intro h
    have h2 := congrArg (fun m => m.toMatrix 1 1 0 0) h
    simp [Mat.toMatrix_of] at h2

/-- C10, amended: for a MatrixNorm regulariser with factor `lam` and
`regulariseLastRow = true`, the first call `getMatrix(data, n)` returns the matrix with the
rows and columns of `data` that has `lam_eff = lam * norm(data) / n` on the diagonal and
zero elsewhere (`lam_eff * I` for a square `data`), where `norm(data)` is the square root
of the sum of the squared entries; for `n > 0`, with the square root exact on that sum,
`lam_eff^2 * n^2 = lam^2 * (sum of squared entries)` and `lam_eff` has the sign of `lam`. -/
theorem getMatrix_matrixNorm {α : Type} [LinearOrderedField α] (P : Provider α) (lam : α)
    (data : Mat α) (n : ℤ) (hn : 0 < n)
    (hsqrt : 0 ≤ P.sqrt data.sumSq ∧ P.sqrt data.sumSq * P.sqrt data.sumSq = data.sumSq) :
    ∃ lamEff : α,
      lamEff = lam * P.sqrt data.sumSq / (n : α) ∧
      ({ regularisationType := .MatrixNorm, lambda := lam, regulariseLastRow := true } :
          Regulariser α).getMatrix P data n =
        Except.ok (⟨data.rows, data.cols,
            Matrix.of fun i j => if i.val = j.val then lamEff else 0⟩,
          { regularisationType := .MatrixNorm, lambda := lamEff, regulariseLastRow := true }) ∧
      (∀ (d : ℕ) (A : Matrix (Fin d) (Fin d) α), data = Mat.of A →
        ({ regularisationType := .MatrixNorm, lambda := lam, regulariseLastRow := true } :
          Regulariser α).getMatrix P data n =
        Except.ok (Mat.of (lamEff • (1 : Matrix (Fin d) (Fin d) α)),
          { regularisationType := .MatrixNorm, lambda := lamEff, regulariseLastRow := true })) ∧
      lamEff ^ 2 * (n : α) ^ 2 = lam ^ 2 * data.sumSq ∧
      (0 ≤ lam → 0 ≤ lamEff) ∧ (lam ≤ 0 → lamEff ≤ 0) := by
  have hn0 : (0 : α) < (n : α) := by exact_mod_cast hn
  refine ⟨lam * P.sqrt data.sumSq / (n : α), rfl, ?_, ?_, ?_, ?_, ?_⟩
  · exact Regulariser.getMatrix_lastRow P _ rfl data n
  · intro d A hA
    subst hA
    exact Regulariser.getMatrix_square P _ rfl A n
  · rw [div_pow, div_mul_cancel₀ _ (pow_ne_zero 2 hn0.ne'), mul_pow, sq (P.sqrt data.sumSq),
      hsqrt.2]
  · intro hl
    exact div_nonneg (mul_nonneg hl hsqrt.1) hn0.le
  · intro hl
    exact div_nonpos_of_nonpos_of_nonneg (mul_nonpos_of_nonpos_of_nonneg hl hsqrt.1) hn0.le

/-- C10 amended, on the matrix `[3 4]` with factor 2 and two training elements: the
effective lambda is `2 * 5 / 2 = 5`. -/
theorem getMatrix_matrixNorm_witness :
    ∃ lamEff : ℚ,
      lamEff = 5 ∧
      ({ regularisationType := .MatrixNorm, lambda := 2, regulariseLastRow := true } :
          Regulariser ℚ).getMatrix Example.provider (Mat.of !![(3 : ℚ), 4]) 2 =
        Except.ok (⟨1, 2, Matrix.of fun i j => if i.val = j.val then lamEff else 0⟩,
          { regularisationType := .MatrixNorm, lambda := lamEff, regulariseLastRow := true }) ∧
      lamEff ^ 2 * (((2 : ℤ) : ℚ)) ^ 2 = 2 ^ 2 * (Mat.of !![(3 : ℚ), 4]).sumSq := by
  have hsum : (Mat.of !![(3 : ℚ), 4]).sumSq = 25 := by
    simp [Mat.sumSq, Mat.of, Fin.sum_univ_two]
    norm_num
  have hs : Example.provider.sqrt (Mat.of !![(3 : ℚ), 4]).sumSq = 5 := by
    rw [hsum]
    show Rat.sqrt 25 = 5
    rw [show (25 : ℚ) = 5 * 5 by norm_num, Rat.sqrt_eq]
    norm_num
  obtain ⟨l, h1, h2, _, h4, _⟩ := getMatrix_matrixNorm Example.provider 2
    (Mat.of !![(3 : ℚ), 4]) 2 (by norm_num) (by rw [hs, hsum]; norm_num)
  refine ⟨l, ?_, h2, h4⟩
  rw [h1, hs]
  norm_num

/-- C8 on the code: a MatrixNorm regulariser with factor 1, called twice with the matrix
`[3 0; 0 4]` (norm 5) and one training element, returns `5 * I` the first time and
`25 * I` the second time, because the first call stored the effective value 5 in
`lambda`. -/
theorem getMatrix_matrixNorm_twice :
    ({ regularisationType := .MatrixNorm, lambda := 1, regulariseLastRow := true } :
        Regulariser ℚ).getMatrix Example.provider (Mat.of !![(3 : ℚ), 0; 0, 4]) 1 =
      Except.ok (Mat.of ((5 : ℚ) • (1 : Matrix (Fin 2) (Fin 2) ℚ)),
        { regularisationType := .MatrixNorm, lambda := 5, regulariseLastRow := true }) ∧
    ({ regularisationType := .MatrixNorm, lambda := 5, regulariseLastRow := true } :
        Regulariser ℚ).getMatrix Example.provider (Mat.of !![(3 : ℚ), 0; 0, 4]) 1 =
      Except.ok (Mat.of ((25 : ℚ) • (1 : Matrix (Fin 2) (Fin 2) ℚ)),
        { regularisationType := .MatrixNorm, lambda := 25, regulariseLastRow := true }) ∧
    Mat.of ((5 : ℚ) • (1 : Matrix (Fin 2) (Fin 2) ℚ)) ≠
      Mat.of ((25 : ℚ) • (1 : Matrix (Fin 2) (Fin 2) ℚ)) := by
  have hnorm : Example.provider.norm (Mat.of !![(3 : ℚ), 0; 0, 4]) = 5 := by
    have hsum : (Mat.of !![(3 : ℚ), 0; 0, 4]).sumSq = 5 * 5 := by
      simp [Mat.sumSq, Mat.of, Fin.sum_univ_two]
      norm_num
    show Rat.sqrt _ = 5
    rw [hsum, Rat.sqrt_eq]
    norm_num
  refine ⟨?_, ?_, ?_⟩
  · rw [Regulariser.getMatrix_square Example.provider _ rfl _ 1]
    simp only [Regulariser.switchLambda, hnorm]
    norm_num
  · rw [Regulariser.getMatrix_square Example.provider _ rfl _ 1]
    simp only [Regulariser.switchLambda, hnorm]
    norm_num
  · intro h
    have h2 := congrArg (fun m => m.toMatrix 2 2 0 0) h
    simp [Mat.toMatrix_of] at h2

end RegulariserClaims

end superviseddescent

/-! ## Claims on the regulariser: the policies and the shape of the result -/

namespace superviseddescent

section RegulariserShapeClaims

/-- C11: for an EigenvalueThreshold regulariser with `regulariseLastRow = true`,
`getMatrix(data, n)` returns, for every `data`, every `n` and every configured `lam`, the
matrix with the rows and columns of `data` that has `1/2` on the diagonal and zero
elsewhere, which for a square `data` is `1/2` times the identity; the call stores `1/2`
in `lambda`. -/
theorem getMatrix_eigenvalueThreshold {α : Type} [Field α] (P : Provider α) (lam : α)
    (data : Mat α) (n : ℤ) :
    (({ regularisationType := .EigenvalueThreshold, lambda := lam, regulariseLastRow := true } :
        Regulariser α).getMatrix P data n =
      Except.ok (⟨data.rows, data.cols,
          Matrix.of fun i j => if i.val = j.val then (1 / 2 : α) else 0⟩,
        { regularisationType := .EigenvalueThreshold, lambda := 1 / 2,
          regulariseLastRow := true })) ∧
    (∀ (d : ℕ) (A : Matrix (Fin d) (Fin d) α),
      ({ regularisationType := .EigenvalueThreshold, lambda := lam, regulariseLastRow := true } :
        Regulariser α).getMatrix P (Mat.of A) n =
      Except.ok (Mat.of ((1 / 2 : α) • (1 : Matrix (Fin d) (Fin d) α)),
        { regularisationType := .EigenvalueThreshold, lambda := 1 / 2,
          regulariseLastRow := true })) := by
  refine ⟨?_, ?_⟩
  · exact Regulariser.getMatrix_lastRow P _ rfl data n
  · intro d A
    exact Regulariser.getMatrix_square P _ rfl A n

/-- C12: for every policy, every `lam` and every square `data` with at least one row, the
matrix `getMatrix` returns with `regulariseLastRow = false` has the entry 0 at the last row
and last column and equals, at every other place, the matrix it returns with
`regulariseLastRow = true`. -/
theorem getMatrix_lastRow_exempt {α : Type} [Field α] (P : Provider α)
    (ty : RegularisationType) (lam : α) {d : ℕ} (hd : 0 < d)
    (data : Matrix (Fin d) (Fin d) α) (n : ℤ) :
    ∃ (Rt Rf : Matrix (Fin d) (Fin d) α) (regt regf : Regulariser α),
      ({ regularisationType := ty, lambda := lam, regulariseLastRow := true } :
        Regulariser α).getMatrix P (Mat.of data) n = Except.ok (Mat.of Rt, regt) ∧
      ({ regularisationType := ty, lambda := lam, regulariseLastRow := false } :
        Regulariser α).getMatrix P (Mat.of data) n = Except.ok (Mat.of Rf, regf) ∧
      ∀ i j : Fin d, Rf i j = if i.val + 1 = d ∧ j.val + 1 = d then 0 else Rt i j := by
  obtain ⟨d1, rfl⟩ : ∃ d1, d = d1 + 1 := ⟨d - 1, by omega⟩
  refine ⟨_, _, _, _, Regulariser.getMatrix_square P _ rfl data n,
    Regulariser.getMatrix_noLastRow P _ rfl data n, ?_⟩
  intro i j
  have e1 : (i.val + 1 = d1 + 1 ∧ j.val + 1 = d1 + 1) ↔ (i.val = d1 ∧ j.val = d1) := by omega
  simp only [Matrix.of_apply, e1, Matrix.smul_apply, Matrix.one_apply, smul_eq_mul]
  by_cases h1 : i.val = d1 ∧ j.val = d1
  · simp [h1]
  · simp only [h1, if_false]
    by_cases h2 : i.val = j.val
    · have h3 : i = j := Fin.ext h2
      simp [h2, h3]
      rfl
    · have h3 : i ≠ j := fun h => h2 (congrArg Fin.val h)
      simp [h2, h3]

/-- C12, for the Manual regulariser with `lambda = 3` on a 2 x 2 matrix: with
`regulariseLastRow = false` the result is `[3 0; 0 0]`. -/
theorem getMatrix_lastRow_exempt_witness :
    ∃ regf : Regulariser ℚ,
      ({ regularisationType := .Manual, lambda := 3, regulariseLastRow := false } :
        Regulariser ℚ).getMatrix Example.provider (Mat.of !![(1 : ℚ), 2; 3, 4]) 1 =
      Except.ok (Mat.of !![(3 : ℚ), 0; 0, 0], regf) := by
  obtain ⟨Rt, Rf, regt, regf, ht, hf, hent⟩ := getMatrix_lastRow_exempt Example.provider
    .Manual (3 : ℚ) (by norm_num : 0 < 2) !![(1 : ℚ), 2; 3, 4] 1
  rw [Regulariser.getMatrix_square Example.provider _ rfl _ 1] at ht
  obtain ⟨hfst, -⟩ := Prod.mk.inj (Except.ok.inj ht)
  have hRt : Rt = (3 : ℚ) • (1 : Matrix (Fin 2) (Fin 2) ℚ) :=
    (Mat.of_injective ((3 : ℚ) • (1 : Matrix (Fin 2) (Fin 2) ℚ)) Rt hfst).symm
  have hRf : Rf = !![(3 : ℚ), 0; 0, 0] := by
    ext i j
    rw [hent, hRt]
    fin_cases i <;> fin_cases j <;> simp
  rw [hRf] at hf
  exact ⟨regf, hf⟩

/-- C13 as stated fails on an empty matrix when the last row is exempt from regularisation:
with `regulariseLastRow = false` and a matrix without rows and columns, `getMatrix` writes
to the entry at row `-1` and column `-1`, which is outside the matrix. -/
theorem getMatrix_shape_counterexample :
    ({ regularisationType := .Manual, lambda := 1, regulariseLastRow := false } :
        Regulariser ℚ).getMatrix Example.provider Mat.empty 1 =
      Except.error Err.outOfRange := by
  simp [Regulariser.getMatrix, Mat.setAt, Mat.scale, Mat.eye, Mat.empty, bind, Except.bind]

/-- C13, amended: for every policy, every `lambda`, and every input matrix when
`regulariseLastRow = true`, every input matrix with at least one row and one column when
`regulariseLastRow = false`, `getMatrix` returns a matrix with the rows and columns of its
input whose entries off the diagonal are all zero; for a square input the result is
symmetric. -/
theorem getMatrix_shape {α : Type} [Field α] (P : Provider α) (self : Regulariser α)
    {r c : ℕ} (data : Matrix (Fin r) (Fin c) α) (n : ℤ)
    (hne : self.regulariseLastRow = true ∨ (0 < r ∧ 0 < c)) :
    ∃ (Rm : Matrix (Fin r) (Fin c) α) (reg : Regulariser α),
      self.getMatrix P (Mat.of data) n = Except.ok (Mat.of Rm, reg) ∧
      (∀ (i : Fin r) (j : Fin c), i.val ≠ j.val → Rm i j = 0) ∧
      (∀ (h : r = c) (i : Fin r) (j : Fin c),
        Rm i j = Rm (Fin.cast h.symm j) (Fin.cast h i)) := by
  cases hlast : self.regulariseLastRow with
  | true =>
    refine ⟨_, _, Regulariser.getMatrix_lastRow P self hlast (Mat.of data) n, ?_, ?_⟩
    · intro i j hij
      simp [hij]
    · intro h i j
      simp only [Matrix.of_apply, Fin.coe_cast, eq_comm]
  | false =>
    have hpos : 0 < r ∧ 0 < c := by
      rcases hne with h | h
      · rw [hlast] at h
        exact absurd h (by decide)
      · exact h
    obtain ⟨r1, rfl⟩ : ∃ r1, r = r1 + 1 := ⟨r - 1, by omega⟩
    obtain ⟨c1, rfl⟩ : ∃ c1, c = c1 + 1 := ⟨c - 1, by omega⟩
    refine ⟨_, _, Regulariser.getMatrix_noLastRow P self hlast data n, ?_, ?_⟩
    · intro i j hij
      simp only [Matrix.of_apply, hij, if_false, ite_self]
    · intro h i j
      have h1 : r1 = c1 := by omega
      subst h1
      simp only [Matrix.of_apply, Fin.coe_cast, eq_comm, and_comm]

/-- C13 amended, for the EigenvalueThreshold regulariser with `regulariseLastRow = false`
on a 2 x 2 matrix. -/
theorem getMatrix_shape_witness :
    ∃ (Rm : Matrix (Fin 2) (Fin 2) ℚ) (reg : Regulariser ℚ),
      ({ regularisationType := .EigenvalueThreshold, lambda := 0, regulariseLastRow := false } :
        Regulariser ℚ).getMatrix Example.provider (Mat.of !![(1 : ℚ), 2; 3, 4]) 1 =
        Except.ok (Mat.of Rm, reg) ∧
      (∀ (i : Fin 2) (j : Fin 2), i.val ≠ j.val → Rm i j = 0) ∧
      (∀ (h : 2 = 2) (i : Fin 2) (j : Fin 2),
        Rm i j = Rm (Fin.cast h.symm j) (Fin.cast h i)) :=
  getMatrix_shape Example.provider _ !![(1 : ℚ), 2; 3, 4] 1
    (Or.inr ⟨by norm_num, by norm_num⟩)

end RegulariserShapeClaims

end superviseddescent

/-! ## `LinearRegressor.predict` and `LinearRegressor.test` on matrices of known shape -/

namespace superviseddescent

section ExceptLoop

variable {α : Type}

/-- The row-collecting loop without events, when every `f i` returns one row of `Q ≥ 1`
entries. -/
theorem pushRows_rows_except {n Q : ℕ} (hQ : 0 < Q) (f : ℕ → Except Err (Mat α))
    (g : ℕ → Fin Q → α) (hf : ∀ i, i < n + 1 → f i = Except.ok (Mat.ofRow (g i))) :
    pushRows f (n + 1) =
      Except.ok (Mat.of (Matrix.of fun (i : Fin (n + 1)) j => g i.val j)) := by
  induction n with
  | zero =>
    have h0 := hf 0 (by omega)
    show ((pure Mat.empty : Except Err (Mat α)) >>= fun acc => f 0 >>= fun elems =>
      liftM (acc.push_back elems)) = _
    rw [h0]
    show Mat.empty.push_back (Mat.ofRow (g 0)) = _
    simp only [Mat.push_back, Mat.ofRow, Mat.empty, one_ne_zero, if_false, true_or, if_true,
      Mat.of]
    congr 2
    ext i j
    have hi : i = 0 := Subsingleton.elim _ _
    simp [hi]
  | succ k ih =>
    have hk := ih (fun i hi => hf i (by omega))
    have hlast := hf (k + 1) (by omega)
    show (pushRows f (k + 1) >>= fun acc => f (k + 1) >>= fun elems =>
      liftM (acc.push_back elems)) = _
    rw [hk, hlast]
    exact Mat.push_back_row (Nat.succ_pos k) hQ g

/-- The loop without events in typed form: when iteration `i` returns row `i` of `G`, the
loop returns `G`. -/
theorem pushRows_of_except {n q : ℕ} (f : ℕ → Except Err (Mat α))
    (G : Matrix (Fin (n + 1)) (Fin (q + 1)) α)
    (hf : ∀ i : Fin (n + 1), f i.val = Except.ok (Mat.ofRow (G i))) :
    pushRows f (n + 1) = Except.ok (Mat.of G) := by
  have hmin : ∀ i : ℕ, min i n < n + 1 := fun i => by omega
  have key := pushRows_rows_except (Nat.succ_pos q) f (fun i => G ⟨min i n, hmin i⟩)
    (fun i hi => by
      have h1 := hf ⟨i, hi⟩
      have h2 : (⟨min i n, hmin i⟩ : Fin (n + 1)) = ⟨i, hi⟩ := by
        apply Fin.ext
        simp only
        omega
      show f i = Except.ok (Mat.ofRow (G ⟨min i n, hmin i⟩))
      rw [h2]
      exact h1)
  rw [key]
  have e1 : (Matrix.of fun (i : Fin (n + 1)) j => G ⟨min i.val n, hmin i.val⟩ j) = G := by
    ext i j
    have h2 : (⟨min i.val n, hmin i.val⟩ : Fin (n + 1)) = i := by
      apply Fin.ext
      have := i.isLt
      simp only
      omega
    simp [h2]
  rw [e1]

end ExceptLoop

section PredictFacts

variable {α : Type} [Field α]

theorem mul_row_eq_vecMul {N D M : ℕ} (V : Matrix (Fin N) (Fin D) α)
    (X : Matrix (Fin D) (Fin M) α) (i : Fin N) : (V * X) i = Matrix.vecMul (V i) X := by
  ext j
  simp [Matrix.mul_apply, Matrix.vecMul, Matrix.dotProduct]

/-- The prediction loop of `LinearRegressor::test`: the stacked predictions are
`data * x`. -/
theorem LinearRegressor.predictLoop_of (self : LinearRegressor α) {n D m : ℕ}
    (X : Matrix (Fin D) (Fin (m + 1)) α) (hx : self.x = Mat.of X)
    (data : Matrix (Fin (n + 1)) (Fin D) α) :
    pushRows (fun i => do self.predict (← (Mat.of data).row i)) (Mat.of data).rows =
      Except.ok (Mat.of (data * X)) := by
  show pushRows _ (n + 1) = _
  apply pushRows_of_except
  intro i
  show ((Mat.of data).row i.val >>= fun r => self.predict r) = _
  rw [Mat.row_of data i.val i.isLt]
  show self.predict (Mat.ofRow (data ⟨i.val, i.isLt⟩)) = _
  rw [LinearRegressor.predict_of self X hx, mul_row_eq_vecMul]

end PredictFacts


section ResidualFacts

variable {α : Type} [LinearOrderedField α]

theorem sumSq_of_eq_zero_iff {n m : ℕ} (U : Matrix (Fin n) (Fin m) α) :
    (Mat.of U).sumSq = 0 ↔ U = 0 := by
  constructor
  · intro h
    have h1 := (Finset.sum_eq_zero_iff_of_nonneg (fun i _ =>
      Finset.sum_nonneg fun j _ => mul_self_nonneg (U i j))).1 h
    ext i j
    have h2 := (Finset.sum_eq_zero_iff_of_nonneg (fun j _ => mul_self_nonneg (U i j))).1
      (h1 i (Finset.mem_univ i)) j (Finset.mem_univ j)
    exact mul_self_eq_zero.1 h2
  · rintro rfl
    simp [Mat.sumSq, Mat.of]

/-- The method `LinearRegressor::test` on matrices of known shape. -/
theorem LinearRegressor.test_of (P : Provider α) (self : LinearRegressor α) {n D m : ℕ}
    (X : Matrix (Fin D) (Fin (m + 1)) α) (hx : self.x = Mat.of X)
    (data : Matrix (Fin (n + 1)) (Fin D) α) (labels : Matrix (Fin (n + 1)) (Fin (m + 1)) α) :
    self.test P (Mat.of data) (Mat.of labels) =
      Except.ok (P.norm (Mat.of (data * X - labels)) / P.norm (Mat.of labels)) := by
  simp only [LinearRegressor.test, LinearRegressor.predictLoop_of self X hx data]
  simp only [Provider.normDiff, Mat.sub_of, bind, Except.bind, pure, Except.pure]

/-- A quotient of exact square roots: its square, and when it is zero. -/
theorem sqrt_quotient {sqrt : α → α} {a b : α}
    (ha : 0 ≤ sqrt a ∧ sqrt a * sqrt a = a) (hb : 0 ≤ sqrt b ∧ sqrt b * sqrt b = b) :
    (sqrt a / sqrt b) ^ 2 = a / b ∧ (b ≠ 0 → (sqrt a / sqrt b = 0 ↔ a = 0)) := by
  constructor
  · rw [div_pow, sq, sq, ha.2, hb.2]
  · intro hb0
    have hsb : sqrt b ≠ 0 := by
      intro h0
      apply hb0
      rw [← hb.2, h0, mul_zero]
    rw [div_eq_zero_iff]
    constructor
    · rintro (h | h)
      · rw [← ha.2, h, mul_zero]
      · exact absurd h hsb
    · intro h
      left
      exact mul_self_eq_zero.1 (ha.2.trans h)

end ResidualFacts

end superviseddescent

/-! ## Claims on `LinearRegressor.predict` and `LinearRegressor.test` -/

namespace superviseddescent

section PredictClaims

/-- C14: `predict(values)` returns the matrix product `values * x` for the stored
coefficient matrix `x`, for a matrix `values` with any number of rows (a single row or a
batch), and for a batch row `i` of the result is `predict` applied to row `i` alone. -/
theorem predict_is_product {α : Type} [Field α] (reg : Regulariser α) {N D M : ℕ}
    (X : Matrix (Fin D) (Fin M) α) (values : Matrix (Fin N) (Fin D) α) (v : Fin D → α) :
    ({ x := Mat.of X, regulariser := reg } : LinearRegressor α).predict (Mat.of values) =
        Except.ok (Mat.of (values * X)) ∧
      ({ x := Mat.of X, regulariser := reg } : LinearRegressor α).predict (Mat.ofRow v) =
        Except.ok (Mat.of (Matrix.of ![v] * X)) ∧
      ∀ i : Fin N, ∃ rowIn rowOut : Mat α,
        (Mat.of values).row i.val = Except.ok rowIn ∧
        (Mat.of (values * X)).row i.val = Except.ok rowOut ∧
        ({ x := Mat.of X, regulariser := reg } : LinearRegressor α).predict rowIn =
          Except.ok rowOut := by
  refine ⟨Mat.mul_of values X, ?_, ?_⟩
  · have h1 : Mat.ofRow v = Mat.of (Matrix.of ![v]) := by
      simp only [Mat.ofRow, Mat.of]
      congr 1
      ext i j
      have hi : i = 0 := Subsingleton.elim _ _
      simp [hi]
    rw [h1]
    exact Mat.mul_of _ X
  · intro i
    refine ⟨_, _, Mat.row_of values i.val i.isLt, Mat.row_of (values * X) i.val i.isLt, ?_⟩
    rw [LinearRegressor.predict_of _ X rfl, mul_row_eq_vecMul]

/-- C15: the scalar overload `predict(value)` fails, with the error of the shape check, if
and only if the stored coefficient matrix is not exactly 1 x 1; when it is the 1 x 1 matrix
`[c]`, it returns `value * c`, the single entry of what the matrix overload returns for the
1 x 1 matrix `[value]`. -/
theorem predictScalar_spec {α : Type} [Field α] (self : LinearRegressor α) (value : α) :
    ((∃ e, self.predictScalar value = Except.error e) ↔
        ¬ (self.x.rows = 1 ∧ self.x.cols = 1)) ∧
      (self.predictScalar value = Except.error Err.predictShape ↔
        ¬ (self.x.rows = 1 ∧ self.x.cols = 1)) ∧
      ∀ (c : α) (reg : Regulariser α),
        ({ x := Mat.of !![c], regulariser := reg } : LinearRegressor α).predictScalar value =
          Except.ok (value * c) ∧
        ({ x := Mat.of !![c], regulariser := reg } : LinearRegressor α).predict
          (Mat.of !![value]) = Except.ok (Mat.of !![value * c]) := by
  have key : ∀ (s : LinearRegressor α),
      (s.x.rows = 1 ∧ s.x.cols = 1 → ∃ r, s.predictScalar value = Except.ok r) ∧
      (¬ (s.x.rows = 1 ∧ s.x.cols = 1) →
        s.predictScalar value = Except.error Err.predictShape) := by
    intro s
    constructor
    · intro h
      have h1 : ¬ (s.x.rows ≠ 1 ∨ s.x.cols ≠ 1) := by omega
      have hr : 0 < s.x.rows := by omega
      have hc : 0 < s.x.cols := by omega
      exact ⟨value * s.x.val ⟨0, hr⟩ ⟨0, hc⟩,
        by simp only [LinearRegressor.predictScalar, h1, dite_false]⟩
    · intro h
      have h1 : s.x.rows ≠ 1 ∨ s.x.cols ≠ 1 := by omega
      simp only [LinearRegressor.predictScalar, h1, dite_true]
  refine ⟨?_, ?_, ?_⟩
  · constructor
    · rintro ⟨e, he⟩ h
      obtain ⟨r, hr⟩ := (key self).1 h
      rw [hr] at he
      exact Except.noConfusion he
    · intro h
      exact ⟨_, (key self).2 h⟩
  · constructor
    · intro he h
      obtain ⟨r, hr⟩ := (key self).1 h
      rw [hr] at he
      exact Except.noConfusion he
    · exact (key self).2
  · intro c reg
    constructor
    · have h1 : ¬ ((Mat.of !![c]).rows ≠ 1 ∨ (Mat.of !![c]).cols ≠ 1) := by
        simp [Mat.of]
      simp only [LinearRegressor.predictScalar, h1, dite_false]
      rfl
    · rw [LinearRegressor.predict, Mat.mul_of]
      congr 2
      ext i j
      fin_cases i; fin_cases j
      simp [Matrix.mul_apply]

/-- C16: for `data` and `labels` with at least one row and a coefficient matrix `x` with at
least one column, `test(data, labels)` returns `norm(P - labels) / norm(labels)`, where
`P = data * x` has as row `i` the prediction for row `i` of `data` and `norm` is the square
root of the sum of the squared entries. With the square root exact on the two sums, and
`labels` not all zero, the square of the result is
`(sum of squares of data * x - labels) / (sum of squares of labels)`, and the result is 0
exactly when `data * x = labels`. -/
theorem test_relative_residual {α : Type} [LinearOrderedField α] (P : Provider α)
    (reg : Regulariser α) {N D M : ℕ} (hN : 0 < N) (hM : 0 < M)
    (X : Matrix (Fin D) (Fin M) α) (data : Matrix (Fin N) (Fin D) α)
    (labels : Matrix (Fin N) (Fin M) α)
    (hs1 : 0 ≤ P.sqrt (Mat.of (data * X - labels)).sumSq ∧
      P.sqrt (Mat.of (data * X - labels)).sumSq * P.sqrt (Mat.of (data * X - labels)).sumSq =
        (Mat.of (data * X - labels)).sumSq)
    (hs2 : 0 ≤ P.sqrt (Mat.of labels).sumSq ∧
      P.sqrt (Mat.of labels).sumSq * P.sqrt (Mat.of labels).sumSq = (Mat.of labels).sumSq) :
    ∃ residual : α,
      ({ x := Mat.of X, regulariser := reg } : LinearRegressor α).test P (Mat.of data)
        (Mat.of labels) = Except.ok residual ∧
      residual = P.sqrt (Mat.of (data * X - labels)).sumSq / P.sqrt (Mat.of labels).sumSq ∧
      (∀ i : Fin N,
        ({ x := Mat.of X, regulariser := reg } : LinearRegressor α).predict
          (Mat.ofRow (data i)) = Except.ok (Mat.ofRow ((data * X) i))) ∧
      (labels ≠ 0 →
        residual ^ 2 = (Mat.of (data * X - labels)).sumSq / (Mat.of labels).sumSq ∧
        (residual = 0 ↔ data * X = labels)) := by
  obtain ⟨n, rfl⟩ : ∃ n, N = n + 1 := ⟨N - 1, by omega⟩
  obtain ⟨m, rfl⟩ : ∃ m, M = m + 1 := ⟨M - 1, by omega⟩
  refine ⟨_, LinearRegressor.test_of P _ X rfl data labels, rfl, ?_, ?_⟩
  · intro i
    rw [LinearRegressor.predict_of _ X rfl, mul_row_eq_vecMul]
  · intro hl
    have hb : (Mat.of labels).sumSq ≠ 0 := fun h => hl ((sumSq_of_eq_zero_iff labels).1 h)
    have hq := sqrt_quotient hs1 hs2
    refine ⟨hq.1, (hq.2 hb).trans ?_⟩
    rw [sumSq_of_eq_zero_iff, sub_eq_zero]

/-- C16, with `x = [1]`, `data = [3]` and `labels = [4]` over the rationals: the residual
is `sqrt 1 / sqrt 16 = 1/4`. -/
theorem test_relative_residual_witness :
    ({ x := Mat.of !![(1 : ℚ)], regulariser := {} } : LinearRegressor ℚ).test
      Example.provider (Mat.of !![(3 : ℚ)]) (Mat.of !![(4 : ℚ)]) = Except.ok (1 / 4) := by
  have ha : (Mat.of (!![(3 : ℚ)] * !![(1 : ℚ)] - !![(4 : ℚ)])).sumSq = 1 * 1 := by
    simp [Mat.sumSq, Mat.of, Matrix.mul_apply]
    norm_num
  have hb : (Mat.of !![(4 : ℚ)]).sumSq = 4 * 4 := by
    simp [Mat.sumSq, Mat.of]
  have hsa : Example.provider.sqrt (Mat.of (!![(3 : ℚ)] * !![(1 : ℚ)] - !![(4 : ℚ)])).sumSq
      = 1 := by
    rw [ha]
    show Rat.sqrt (1 * 1) = 1
    rw [Rat.sqrt_eq]
    norm_num
  have hsb : Example.provider.sqrt (Mat.of !![(4 : ℚ)]).sumSq = 4 := by
    rw [hb]
    show Rat.sqrt (4 * 4) = 4
    rw [Rat.sqrt_eq]
    norm_num
  obtain ⟨r, h1, h2, -⟩ := test_relative_residual Example.provider {} Nat.one_pos Nat.one_pos
    !![(1 : ℚ)] !![(3 : ℚ)] !![(4 : ℚ)]
    (by rw [hsa, ha]; norm_num) (by rw [hsb, hb]; norm_num)
  rw [h1, h2, hsa, hsb]

end PredictClaims

end superviseddescent

/-! ## Counting the events of the cascade -/

namespace superviseddescent

section EventCounts

variable {α R : Type} [Sub α] {N Pd Qd : ℕ}

omit [Sub α] in
theorem length_featureEvents (X : Matrix (Fin N) (Fin Pd) α) :
    (featureCalls (Spec.featureEvents X)).length = N := by
  have h := featureCalls_featureEvents X []
  rw [List.append_nil] at h
  rw [h]
  simp [featureCalls]

omit [Sub α] in
theorem callbackStates_featureEvents_only (X : Matrix (Fin N) (Fin Pd) α) :
    callbackStates (Spec.featureEvents X) = [] := by
  have h := callbackStates_featureEvents X []
  rw [List.append_nil] at h
  rw [h]
  rfl

variable (lrn : R → Matrix (Fin N) (Fin Qd) α → Matrix (Fin N) (Fin Pd) α → R)
  (prd : R → (Fin Qd → α) → (Fin Pd → α)) (hrow : (Fin Pd → α) → (Fin Qd → α))
  (Xt : Matrix (Fin N) (Fin Pd) α) (Y : Matrix (Fin N) (Fin Qd) α)

/-- Training calls `h` once per stage and row. -/
theorem length_featureCalls_trainEvents (regressors : List R) (k : ℕ)
    (X : Matrix (Fin N) (Fin Pd) α) :
    (featureCalls (Spec.trainEvents lrn prd hrow Xt Y k regressors X)).length =
      regressors.length * N := by
  induction regressors generalizing k X with
  | nil => simp [Spec.trainEvents, featureCalls]
  | cons r rs ih =>
    simp only [Spec.trainEvents, featureCalls_featureEvents, featureCalls, List.length_append,
      List.length_ofFn, ih, List.length_cons]
    ring

/-- Inference calls `h` twice per stage and row. -/
theorem length_featureCalls_testEvents (regressors : List R) (X : Matrix (Fin N) (Fin Pd) α) :
    (featureCalls (Spec.testEvents prd hrow Y regressors X)).length =
      2 * (regressors.length * N) := by
  induction regressors generalizing X with
  | nil => simp [Spec.testEvents, featureCalls]
  | cons r rs ih =>
    simp only [Spec.testEvents, featureCalls_featureEvents, featureCalls, List.length_append,
      List.length_ofFn, ih, List.length_cons]
    ring

/-- The callback of stage `k` of training comes after the `h` calls and the `learn` call of
stages `0` to `k` and after the callbacks of the stages before `k`, and it receives the
state after stage `k`. -/
theorem trainEvents_split (regressors : List R) (k0 : ℕ) (X0 : Matrix (Fin N) (Fin Pd) α)
    (k : ℕ) (hk : k < regressors.length) :
    ∃ (before after : List (Event α)) (Xk : Matrix (Fin N) (Fin Pd) α),
      Spec.trainEvents lrn prd hrow Xt Y k0 regressors X0 =
        before ++ Event.callback (Mat.of Xk) :: after ∧
      (Spec.trainStates lrn prd hrow Xt Y regressors X0)[k]? = some Xk ∧
      (callbackStates before).length = k ∧
      (learnCalls before).length = k + 1 ∧
      (featureCalls before).length = (k + 1) * N := by
  induction regressors generalizing k0 X0 k with
  | nil => simp at hk
  | cons r rs ih =>
    cases k with
    | zero =>
      refine ⟨Spec.featureEvents X0 ++ [Event.learn k0 (Mat.of (Spec.stageInput hrow Y X0))
        (Mat.of (Spec.stageTarget Xt X0))],
        Spec.trainEvents lrn prd hrow Xt Y (k0 + 1) rs (Spec.stageUpdate
          (prd (lrn r (Spec.stageInput hrow Y X0) (Spec.stageTarget Xt X0)))
          (Spec.stageInput hrow Y X0) X0),
        Spec.stageUpdate (prd (lrn r (Spec.stageInput hrow Y X0) (Spec.stageTarget Xt X0)))
          (Spec.stageInput hrow Y X0) X0, ?_, ?_, ?_, ?_, ?_⟩
      · simp only [Spec.trainEvents, List.append_assoc, List.singleton_append]
      · simp only [Spec.trainStates, List.getElem?_cons_zero]
      · simp [callbackStates_featureEvents, callbackStates]
      · simp [learnCalls_featureEvents, learnCalls]
      · simp [featureCalls_featureEvents, featureCalls]
    | succ k1 =>
      obtain ⟨before, after, Xk, h1, h2, h3, h4, h5⟩ := ih (k0 + 1)
        (Spec.stageUpdate (prd (lrn r (Spec.stageInput hrow Y X0) (Spec.stageTarget Xt X0)))
          (Spec.stageInput hrow Y X0) X0) k1 (by simpa using hk)
      refine ⟨Spec.featureEvents X0 ++ Event.learn k0 (Mat.of (Spec.stageInput hrow Y X0))
        (Mat.of (Spec.stageTarget Xt X0)) :: Event.callback (Mat.of (Spec.stageUpdate
          (prd (lrn r (Spec.stageInput hrow Y X0) (Spec.stageTarget Xt X0)))
          (Spec.stageInput hrow Y X0) X0)) :: before, after, Xk, ?_, ?_, ?_, ?_, ?_⟩
      · simp only [Spec.trainEvents, h1, List.append_assoc, List.cons_append]
      · simpa only [Spec.trainStates, List.getElem?_cons_succ] using h2
      · simp [callbackStates_featureEvents, callbackStates, h3]
      · simp [learnCalls_featureEvents, learnCalls, h4]
      · simp only [featureCalls_featureEvents, featureCalls, List.length_append,
          List.length_ofFn, h5]
        ring

/-- The callback of stage `k` of inference comes after the `h` calls of stages `0` to `k`
(two per row and stage) and after the callbacks of the stages before `k`, and it receives
the state after stage `k`. -/
theorem testEvents_split (regressors : List R) (X0 : Matrix (Fin N) (Fin Pd) α)
    (k : ℕ) (hk : k < regressors.length) :
    ∃ (before after : List (Event α)) (Xk : Matrix (Fin N) (Fin Pd) α),
      Spec.testEvents prd hrow Y regressors X0 =
        before ++ Event.callback (Mat.of Xk) :: after ∧
      (Spec.testStates prd hrow Y regressors X0)[k]? = some Xk ∧
      (callbackStates before).length = k ∧
      (featureCalls before).length = 2 * ((k + 1) * N) := by
  induction regressors generalizing X0 k with
  | nil => simp at hk
  | cons r rs ih =>
    cases k with
    | zero =>
      refine ⟨Spec.featureEvents X0 ++ Spec.featureEvents X0,
        Spec.testEvents prd hrow Y rs
          (Spec.stageUpdate (prd r) (Spec.stageInput hrow Y X0) X0),
        Spec.stageUpdate (prd r) (Spec.stageInput hrow Y X0) X0, ?_, ?_, ?_, ?_⟩
      · simp only [Spec.testEvents, List.append_assoc]
      · simp only [Spec.testStates, List.getElem?_cons_zero]
      · simp [callbackStates_featureEvents, callbackStates_featureEvents_only]
      · simp only [featureCalls_featureEvents, List.length_append, List.length_ofFn,
          length_featureEvents]
        ring
    | succ k1 =>
      obtain ⟨before, after, Xk, h1, h2, h3, h5⟩ := ih
        (Spec.stageUpdate (prd r) (Spec.stageInput hrow Y X0) X0) k1 (by simpa using hk)
      refine ⟨Spec.featureEvents X0 ++ (Spec.featureEvents X0 ++
        Event.callback (Mat.of (Spec.stageUpdate (prd r) (Spec.stageInput hrow Y X0) X0)) ::
          before), after, Xk, ?_, ?_, ?_, ?_⟩
      · simp only [Spec.testEvents, h1, List.append_assoc, List.cons_append]
      · simpa only [Spec.testStates, List.getElem?_cons_succ] using h2
      · simp [callbackStates_featureEvents, callbackStates, h3]
      · simp only [featureCalls_featureEvents, featureCalls, List.length_append,
          List.length_ofFn, h5]
        ring

end EventCounts


end superviseddescent

/-! ## Claims on the calls the cascade makes, and on `predict` -/

namespace superviseddescent

section CascadeTraceClaims

variable {α R : Type} [Sub α] {N Pd Qd : ℕ}

/-- C17: with an empty regressor sequence `test(y, x0, h)` returns `x0` itself, for every
`y`, `x0` and `h`, and neither `train` nor `test` records any event: no call of `h`, no
call of the callback (and no call of `learn`). -/
theorem empty_cascade (ops : RegressorType α R) (x y x0 : Mat α) (h : Mat α → Mat α) :
    SupervisedDescentOptimiser.test ops [] y x0 h = Except.ok (x0, []) ∧
      SupervisedDescentOptimiser.train ops [] x y x0 h = Except.ok ([], []) ∧
      featureCalls ([] : List (Event α)) = [] ∧
      callbackStates ([] : List (Event α)) = [] :=
  ⟨rfl, rfl, rfl, rfl⟩

/-- C18: in `train` on a cascade of `K` stages, and in `test` on a cascade of `K` stages
whose regressors predict rows, the callback is invoked exactly `K` times. Its `k`-th
invocation (counting from 0) receives the state after stage `k`; it comes after the calls
of `h` of the stages `0` to `k` (and, in `train`, after their `k + 1` calls of `learn`) and
after exactly `k` earlier invocations. In `test` the last invocation receives the matrix
that `test` returns. -/
theorem callback_per_stage (ops : RegressorType α R)
    (hN : 0 < N) (hPd : 0 < Pd) (hQd : 0 < Qd)
    (lrn : R → Matrix (Fin N) (Fin Qd) α → Matrix (Fin N) (Fin Pd) α → R)
    (prd : R → (Fin Qd → α) → (Fin Pd → α))
    (h : Mat α → Mat α) (hrow : (Fin Pd → α) → (Fin Qd → α))
    (hh : ∀ v : Fin Pd → α, h (Mat.ofRow v) = Mat.ofRow (hrow v))
    (hl : ∀ r A B, ∃ success, ops.learn r (Mat.of A) (Mat.of B) =
      Except.ok (success, lrn r A B))
    (hp : ∀ r A B v, ops.predict (lrn r A B) (Mat.ofRow v) =
      Except.ok (Mat.ofRow (prd (lrn r A B) v)))
    (Xt : Matrix (Fin N) (Fin Pd) α) (Y : Matrix (Fin N) (Fin Qd) α)
    (X0 : Matrix (Fin N) (Fin Pd) α) (regressors fitted : List R)
    (hfit : ∀ r ∈ fitted, ∀ v, ops.predict r (Mat.ofRow v) = Except.ok (Mat.ofRow (prd r v))) :
    (∃ (trained : List R) (events : List (Event α)),
      SupervisedDescentOptimiser.train ops regressors (Mat.of Xt) (Mat.of Y) (Mat.of X0) h =
        Except.ok (trained, events) ∧
      (callbackStates events).length = regressors.length ∧
      callbackStates events =
        (Spec.trainStates lrn prd hrow Xt Y regressors X0).map Mat.of ∧
      ∀ k, k < regressors.length →
        ∃ (before after : List (Event α)) (Xk : Matrix (Fin N) (Fin Pd) α),
          events = before ++ Event.callback (Mat.of Xk) :: after ∧
          (Spec.trainStates lrn prd hrow Xt Y regressors X0)[k]? = some Xk ∧
          (callbackStates before).length = k ∧
          (learnCalls before).length = k + 1 ∧
          (featureCalls before).length = (k + 1) * N) ∧
    (∃ (result : Mat α) (events : List (Event α)),
      SupervisedDescentOptimiser.test ops fitted (Mat.of Y) (Mat.of X0) h =
        Except.ok (result, events) ∧
      (callbackStates events).length = fitted.length ∧
      callbackStates events = (Spec.testStates prd hrow Y fitted X0).map Mat.of ∧
      (fitted ≠ [] → (callbackStates events).getLast? = some result) ∧
      ∀ k, k < fitted.length →
        ∃ (before after : List (Event α)) (Xk : Matrix (Fin N) (Fin Pd) α),
          events = before ++ Event.callback (Mat.of Xk) :: after ∧
          (Spec.testStates prd hrow Y fitted X0)[k]? = some Xk ∧
          (callbackStates before).length = k ∧
          (featureCalls before).length = 2 * ((k + 1) * N)) := by
  obtain ⟨n, rfl⟩ : ∃ n, N = n + 1 := ⟨N - 1, by omega⟩
  obtain ⟨p, rfl⟩ : ∃ p, Pd = p + 1 := ⟨Pd - 1, by omega⟩
  obtain ⟨q, rfl⟩ : ∃ q, Qd = q + 1 := ⟨Qd - 1, by omega⟩
  constructor
  · refine ⟨_, _, trainLoop_of ops lrn prd h hrow hh hl hp Xt Y regressors 0 X0, ?_,
      callbackStates_trainEvents lrn prd hrow Xt Y regressors 0 X0, ?_⟩
    · rw [callbackStates_trainEvents, List.length_map, length_trainStates]
    · intro k hk
      exact trainEvents_split lrn prd hrow Xt Y regressors 0 X0 k hk
  · refine ⟨_, _, testLoop_of ops prd h hrow hh Y fitted hfit X0, ?_,
      callbackStates_testEvents prd hrow Y fitted X0, ?_, ?_⟩
    · rw [callbackStates_testEvents, List.length_map, length_testStates]
    · intro hne
      rw [callbackStates_testEvents, testResult_eq_getLast, List.getLast?_map]
      have hlen := length_testStates prd hrow Y fitted X0
      cases hst : Spec.testStates prd hrow Y fitted X0 with
      | nil =>
        rw [hst] at hlen
        exact absurd (List.length_eq_zero.1 hlen.symm) hne
      | cons a l =>
        rw [List.getLast?_eq_getLast _ (List.cons_ne_nil a l)]
        rfl
    · intro k hk
      exact testEvents_split prd hrow Y fitted X0 k hk

/-- The concrete inference of the examples: cascade `[x = [2]]`, `y = [2]`, `x0 = [3]`,
`h` the identity. -/
theorem Example.test_eq :
    SupervisedDescentOptimiser.test (linearRegressorType Example.provider) [Example.fitted]
        (Mat.of !![(2 : ℚ)]) (Mat.of !![(3 : ℚ)]) Example.hId =
      Except.ok (Mat.of !![(1 : ℚ)],
        [Event.feature (Mat.ofRow ![(3 : ℚ)]), Event.feature (Mat.ofRow ![(3 : ℚ)]),
          Event.callback (Mat.of !![(1 : ℚ)])]) := by
  have hfit : ∀ r ∈ [Example.fitted], ∀ v : Fin (0 + 1) → ℚ,
      (linearRegressorType Example.provider).predict r (Mat.ofRow v) =
        Except.ok (Mat.ofRow (LinearRegressor.predictRow r v : Fin (0 + 1) → ℚ)) := by
    intro r hr v
    rw [List.mem_singleton] at hr
    subst hr
    exact (LinearRegressor.predict_of Example.fitted !![(2 : ℚ)] rfl v).trans
      (by simp only [LinearRegressor.predictRow, Example.fitted, Mat.toMatrix_of])
  have hloop := testLoop_of (linearRegressorType Example.provider)
    LinearRegressor.predictRow Example.hId id (fun _ => rfl) !![(2 : ℚ)] [Example.fitted]
    hfit !![(3 : ℚ)]
  have hupd : Spec.stageUpdate (LinearRegressor.predictRow Example.fitted)
      (Spec.stageInput (id : (Fin (0 + 1) → ℚ) → (Fin (0 + 1) → ℚ)) !![(2 : ℚ)] !![(3 : ℚ)])
      !![(3 : ℚ)] = !![(1 : ℚ)] := by
    ext i j
    fin_cases i; fin_cases j
    simp [Spec.stageUpdate, Spec.stageInput, LinearRegressor.predictRow, Example.fitted,
      Mat.toMatrix_of, Matrix.vecMul, Matrix.dotProduct, Matrix.vecHead]
    norm_num
  have hrow : (!![(3 : ℚ)] : Matrix (Fin (0 + 1)) (Fin (0 + 1)) ℚ) 0 = ![(3 : ℚ)] := by
    ext j
    fin_cases j
    simp
  refine hloop.trans ?_
  simp only [Spec.testResult, Spec.testEvents, hupd, Spec.featureEvents, List.ofFn_succ,
    List.ofFn_zero, List.cons_append, List.nil_append, hrow]

/-- C18, on the one-stage cascades of the examples: the callback is invoked once, in
`train` and in `test`, with the state `[1]`, which is what `test` returns. -/
theorem callback_per_stage_witness :
    (∃ (trained : List (LinearRegressor ℚ)) (events : List (Event ℚ)),
      SupervisedDescentOptimiser.train (linearRegressorType Example.provider)
          [Example.regressor] (Mat.of !![(1 : ℚ)]) (Mat.of !![(2 : ℚ)]) (Mat.of !![(3 : ℚ)])
          Example.hId = Except.ok (trained, events) ∧
      callbackStates events = [Mat.of !![(1 : ℚ)]]) ∧
    (∃ (events : List (Event ℚ)),
      SupervisedDescentOptimiser.test (linearRegressorType Example.provider)
          [Example.fitted] (Mat.of !![(2 : ℚ)]) (Mat.of !![(3 : ℚ)]) Example.hId =
        Except.ok (Mat.of !![(1 : ℚ)], events) ∧
      callbackStates events = [Mat.of !![(1 : ℚ)]]) := by
  obtain ⟨⟨trained, ev1, h1, -, h3, -⟩, ⟨result, ev2, g1, -, -, g4, -⟩⟩ :=
    callback_per_stage (linearRegressorType Example.provider)
      Nat.one_pos Nat.one_pos Nat.one_pos
      (LinearRegressor.learned Example.provider) LinearRegressor.predictRow Example.hId id
      (fun _ => rfl)
      (linearRegressorType_learn Example.provider (exactProvider_exactLU Rat.sqrt))
      (linearRegressorType_predict Example.provider (exactProvider_exactLU Rat.sqrt))
      !![(1 : ℚ)] !![(2 : ℚ)] !![(3 : ℚ)] [Example.regressor] [Example.fitted]
      (fun r hr v => by
        rw [List.mem_singleton] at hr
        subst hr
        exact (LinearRegressor.predict_of Example.fitted !![(2 : ℚ)] rfl v).trans
          (by simp only [LinearRegressor.predictRow, Example.fitted, Mat.toMatrix_of]))
  constructor
  · refine ⟨trained, ev1, h1, h3.trans ?_⟩
    simp only [Spec.trainStates, Example.stageInput_eq, Example.stageTarget_eq,
      Example.learned_eq, Example.stageUpdate_eq, List.map_cons, List.map_nil]
  · have hev := g1.symm.trans Example.test_eq
    obtain ⟨hres, hevs⟩ := Prod.mk.inj (Except.ok.inj hev)
    refine ⟨ev2, by rw [g1, hres], ?_⟩
    rw [hevs]
    rfl

/-- C19 on the code: `test` on the one-stage cascade `[x = [2]]` with the single example
`y = [2]`, `x0 = [3]` calls `h` twice on the row `[3]`, once in the feature loop and once
in the update loop, where `K * N = 1`; `train` on one stage and one example calls `h`
once. -/
theorem test_calls_h_twice :
    (∃ events : List (Event ℚ),
      SupervisedDescentOptimiser.test (linearRegressorType Example.provider)
          [Example.fitted] (Mat.of !![(2 : ℚ)]) (Mat.of !![(3 : ℚ)]) Example.hId =
        Except.ok (Mat.of !![(1 : ℚ)], events) ∧
      featureCalls events = [Mat.ofRow ![(3 : ℚ)], Mat.ofRow ![(3 : ℚ)]]) ∧
    (∃ (trained : List (LinearRegressor ℚ)) (events : List (Event ℚ)),
      SupervisedDescentOptimiser.train (linearRegressorType Example.provider)
          [Example.regressor] (Mat.of !![(1 : ℚ)]) (Mat.of !![(2 : ℚ)]) (Mat.of !![(3 : ℚ)])
          Example.hId = Except.ok (trained, events) ∧
      (featureCalls events).length = 1) := by
  constructor
  · exact ⟨_, Example.test_eq, rfl⟩
  · refine ⟨_, _, trainLoop_of (linearRegressorType Example.provider)
      (LinearRegressor.learned Example.provider) LinearRegressor.predictRow Example.hId id
      (fun _ => rfl)
      (linearRegressorType_learn Example.provider (exactProvider_exactLU Rat.sqrt))
      (linearRegressorType_predict Example.provider (exactProvider_exactLU Rat.sqrt))
      (!![(1 : ℚ)] : Matrix (Fin (0 + 1)) (Fin (0 + 1)) ℚ) !![(2 : ℚ)] [Example.regressor] 0
      !![(3 : ℚ)], ?_⟩
    rw [length_featureCalls_trainEvents]
    rfl

/-- C20 on the code: `predict(x0 = [3], template_y = [2], h = id)` on the one-stage cascade
`[x = [2]]` computes `h(X) - y` with the matrix the stray name `y` stands for, whatever
`template_y` is. With `y = [0]` it returns `[3 - (3 - 0) * 2] = [-3]`, while
`test(template_y, x0, h)` returns `[1]`; only with `y = template_y` does it return the
matrix of `test`. -/
theorem predict_reads_y_not_template :
    (∀ template_y : Mat ℚ,
      SupervisedDescentOptimiser.predict (linearRegressorType Example.provider)
          [Example.fitted] (Mat.of !![(0 : ℚ)]) (Mat.of !![(3 : ℚ)]) template_y Example.hId =
        Except.ok (Mat.of !![(-3 : ℚ)], [Event.feature (Mat.of !![(3 : ℚ)])])) ∧
    SupervisedDescentOptimiser.predict (linearRegressorType Example.provider)
        [Example.fitted] (Mat.of !![(2 : ℚ)]) (Mat.of !![(3 : ℚ)]) (Mat.of !![(2 : ℚ)])
        Example.hId =
      Except.ok (Mat.of !![(1 : ℚ)], [Event.feature (Mat.of !![(3 : ℚ)])]) ∧
    (∃ events : List (Event ℚ),
      SupervisedDescentOptimiser.test (linearRegressorType Example.provider)
          [Example.fitted] (Mat.of !![(2 : ℚ)]) (Mat.of !![(3 : ℚ)]) Example.hId =
        Except.ok (Mat.of !![(1 : ℚ)], events)) ∧
    Mat.of !![(-3 : ℚ)] ≠ Mat.of !![(1 : ℚ)] := by
  have h1 : (!![(3 : ℚ)] - (!![(3 : ℚ)] - !![(0 : ℚ)]) * !![(2 : ℚ)] :
      Matrix (Fin 1) (Fin 1) ℚ) = !![(-3 : ℚ)] := by
    ext i j
    fin_cases i; fin_cases j
    simp [Matrix.mul_apply]
    norm_num
  have h2 : (!![(3 : ℚ)] - (!![(3 : ℚ)] - !![(2 : ℚ)]) * !![(2 : ℚ)] :
      Matrix (Fin 1) (Fin 1) ℚ) = !![(1 : ℚ)] := by
    ext i j
    fin_cases i; fin_cases j
    simp [Matrix.mul_apply]
    norm_num
  refine ⟨?_, ?_, ⟨_, Example.test_eq⟩, ?_⟩
  · intro template_y
    simp only [SupervisedDescentOptimiser.predict, SupervisedDescentOptimiser.predictLoop,
      callH, Example.hId, Traced.ok_bind, Mat.sub_of, Traced.liftM_ok, linearRegressorType,
      LinearRegressor.predict, Example.fitted, Mat.mul_of, Traced.pure_eq, h1,
      List.append_nil, List.nil_append]
  · simp only [SupervisedDescentOptimiser.predict, SupervisedDescentOptimiser.predictLoop,
      callH, Example.hId, Traced.ok_bind, Mat.sub_of, Traced.liftM_ok, linearRegressorType,
      LinearRegressor.predict, Example.fitted, Mat.mul_of, Traced.pure_eq, h2,
      List.append_nil, List.nil_append]
  · intro h
    have h3 := congrArg (fun m => m.toMatrix 1 1 0 0) h
    simp [Mat.toMatrix_of] at h3
    norm_num at h3

end CascadeTraceClaims

end superviseddescent

/-! ## A regularised normal-equation matrix is positive definite -/

namespace superviseddescent

section PositiveDefinite

variable {α : Type} [LinearOrderedField α]

theorem dotProduct_self_nonneg {d : ℕ} (v : Fin d → α) : 0 ≤ Matrix.dotProduct v v :=
  Finset.sum_nonneg fun i _ => mul_self_nonneg (v i)

theorem dotProduct_self_pos {d : ℕ} (v : Fin d → α) (hv : v ≠ 0) :
    0 < Matrix.dotProduct v v := by
  obtain ⟨i, hi⟩ := Function.ne_iff.1 hv
  exact Finset.sum_pos' (fun j _ => mul_self_nonneg (v j))
    ⟨i, Finset.mem_univ i, mul_self_pos.2 hi⟩

/-- The quadratic form of the regularised normal-equation matrix. -/
theorem regularised_quadratic_form {n d : ℕ} (data : Matrix (Fin n) (Fin d) α) (lam : α)
    (v : Fin d → α) :
    Matrix.dotProduct v
        ((data.transpose * data + lam • (1 : Matrix (Fin d) (Fin d) α)).mulVec v) =
      Matrix.dotProduct (data.mulVec v) (data.mulVec v) + lam * Matrix.dotProduct v v := by
  rw [Matrix.add_mulVec, Matrix.dotProduct_add, Matrix.smul_mulVec_assoc, Matrix.one_mulVec,
    Matrix.dotProduct_smul, smul_eq_mul, ← Matrix.mulVec_mulVec, Matrix.dotProduct_mulVec,
    Matrix.vecMul_transpose]

theorem regularised_posDef {n d : ℕ} (data : Matrix (Fin n) (Fin d) α) (lam : α)
    (hlam : 0 < lam) (v : Fin d → α) (hv : v ≠ 0) :
    0 < Matrix.dotProduct v
        ((data.transpose * data + lam • (1 : Matrix (Fin d) (Fin d) α)).mulVec v) := by
  rw [regularised_quadratic_form]
  have h1 := dotProduct_self_nonneg (data.mulVec v)
  have h2 := mul_pos hlam (dotProduct_self_pos v hv)
  linarith

theorem regularised_isUnit_det {n d : ℕ} (data : Matrix (Fin n) (Fin d) α) (lam : α)
    (hlam : 0 < lam) :
    IsUnit (data.transpose * data + lam • (1 : Matrix (Fin d) (Fin d) α)).det := by
  rw [isUnit_iff_ne_zero]
  intro hdet
  obtain ⟨v, hv, hzero⟩ := Matrix.exists_mulVec_eq_zero_iff.2 hdet
  have hpos := regularised_posDef data lam hlam v hv
  rw [hzero, Matrix.dotProduct_zero] at hpos
  exact lt_irrefl _ hpos

end PositiveDefinite

section RidgeClaims

/-- C25: with a Manual regulariser with `lam > 0` and `regulariseLastRow = true`, for every
data matrix (with any number of columns, `D >= 1` included) the regularised normal-equation
matrix `data^T data + lam * I` is symmetric and positive definite, hence invertible, and
`learn` returns true for every `labels` with as many rows as `data`. -/
theorem learn_ridge_succeeds {α : Type} [LinearOrderedField α] (P : Provider α)
    (hP : P.ExactLU) (x0 : Mat α) (lam : α) (hlam : 0 < lam) {n d m : ℕ}
    (data : Matrix (Fin n) (Fin d) α) (labels : Matrix (Fin n) (Fin m) α) :
    (data.transpose * data + lam • (1 : Matrix (Fin d) (Fin d) α)).IsSymm ∧
    (∀ v : Fin d → α, v ≠ 0 → 0 < Matrix.dotProduct v
      ((data.transpose * data + lam • (1 : Matrix (Fin d) (Fin d) α)).mulVec v)) ∧
    IsUnit (data.transpose * data + lam • (1 : Matrix (Fin d) (Fin d) α)).det ∧
    ∃ X : Matrix (Fin d) (Fin m) α,
      ({ x := x0,
          regulariser := { regularisationType := .Manual, lambda := lam,
                           regulariseLastRow := true } } :
          LinearRegressor α).learn P (Mat.of data) (Mat.of labels) =
        Except.ok (true,
          { x := Mat.of X,
            regulariser := { regularisationType := .Manual, lambda := lam,
                             regulariseLastRow := true } }) := by
  have hR := Regulariser.getMatrix_square P
    ({ regularisationType := .Manual, lambda := lam, regulariseLastRow := true } :
      Regulariser α) rfl (data.transpose * data) (n : ℤ)
  refine ⟨?_, regularised_posDef data lam hlam, regularised_isUnit_det data lam hlam, _,
    LinearRegressor.learn_invertible P hP _ data labels _ _ hR
      (regularised_isUnit_det data lam hlam)⟩
  simp [Matrix.IsSymm, Matrix.transpose_add, Matrix.transpose_mul, Matrix.transpose_smul]

/-- C25, with `lam = 1`, `data = [0]` (whose normal-equation matrix alone is singular) and
`labels = [1]` over the rationals: `learn` returns true. -/
theorem learn_ridge_succeeds_witness :
    ∃ X : Matrix (Fin 1) (Fin 1) ℚ,
      ({ x := Mat.empty,
          regulariser := { regularisationType := .Manual, lambda := 1,
                           regulariseLastRow := true } } :
          LinearRegressor ℚ).learn Example.provider (Mat.of !![(0 : ℚ)]) (Mat.of !![(1 : ℚ)]) =
        Except.ok (true,
          { x := Mat.of X,
            regulariser := { regularisationType := .Manual, lambda := 1,
                             regulariseLastRow := true } }) :=
  (learn_ridge_succeeds Example.provider (exactProvider_exactLU Rat.sqrt) Mat.empty 1
    one_pos !![(0 : ℚ)] !![(1 : ℚ)]).2.2.2

end RidgeClaims

end superviseddescent

/-! ## The training residual along the cascade -/

namespace superviseddescent

section ResidualDescent

variable {α : Type} [LinearOrderedField α]

/-- The regularisation matrix of a Manual regulariser with `lambda >= 0` is diagonal with
entries that are not negative, whether or not the last row is regularised. -/
theorem Regulariser.getMatrix_manual_diagonal (P : Provider α) (self : Regulariser α)
    (hman : self.regularisationType = .Manual) (hlam : 0 ≤ self.lambda) {d : ℕ}
    (data : Matrix (Fin (d + 1)) (Fin (d + 1)) α) (numTrainingElements : ℤ) :
    ∃ dv : Fin (d + 1) → α, (∀ i, 0 ≤ dv i) ∧
      self.getMatrix P (Mat.of data) numTrainingElements =
        Except.ok (Mat.of (Matrix.diagonal dv),
          { self with lambda := self.switchLambda P (Mat.of data) numTrainingElements }) := by
  have hsw : self.switchLambda P (Mat.of data) numTrainingElements = self.lambda := by
    simp only [Regulariser.switchLambda, hman]
  cases hlast : self.regulariseLastRow with
  | true =>
    refine ⟨fun _ => self.lambda, fun _ => hlam, ?_⟩
    rw [Regulariser.getMatrix_square P self hlast data numTrainingElements]
    congr 3
    ext i j
    simp [Matrix.diagonal_apply, Matrix.one_apply, hsw]
  | false =>
    refine ⟨fun i => if i.val = d then 0 else self.lambda, fun i => ?_, ?_⟩
    · by_cases hi : i.val = d
      · simp [hi]
      · simp [hi, hlam]
    · rw [Regulariser.getMatrix_noLastRow P self hlast data numTrainingElements]
      congr 3
      ext i j
      simp only [Matrix.of_apply, Matrix.diagonal_apply, Fin.ext_iff, hsw]
      by_cases hij : i.val = j.val
      · by_cases hi : i.val = d
        · simp [← hij, hi]
        · simp [← hij, hi]
      · simp only [hij, if_false, ite_self]

/-- With a regularisation matrix that is diagonal with entries that are not negative, the
residual of the solution of the regularised normal equations is at most the one of zero. -/
theorem normal_equations_residual_le {n d m : ℕ} (A : Matrix (Fin n) (Fin d) α)
    (b : Matrix (Fin n) (Fin m) α) (dv : Fin d → α) (hdv : ∀ i, 0 ≤ dv i)
    (x : Matrix (Fin d) (Fin m) α)
    (hx : (A.transpose * A + Matrix.diagonal dv) * x = A.transpose * b) :
    (Mat.of (b - A * x)).sumSq ≤ (Mat.of b).sumSq := by
  have hb : b = (b - A * x) + A * x := by abel
  have h2 : A.transpose * (b - A * x) = Matrix.diagonal dv * x := by
    rw [Matrix.mul_sub, ← hx, Matrix.add_mul, Matrix.mul_assoc]
    abel
  have hcross : 0 ≤ ((b - A * x).transpose * (A * x)).trace := by
    have h1 : (b - A * x).transpose * (A * x) =
        (A.transpose * (b - A * x)).transpose * x := by
      rw [Matrix.transpose_mul, Matrix.transpose_transpose, Matrix.mul_assoc]
    have h5 : Matrix.diagonal dv * x = Matrix.of fun i j => dv i * x i j := by
      ext i j
      simp only [Matrix.diagonal_mul, Matrix.of_apply]
    rw [h1, h2, h5]
    simp only [Matrix.trace, Matrix.diag_apply, Matrix.mul_apply, Matrix.transpose_apply,
      Matrix.of_apply]
    exact Finset.sum_nonneg fun j _ => Finset.sum_nonneg fun i _ => by
      rw [mul_assoc]
      exact mul_nonneg (hdv i) (mul_self_nonneg _)
  have h3 := sumSq_add (b - A * x) (A * x)
  rw [← hb] at h3
  have h4 := sumSq_of_nonneg (A * x)
  linarith

theorem Spec.stageUpdate_predictRow (r : LinearRegressor α) {n q p : ℕ}
    (Xc : Matrix (Fin q) (Fin p) α) (hx : r.x = Mat.of Xc)
    (A : Matrix (Fin n) (Fin q) α) (X : Matrix (Fin n) (Fin p) α) :
    Spec.stageUpdate r.predictRow A X = X - A * Xc := by
  ext i j
  simp only [Spec.stageUpdate, LinearRegressor.predictRow, hx, Mat.toMatrix_of, Matrix.of_apply,
    Pi.sub_apply, Matrix.sub_apply, Matrix.vecMul, Matrix.dotProduct, Matrix.mul_apply]

/-- One stage of training with a ridge regression that has a solution does not increase the
squared distance of the state to the ground truth. -/
theorem LinearRegressor.ridgeStage_residual (P : Provider α) (hP : P.ExactLU)
    (r : LinearRegressor α) {n q p : ℕ} (hq : 0 < q) (A : Matrix (Fin n) (Fin q) α)
    (X Xt : Matrix (Fin n) (Fin p) α) (hr : r.RidgeStage P A) :
    (Mat.of (Spec.stageUpdate
        (r.learned P A (Spec.stageTarget Xt X)).predictRow A X - Xt)).sumSq ≤
      (Mat.of (X - Xt)).sumSq := by
  obtain ⟨q1, rfl⟩ : ∃ q1, q = q1 + 1 := ⟨q - 1, by omega⟩
  obtain ⟨hman, hlam, Rm, reg, hR, hinv⟩ := hr
  obtain ⟨dv, hdv, hR1⟩ := Regulariser.getMatrix_manual_diagonal P r.regulariser hman hlam
    (A.transpose * A) (n : ℤ)
  rw [hR1] at hR
  have hRm : Matrix.diagonal dv = Rm :=
    Mat.of_injective _ _ (Prod.mk.inj (Except.ok.inj hR)).1
  subst hRm
  have hl := LinearRegressor.learn_invertible P hP r A (Spec.stageTarget Xt X) _ _ hR1 hinv
  have hx : (r.learned P A (Spec.stageTarget Xt X)).x =
      Mat.of ((A.transpose * A + Matrix.diagonal dv)⁻¹ * A.transpose *
        Spec.stageTarget Xt X) := by
    simp only [LinearRegressor.learned, hl]
  rw [Spec.stageUpdate_predictRow _ _ hx]
  have hres : X - A * ((A.transpose * A + Matrix.diagonal dv)⁻¹ * A.transpose *
      Spec.stageTarget Xt X) - Xt =
      Spec.stageTarget Xt X - A * ((A.transpose * A + Matrix.diagonal dv)⁻¹ * A.transpose *
        Spec.stageTarget Xt X) := by
    simp only [Spec.stageTarget]
    abel
  rw [hres]
  apply normal_equations_residual_le A _ dv hdv
  rw [Matrix.mul_assoc _ A.transpose]
  exact (nonsing_solution _ hinv _).1

end ResidualDescent

section StateLists

variable {α R : Type} [Sub α] {N Pd Qd : ℕ}

theorem List.getLast?_cons_getD {β : Type} (a d : β) (l : List β) :
    ((a :: l).getLast?).getD d = (l.getLast?).getD a := by
  cases l with
  | nil => rfl
  | cons b t =>
    rw [List.getLast?_cons_cons]
    cases h : (b :: t).getLast? with
    | none => simp at h
    | some c => rfl

variable (lrn : R → Matrix (Fin N) (Fin Qd) α → Matrix (Fin N) (Fin Pd) α → R)
  (prd : R → (Fin Qd → α) → (Fin Pd → α)) (hrow : (Fin Pd → α) → (Fin Qd → α))
  (Xt : Matrix (Fin N) (Fin Pd) α) (Y : Matrix (Fin N) (Fin Qd) α)

/-- Training a cascade passes through the states of training its first stages, and goes on
from the last of them. -/
theorem Spec.trainStates_append (pre suf : List R) (X : Matrix (Fin N) (Fin Pd) α) :
    Spec.trainStates lrn prd hrow Xt Y (pre ++ suf) X =
      Spec.trainStates lrn prd hrow Xt Y pre X ++
        Spec.trainStates lrn prd hrow Xt Y suf
          (((Spec.trainStates lrn prd hrow Xt Y pre X).getLast?).getD X) := by
  induction pre generalizing X with
  | nil => rfl
  | cons r rs ih =>
    rw [List.cons_append]
    simp only [Spec.trainStates, List.cons_append, List.getLast?_cons_getD]
    rw [ih]

end StateLists

section ResidualChain

variable {α : Type} [LinearOrderedField α] {N Pd Qd : ℕ}

/-- Stages that all are ridge regressions with a solution do not increase the squared
distance of the state to the ground truth. -/
theorem ridgeStages_residual (P : Provider α) (hP : P.ExactLU) (hQd : 0 < Qd)
    (hrow : (Fin Pd → α) → (Fin Qd → α))
    (Xt : Matrix (Fin N) (Fin Pd) α) (Y : Matrix (Fin N) (Fin Qd) α)
    (suf : List (LinearRegressor α)) (X : Matrix (Fin N) (Fin Pd) α)
    (hsuf : ∀ (k : ℕ) (r : LinearRegressor α) (X1 : Matrix (Fin N) (Fin Pd) α),
      suf[k]? = some r →
      (X :: Spec.trainStates (LinearRegressor.learned P) LinearRegressor.predictRow hrow Xt Y
        suf X)[k]? = some X1 →
      r.RidgeStage P (Spec.stageInput hrow Y X1)) :
    (Mat.of (((Spec.trainStates (LinearRegressor.learned P) LinearRegressor.predictRow hrow Xt Y
        suf X).getLast?).getD X - Xt)).sumSq ≤ (Mat.of (X - Xt)).sumSq := by
  induction suf generalizing X with
  | nil => exact le_refl _
  | cons r rs ih =>
    simp only [Spec.trainStates, List.getLast?_cons_getD]
    have h0 := hsuf 0 r X (List.getElem?_cons_zero ..) (List.getElem?_cons_zero ..)
    refine le_trans (ih _ ?_) (LinearRegressor.ridgeStage_residual P hP r hQd _ X Xt h0)
    intro k r1 X1 hr1 hX1
    exact hsuf (k + 1) r1 X1 (by rw [List.getElem?_cons_succ]; exact hr1)
      (by rw [List.getElem?_cons_succ]; exact hX1)

end ResidualChain

section StateLists2

theorem List.getLast?_append_getD {β : Type} (d : β) (l1 l2 : List β) :
    ((l1 ++ l2).getLast?).getD d = (l2.getLast?).getD ((l1.getLast?).getD d) := by
  induction l1 generalizing d with
  | nil => rfl
  | cons a t ih => rw [List.cons_append, List.getLast?_cons_getD, List.getLast?_cons_getD, ih]

theorem List.getElem?_cons_append_length {β : Type} (d : β) (l1 l2 : List β) (k : ℕ) :
    (d :: (l1 ++ l2))[l1.length + k]? = (((l1.getLast?).getD d) :: l2)[k]? := by
  induction l1 generalizing d with
  | nil => simp
  | cons a t ih =>
    rw [List.length_cons, Nat.add_right_comm, List.getElem?_cons_succ, List.cons_append, ih,
      List.getLast?_cons_getD]

end StateLists2

section ResidualClaims

/-- C22: training on matrices of known shape with linear regressors raises no error, and
for every stage `k` whose regulariser is Manual with `lambda >= 0` and whose regularised
normal-equation matrix, for the stage input `A = h(X_k) - y`, is invertible, the state after
the stage is at most as far from the ground truth as the state before it, in the squared
Frobenius norm and, for a monotone square root, in the Frobenius norm `cv::norm`. Hence,
when the stages after a prefix of the cascade all are such stages, the state in which
training the whole cascade ends is at most as far from the ground truth as the state in
which training the prefix ends. -/
theorem train_residual_monotone {α : Type} [LinearOrderedField α] (P : Provider α)
    (hP : P.ExactLU) {N Pd Qd : ℕ} (hN : 0 < N) (hPd : 0 < Pd) (hQd : 0 < Qd)
    (h : Mat α → Mat α) (hrow : (Fin Pd → α) → (Fin Qd → α))
    (hh : ∀ v : Fin Pd → α, h (Mat.ofRow v) = Mat.ofRow (hrow v))
    (Xt : Matrix (Fin N) (Fin Pd) α) (Y : Matrix (Fin N) (Fin Qd) α)
    (X0 : Matrix (Fin N) (Fin Pd) α) (regressors : List (LinearRegressor α)) :
    ∃ (trained : List (LinearRegressor α)) (events : List (Event α))
      (states : List (Matrix (Fin N) (Fin Pd) α)),
      SupervisedDescentOptimiser.train (linearRegressorType P) regressors (Mat.of Xt)
          (Mat.of Y) (Mat.of X0) h = Except.ok (trained, events) ∧
      callbackStates events = states.map Mat.of ∧
      states.length = regressors.length ∧
      (∀ (k : ℕ) (r : LinearRegressor α) (X : Matrix (Fin N) (Fin Pd) α),
        regressors[k]? = some r → (X0 :: states)[k]? = some X →
        r.RidgeStage P (Spec.stageInput hrow Y X) →
        ∃ X1 : Matrix (Fin N) (Fin Pd) α, states[k]? = some X1 ∧
          (Mat.of (X1 - Xt)).sumSq ≤ (Mat.of (X - Xt)).sumSq ∧
          (Monotone P.sqrt → P.norm (Mat.of (X1 - Xt)) ≤ P.norm (Mat.of (X - Xt)))) ∧
      (∀ pre suf : List (LinearRegressor α), regressors = pre ++ suf →
        (∀ (k : ℕ) (r : LinearRegressor α) (X : Matrix (Fin N) (Fin Pd) α),
          pre.length ≤ k → regressors[k]? = some r → (X0 :: states)[k]? = some X →
          r.RidgeStage P (Spec.stageInput hrow Y X)) →
        ∃ (trainedPre : List (LinearRegressor α)) (eventsPre : List (Event α))
          (statesPre : List (Matrix (Fin N) (Fin Pd) α)),
          SupervisedDescentOptimiser.train (linearRegressorType P) pre (Mat.of Xt)
              (Mat.of Y) (Mat.of X0) h = Except.ok (trainedPre, eventsPre) ∧
          callbackStates eventsPre = statesPre.map Mat.of ∧
          statesPre.length = pre.length ∧
          (Mat.of ((states.getLast?).getD X0 - Xt)).sumSq ≤
            (Mat.of ((statesPre.getLast?).getD X0 - Xt)).sumSq ∧
          (Monotone P.sqrt → P.norm (Mat.of ((states.getLast?).getD X0 - Xt)) ≤
            P.norm (Mat.of ((statesPre.getLast?).getD X0 - Xt)))) := by
  obtain ⟨n, rfl⟩ : ∃ n, N = n + 1 := ⟨N - 1, by omega⟩
  obtain ⟨p, rfl⟩ : ∃ p, Pd = p + 1 := ⟨Pd - 1, by omega⟩
  obtain ⟨q, rfl⟩ : ∃ q, Qd = q + 1 := ⟨Qd - 1, by omega⟩
  have htrain := fun rs : List (LinearRegressor α) =>
    trainLoop_of (linearRegressorType P) (LinearRegressor.learned P)
      LinearRegressor.predictRow h hrow hh (linearRegressorType_learn P hP)
      (linearRegressorType_predict P hP) Xt Y rs 0 X0
  refine ⟨_, _, Spec.trainStates (LinearRegressor.learned P) LinearRegressor.predictRow hrow
    Xt Y regressors X0, htrain regressors, callbackStates_trainEvents _ _ _ _ _ _ _ _,
    length_trainStates _ _ _ _ _ _ _, ?_, ?_⟩
  · intro k r X hr hX hridge
    have hst := (trainSpec_stage (LinearRegressor.learned P) LinearRegressor.predictRow hrow
      Xt Y regressors 0 X0 k r X hr hX).2.2
    have hle := LinearRegressor.ridgeStage_residual P hP r hQd _ X Xt hridge
    exact ⟨_, hst, hle, fun hmono => hmono hle⟩
  · intro pre suf hsplit hsuf
    subst hsplit
    have hle := ridgeStages_residual P hP hQd hrow Xt Y suf
      (((Spec.trainStates (LinearRegressor.learned P) LinearRegressor.predictRow hrow Xt Y
        pre X0).getLast?).getD X0) (by
        intro k r X1 hr hX1
        refine hsuf (pre.length + k) r X1 (Nat.le_add_right _ _) ?_ ?_
        · rw [List.getElem?_append_right (Nat.le_add_right _ _), Nat.add_sub_cancel_left]
          exact hr
        · rw [Spec.trainStates_append]
          have hlen := length_trainStates (LinearRegressor.learned P)
            LinearRegressor.predictRow hrow Xt Y pre X0
          rw [← hlen, List.getElem?_cons_append_length]
          exact hX1)
    rw [← List.getLast?_append_getD, ← Spec.trainStates_append] at hle
    exact ⟨_, _, Spec.trainStates (LinearRegressor.learned P) LinearRegressor.predictRow hrow
      Xt Y pre X0, htrain pre, callbackStates_trainEvents _ _ _ _ _ _ _ _,
      length_trainStates _ _ _ _ _ _ _, hle, fun hmono => hmono hle⟩

/-- C22, on a one-stage cascade with the default linear regressor over the rationals,
`x_truth = [1]`, `y = [2]`, `x0 = [3]` and `h` the identity: the stage input is `[1]`, the
normal-equation matrix `[1]` is invertible, and the state after the stage is at most as far
from `x_truth` as `x0`. -/
theorem train_residual_monotone_witness :
    ∃ (trained : List (LinearRegressor ℚ)) (events : List (Event ℚ))
      (X1 : Matrix (Fin 1) (Fin 1) ℚ),
      SupervisedDescentOptimiser.train (linearRegressorType Example.provider)
          [Example.regressor] (Mat.of !![(1 : ℚ)]) (Mat.of !![(2 : ℚ)]) (Mat.of !![(3 : ℚ)])
          Example.hId = Except.ok (trained, events) ∧
      callbackStates events = [Mat.of X1] ∧
      (Mat.of (X1 - !![(1 : ℚ)])).sumSq ≤ (Mat.of (!![(3 : ℚ)] - !![(1 : ℚ)])).sumSq := by
  obtain ⟨trained, events, states, h1, h2, h3, hstage, -⟩ :=
    train_residual_monotone Example.provider (exactProvider_exactLU Rat.sqrt)
      Nat.one_pos Nat.one_pos Nat.one_pos Example.hId id (fun _ => rfl)
      !![(1 : ℚ)] !![(2 : ℚ)] !![(3 : ℚ)] [Example.regressor]
  have hridge : Example.regressor.RidgeStage Example.provider
      (Spec.stageInput (id : (Fin 1 → ℚ) → (Fin 1 → ℚ)) !![(2 : ℚ)] !![(3 : ℚ)]) := by
    rw [Example.stageInput_eq]
    refine ⟨rfl, le_refl _, _, _,
      Regulariser.getMatrix_square Example.provider Example.regressor.regulariser rfl
        ((!![(1 : ℚ)]).transpose * !![(1 : ℚ)]) ((1 : ℕ) : ℤ), ?_⟩
    rw [isUnit_iff_ne_zero, Matrix.det_fin_one, Matrix.add_apply, Matrix.mul_apply]
    simp [Regulariser.switchLambda, Example.regressor]
  obtain ⟨X1, hX1, hle, -⟩ := hstage 0 Example.regressor !![(3 : ℚ)] rfl
    (List.getElem?_cons_zero ..) hridge
  refine ⟨trained, events, X1, h1, ?_, hle⟩
  match states, h3, hX1 with
  | [X], _, hX1 =>
    simp only [List.getElem?_cons_zero, Option.some.injEq] at hX1
    rw [h2, hX1]
    rfl

end ResidualClaims

end superviseddescent

/-! ## A linear feature function: recovery of the ground truth in one stage -/

namespace superviseddescent

section LinearFeature

variable {α : Type} [Field α]

/-- The stage input for the linear feature function `h(v) = v * M` and observations
`y = x_truth * M`. -/
theorem Spec.stageInput_linear {N Pd : ℕ} (M : Matrix (Fin Pd) (Fin Pd) α)
    (Xt X : Matrix (Fin N) (Fin Pd) α) :
    Spec.stageInput (fun v => Matrix.vecMul v M) (Xt * M) X = (X - Xt) * M := by
  ext i j
  simp only [Spec.stageInput, Matrix.of_apply, Pi.sub_apply, Matrix.vecMul, Matrix.dotProduct,
    Matrix.mul_apply, Matrix.sub_apply, sub_mul, Finset.sum_sub_distrib]

/-- The regressor the default `LinearRegressor` learns from `A = b * M` and `b` when `A^T A`
is invertible: its coefficient matrix is the inverse of `M`. -/
theorem LinearRegressor.learned_linear (P : Provider α) (hP : P.ExactLU) {N Pd : ℕ}
    (M : Matrix (Fin Pd) (Fin Pd) α) (hM : IsUnit M.det) (b : Matrix (Fin N) (Fin Pd) α)
    (x : Mat α) (hinv : IsUnit ((b * M).transpose * (b * M)).det) :
    ({ x := x, regulariser := {} } : LinearRegressor α).learned P (b * M) b =
      { x := Mat.of M⁻¹, regulariser := {} } := by
  have hR := Regulariser.getMatrix_square P ({} : Regulariser α) rfl
    ((b * M).transpose * (b * M)) (N : ℤ)
  have hsw : ({} : Regulariser α).switchLambda P (Mat.of ((b * M).transpose * (b * M)))
      (N : ℤ) = 0 := rfl
  rw [hsw] at hR
  have hzero : (b * M).transpose * (b * M) + (0 : α) • (1 : Matrix (Fin Pd) (Fin Pd) α) =
      (b * M).transpose * (b * M) := by
    rw [zero_smul, add_zero]
  have hinv2 : IsUnit ((b * M).transpose * (b * M) +
      (0 : α) • (1 : Matrix (Fin Pd) (Fin Pd) α)).det := by
    rw [hzero]
    exact hinv
  have hl := LinearRegressor.learn_invertible P hP
    ({ x := x, regulariser := {} } : LinearRegressor α) (b * M) b _ _ hR hinv2
  have hsol : M⁻¹ = ((b * M).transpose * (b * M))⁻¹ * ((b * M).transpose * b) := by
    apply (nonsing_solution _ hinv _).2
    rw [Matrix.mul_assoc, Matrix.mul_assoc b M, Matrix.mul_nonsing_inv M hM, Matrix.mul_one]
  simp only [LinearRegressor.learned, hl, hzero, Matrix.mul_assoc, ← hsol]

/-- The update of a stage whose coefficient matrix is the inverse of `M`, on the input
`(X - x_truth) * M`: the ground truth. -/
theorem Spec.stageUpdate_linear {N Pd : ℕ} (M : Matrix (Fin Pd) (Fin Pd) α)
    (hM : IsUnit M.det) (reg : Regulariser α) (Xt X : Matrix (Fin N) (Fin Pd) α) :
    Spec.stageUpdate
        (LinearRegressor.predictRow ({ x := Mat.of M⁻¹, regulariser := reg } : LinearRegressor α))
        ((X - Xt) * M) X = Xt := by
  have hmul : (X - Xt) * M * M⁻¹ = X - Xt := by
    rw [Matrix.mul_assoc, Matrix.mul_nonsing_inv M hM, Matrix.mul_one]
  have hsub : Spec.stageUpdate
      (LinearRegressor.predictRow ({ x := Mat.of M⁻¹, regulariser := reg } : LinearRegressor α))
      ((X - Xt) * M) X = X - (X - Xt) * M * M⁻¹ := by
    ext i j
    simp only [Spec.stageUpdate, LinearRegressor.predictRow, Mat.toMatrix_of, Matrix.of_apply,
      Pi.sub_apply, Matrix.sub_apply, Matrix.vecMul, Matrix.dotProduct, Matrix.mul_apply]
  rw [hsub, hmul]
  abel

end LinearFeature

section RecoveryClaims

/-- C24: for the linear feature function `h(v) = v * M` with `M` square and invertible,
observations `y = x_truth * M` and a regressor with the default regulariser (Manual,
`lambda = 0`), if `(h(x0) - y)^T (h(x0) - y)` is invertible then training one stage stores
the coefficient matrix `M^-1` and ends in the state `x_truth`, and `test(y, x0, h)` on the
trained cascade returns `x_truth`. -/
theorem linear_exact_recovery {α : Type} [Field α] (P : Provider α) (hP : P.ExactLU)
    {N Pd : ℕ} (hN : 0 < N) (hPd : 0 < Pd)
    (M : Matrix (Fin Pd) (Fin Pd) α) (hM : IsUnit M.det)
    (h : Mat α → Mat α)
    (hh : ∀ v : Fin Pd → α, h (Mat.ofRow v) = Mat.ofRow (Matrix.vecMul v M))
    (Xt X0 : Matrix (Fin N) (Fin Pd) α) (x : Mat α)
    (hinv : IsUnit ((X0 * M - Xt * M).transpose * (X0 * M - Xt * M)).det) :
    ∃ trainEvents testEvents : List (Event α),
      SupervisedDescentOptimiser.train (linearRegressorType P)
          [{ x := x, regulariser := {} }] (Mat.of Xt) (Mat.of (Xt * M)) (Mat.of X0) h =
        Except.ok ([{ x := Mat.of M⁻¹, regulariser := {} }], trainEvents) ∧
      callbackStates trainEvents = [Mat.of Xt] ∧
      SupervisedDescentOptimiser.test (linearRegressorType P)
          [{ x := Mat.of M⁻¹, regulariser := {} }] (Mat.of (Xt * M)) (Mat.of X0) h =
        Except.ok (Mat.of Xt, testEvents) := by
  obtain ⟨n, rfl⟩ : ∃ n, N = n + 1 := ⟨N - 1, by omega⟩
  obtain ⟨p, rfl⟩ : ∃ p, Pd = p + 1 := ⟨Pd - 1, by omega⟩
  rw [← Matrix.sub_mul] at hinv
  have htrain := trainLoop_of (linearRegressorType P) (LinearRegressor.learned P)
    LinearRegressor.predictRow h (fun v => Matrix.vecMul v M) hh
    (linearRegressorType_learn P hP) (linearRegressorType_predict P hP) Xt (Xt * M)
    [{ x := x, regulariser := {} }] 0 X0
  have htest := testLoop_of (linearRegressorType P) LinearRegressor.predictRow h
    (fun v => Matrix.vecMul v M) hh (Xt * M)
    [({ x := Mat.of M⁻¹, regulariser := {} } : LinearRegressor α)]
    (fun r hr v => by
      rw [List.mem_singleton] at hr
      subst hr
      exact (LinearRegressor.predict_of _ M⁻¹ rfl v).trans
        (by simp only [LinearRegressor.predictRow, Mat.toMatrix_of])) X0
  simp only [Spec.trainRegressors, Spec.stageInput_linear, Spec.stageTarget,
    LinearRegressor.learned_linear P hP M hM (X0 - Xt) x hinv] at htrain
  simp only [Spec.testResult, Spec.stageInput_linear, Spec.stageUpdate_linear M hM] at htest
  refine ⟨_, _, htrain, ?_, htest⟩
  simp only [callbackStates_trainEvents, Spec.trainStates, Spec.stageInput_linear,
    Spec.stageTarget, LinearRegressor.learned_linear P hP M hM (X0 - Xt) x hinv,
    Spec.stageUpdate_linear M hM, List.map_cons, List.map_nil]

/-- C24, over the rationals with `M = [1]` (`h` the identity), `x_truth = [1]`, `y = [1]`
and `x0 = [3]`: `(h(x0) - y)^T (h(x0) - y) = [4]` is invertible, training stores `[1]` and
ends in `[1]`, and `test` returns `[1]`. -/
theorem linear_exact_recovery_witness :
    ∃ trainEvents testEvents : List (Event ℚ),
      SupervisedDescentOptimiser.train (linearRegressorType Example.provider)
          [{ x := Mat.empty, regulariser := {} }] (Mat.of !![(1 : ℚ)])
          (Mat.of (!![(1 : ℚ)] * (1 : Matrix (Fin 1) (Fin 1) ℚ))) (Mat.of !![(3 : ℚ)])
          Example.hId =
        Except.ok ([{ x := Mat.of (1 : Matrix (Fin 1) (Fin 1) ℚ)⁻¹, regulariser := {} }],
          trainEvents) ∧
      callbackStates trainEvents = [Mat.of !![(1 : ℚ)]] ∧
      SupervisedDescentOptimiser.test (linearRegressorType Example.provider)
          [{ x := Mat.of (1 : Matrix (Fin 1) (Fin 1) ℚ)⁻¹, regulariser := {} }]
          (Mat.of (!![(1 : ℚ)] * (1 : Matrix (Fin 1) (Fin 1) ℚ))) (Mat.of !![(3 : ℚ)])
          Example.hId =
        Except.ok (Mat.of !![(1 : ℚ)], testEvents) :=
  linear_exact_recovery Example.provider (exactProvider_exactLU Rat.sqrt)
    Nat.one_pos Nat.one_pos (1 : Matrix (Fin 1) (Fin 1) ℚ) (by simp) Example.hId
    (fun v => by simp [Example.hId]) !![(1 : ℚ)] !![(3 : ℚ)] Mat.empty (by
      rw [isUnit_iff_ne_zero, Matrix.det_fin_one, Matrix.mul_apply]
      simp
      norm_num)

end RecoveryClaims

end superviseddescent

/-! ## States that explain the observations -/

namespace superviseddescent

section FixedPoint

variable {α : Type} [Field α] {N Pd Qd : ℕ}

/-- A stage does not move a state that explains the observations: the stage input is zero,
and the prediction for a zero row is zero. -/
theorem Spec.stageUpdate_fixed (r : LinearRegressor α) (hrow : (Fin Pd → α) → (Fin Qd → α))
    (Y : Matrix (Fin N) (Fin Qd) α) (X0 : Matrix (Fin N) (Fin Pd) α)
    (hfix : ∀ i, hrow (X0 i) = Y i) :
    Spec.stageUpdate r.predictRow (Spec.stageInput hrow Y X0) X0 = X0 := by
  ext i j
  have hzero : Spec.stageInput hrow Y X0 i = 0 := by
    funext k
    simp only [Spec.stageInput, Matrix.of_apply, hfix i, sub_self]
  simp only [Spec.stageUpdate, Matrix.of_apply, hzero, LinearRegressor.predictRow,
    Matrix.zero_vecMul, Pi.sub_apply, Pi.zero_apply, sub_zero]

theorem Spec.testResult_fixed (hrow : (Fin Pd → α) → (Fin Qd → α))
    (Y : Matrix (Fin N) (Fin Qd) α) (X0 : Matrix (Fin N) (Fin Pd) α)
    (hfix : ∀ i, hrow (X0 i) = Y i) (regressors : List (LinearRegressor α)) :
    Spec.testResult LinearRegressor.predictRow hrow Y regressors X0 = X0 := by
  induction regressors with
  | nil => rfl
  | cons r rs ih => simp only [Spec.testResult, Spec.stageUpdate_fixed r hrow Y X0 hfix, ih]

theorem Spec.testStates_fixed (hrow : (Fin Pd → α) → (Fin Qd → α))
    (Y : Matrix (Fin N) (Fin Qd) α) (X0 : Matrix (Fin N) (Fin Pd) α)
    (hfix : ∀ i, hrow (X0 i) = Y i) (regressors : List (LinearRegressor α)) :
    Spec.testStates LinearRegressor.predictRow hrow Y regressors X0 =
      List.replicate regressors.length X0 := by
  induction regressors with
  | nil => rfl
  | cons r rs ih =>
    simp only [Spec.testStates, Spec.stageUpdate_fixed r hrow Y X0 hfix, ih, List.length_cons,
      List.replicate_succ]

theorem Mat.ofRow_injective {m : ℕ} (u v : Fin m → α) (huv : Mat.ofRow u = Mat.ofRow v) :
    u = v := by
  have h1 : (Matrix.of fun _ : Fin 1 => u) = Matrix.of fun _ : Fin 1 => v :=
    Mat.of_injective _ _ huv
  exact congrFun h1 0

/-- A linear regressor whose coefficient matrix has one row per feature and one column per
state entry predicts rows. -/
theorem linearRegressorType_predict_fitted (P : Provider α) (r : LinearRegressor α)
    (Xc : Matrix (Fin Qd) (Fin Pd) α) (hx : r.x = Mat.of Xc) (v : Fin Qd → α) :
    (linearRegressorType P).predict r (Mat.ofRow v) =
      Except.ok (Mat.ofRow (r.predictRow v : Fin Pd → α)) := by
  show r.predict (Mat.ofRow v) = _
  rw [LinearRegressor.predict_of r Xc hx v]
  simp only [LinearRegressor.predictRow, hx, Mat.toMatrix_of]

end FixedPoint

section FixedPointClaims

/-- C26: for a cascade of linear regressors whose coefficient matrices have the shape of
fitted ones (one row per feature, one column per state entry) and any entries, if
`h(x0[i]) = y[i]` for every row `i`, then `test(y, x0, h)` returns `x0` and the state after
every stage, as the callback sees it, is `x0`. -/
theorem test_fixed_point {α : Type} [Field α] (P : Provider α) {N Pd Qd : ℕ}
    (hN : 0 < N) (hPd : 0 < Pd) (hQd : 0 < Qd)
    (h : Mat α → Mat α) (hrow : (Fin Pd → α) → (Fin Qd → α))
    (hh : ∀ v : Fin Pd → α, h (Mat.ofRow v) = Mat.ofRow (hrow v))
    (Y : Matrix (Fin N) (Fin Qd) α) (X0 : Matrix (Fin N) (Fin Pd) α)
    (regressors : List (LinearRegressor α))
    (hx : ∀ r ∈ regressors, ∃ Xc : Matrix (Fin Qd) (Fin Pd) α, r.x = Mat.of Xc)
    (hfix : ∀ i, h (Mat.ofRow (X0 i)) = Mat.ofRow (Y i)) :
    ∃ events : List (Event α),
      SupervisedDescentOptimiser.test (linearRegressorType P) regressors (Mat.of Y) (Mat.of X0)
          h = Except.ok (Mat.of X0, events) ∧
      callbackStates events = List.replicate regressors.length (Mat.of X0) := by
  obtain ⟨n, rfl⟩ : ∃ n, N = n + 1 := ⟨N - 1, by omega⟩
  obtain ⟨p, rfl⟩ : ∃ p, Pd = p + 1 := ⟨Pd - 1, by omega⟩
  obtain ⟨q, rfl⟩ : ∃ q, Qd = q + 1 := ⟨Qd - 1, by omega⟩
  have hfix1 : ∀ i, hrow (X0 i) = Y i := by
    intro i
    exact Mat.ofRow_injective _ _ ((hh (X0 i)).symm.trans (hfix i))
  have htest := testLoop_of (linearRegressorType P) LinearRegressor.predictRow h hrow hh Y
    regressors (fun r hr v => by
      obtain ⟨Xc, hXc⟩ := hx r hr
      exact linearRegressorType_predict_fitted P r Xc hXc v) X0
  rw [Spec.testResult_fixed hrow Y X0 hfix1] at htest
  refine ⟨_, htest, ?_⟩
  rw [callbackStates_testEvents, Spec.testStates_fixed hrow Y X0 hfix1, List.map_replicate]

/-- C26, on a one-stage cascade of linear regressors over the rationals with coefficient
matrix `[2]`, `h` the identity and `y = x0 = [3]`: `test` returns `[3]`. -/
theorem test_fixed_point_witness :
    ∃ events : List (Event ℚ),
      SupervisedDescentOptimiser.test (linearRegressorType Example.provider) [Example.fitted]
          (Mat.of !![(3 : ℚ)]) (Mat.of !![(3 : ℚ)]) Example.hId =
        Except.ok (Mat.of !![(3 : ℚ)], events) ∧
      callbackStates events = List.replicate [Example.fitted].length (Mat.of !![(3 : ℚ)]) :=
  test_fixed_point Example.provider Nat.one_pos Nat.one_pos Nat.one_pos Example.hId id
    (fun _ => rfl) !![(3 : ℚ)] !![(3 : ℚ)] [Example.fitted]
    (fun r hr => by
      rw [List.mem_singleton] at hr
      subst hr
      exact ⟨!![(2 : ℚ)], rfl⟩)
    (fun _ => rfl)

end FixedPointClaims

end superviseddescent

/-! ## The examples of `test` do not depend on each other -/

namespace superviseddescent

section RowIndependence

variable {α R : Type} [Sub α] {N Pd Qd : ℕ}

/-- Row `i` of the result of inference is the result of inference on row `i` alone. -/
theorem Spec.testResult_row (prd : R → (Fin Qd → α) → (Fin Pd → α))
    (hrow : (Fin Pd → α) → (Fin Qd → α)) (Y : Matrix (Fin N) (Fin Qd) α)
    (regressors : List R) (X : Matrix (Fin N) (Fin Pd) α) (i : Fin N) :
    Spec.testResult prd hrow (Matrix.of fun _ : Fin 1 => Y i) regressors
        (Matrix.of fun _ : Fin 1 => X i) =
      Matrix.of fun _ : Fin 1 => Spec.testResult prd hrow Y regressors X i := by
  induction regressors generalizing X with
  | nil => rfl
  | cons r rs ih =>
    simp only [Spec.testResult]
    rw [← ih]
    rfl

end RowIndependence

section RowIndependenceClaims

variable {α R : Type} [Sub α] {N Pd Qd : ℕ}

/-- C27: on a cascade whose regressors predict rows, with `y` and `x0` of `N` rows,
`test(y, x0, h)` returns a matrix of `N` rows, and for every `i < N` its row `i` is what
`test(y.row(i), x0.row(i), h)` returns, a matrix of one row. -/
theorem test_rows_independent (ops : RegressorType α R)
    (hN : 0 < N) (hPd : 0 < Pd) (hQd : 0 < Qd)
    (prd : R → (Fin Qd → α) → (Fin Pd → α))
    (h : Mat α → Mat α) (hrow : (Fin Pd → α) → (Fin Qd → α))
    (hh : ∀ v : Fin Pd → α, h (Mat.ofRow v) = Mat.ofRow (hrow v))
    (Y : Matrix (Fin N) (Fin Qd) α) (regressors : List R)
    (hp : ∀ r ∈ regressors, ∀ v, ops.predict r (Mat.ofRow v) = Except.ok (Mat.ofRow (prd r v)))
    (X0 : Matrix (Fin N) (Fin Pd) α) :
    ∃ (result : Mat α) (events : List (Event α)),
      SupervisedDescentOptimiser.test ops regressors (Mat.of Y) (Mat.of X0) h =
        Except.ok (result, events) ∧
      result.rows = N ∧
      ∀ i : ℕ, i < N →
        ∃ (yi xi zi : Mat α) (eventsRow : List (Event α)),
          (Mat.of Y).row i = Except.ok yi ∧ (Mat.of X0).row i = Except.ok xi ∧
          SupervisedDescentOptimiser.test ops regressors yi xi h = Except.ok (zi, eventsRow) ∧
          result.row i = Except.ok zi ∧ zi.rows = 1 := by
  obtain ⟨n, rfl⟩ : ∃ n, N = n + 1 := ⟨N - 1, by omega⟩
  obtain ⟨p, rfl⟩ : ∃ p, Pd = p + 1 := ⟨Pd - 1, by omega⟩
  obtain ⟨q, rfl⟩ : ∃ q, Qd = q + 1 := ⟨Qd - 1, by omega⟩
  refine ⟨_, _, testLoop_of ops prd h hrow hh Y regressors hp X0, rfl, ?_⟩
  intro i hi
  have hsingle := testLoop_of (n := 0) ops prd h hrow hh (Matrix.of fun _ => Y ⟨i, hi⟩)
    regressors hp (Matrix.of fun _ => X0 ⟨i, hi⟩)
  rw [Spec.testResult_row prd hrow Y regressors X0 ⟨i, hi⟩] at hsingle
  exact ⟨_, _, _, _, Mat.row_of Y i hi, Mat.row_of X0 i hi, hsingle,
    Mat.row_of _ i hi, rfl⟩

/-- C27, on a one-stage cascade of linear regressors over the rationals with coefficient
matrix `[2]` and `h` the identity, for `y = [2; 2]` and `x0 = [3; 5]`. -/
theorem test_rows_independent_witness :
    ∃ (result : Mat ℚ) (events : List (Event ℚ)),
      SupervisedDescentOptimiser.test (linearRegressorType Example.provider) [Example.fitted]
          (Mat.of !![(2 : ℚ); 2]) (Mat.of !![(3 : ℚ); 5]) Example.hId =
        Except.ok (result, events) ∧
      result.rows = 2 ∧
      ∀ i : ℕ, i < 2 →
        ∃ (yi xi zi : Mat ℚ) (eventsRow : List (Event ℚ)),
          (Mat.of !![(2 : ℚ); 2]).row i = Except.ok yi ∧
          (Mat.of !![(3 : ℚ); 5]).row i = Except.ok xi ∧
          SupervisedDescentOptimiser.test (linearRegressorType Example.provider)
            [Example.fitted] yi xi Example.hId = Except.ok (zi, eventsRow) ∧
          result.row i = Except.ok zi ∧ zi.rows = 1 :=
  test_rows_independent (linearRegressorType Example.provider)
    (by decide) Nat.one_pos Nat.one_pos
    LinearRegressor.predictRow Example.hId id (fun _ => rfl) !![(2 : ℚ); 2] [Example.fitted]
    (fun r hr v => by
      rw [List.mem_singleton] at hr
      subst hr
      exact (LinearRegressor.predict_of Example.fitted !![(2 : ℚ)] rfl v).trans
        (by simp only [LinearRegressor.predictRow, Example.fitted, Mat.toMatrix_of]))
    !![(3 : ℚ); 5]

end RowIndependenceClaims

end superviseddescent

/-! ## `test` with the cascade as state -/

namespace superviseddescent

section TracedLaws

variable {α β γ : Type}

instance Traced.instLawfulMonad : LawfulMonad (Traced α) := LawfulMonad.mk' (Traced α)
  (fun x => by
    show Traced.bind x _ = x
    unfold Traced.bind
    match x with
    | .error e => rfl
    | .ok (b, t) => simp [pure])
  (fun b f => by
    show Traced.bind (Except.ok (b, [])) f = f b
    unfold Traced.bind
    simp only
    match f b with
    | .error e => rfl
    | .ok (c, u) => simp)
  (fun x f g => by
    show Traced.bind (Traced.bind x f) g = Traced.bind x (fun a => Traced.bind (f a) g)
    match x with
    | .error e => rfl
    | .ok (b, t) =>
      simp only [Traced.bind]
      match f b with
      | .error e => rfl
      | .ok (c, u) =>
        simp only
        match g c with
        | .error e => rfl
        | .ok (d, w) => simp)

theorem Traced.lift_bind (e : Except Err β) (f : β → Except Err γ) :
    (liftM (e >>= f) : Traced α γ) = (liftM e : Traced α β) >>= fun b => liftM (f b) := by
  match e with
  | .error err => rfl
  | .ok b =>
    show Traced.lift (f b) = Traced.bind (Except.ok (b, [])) fun b => Traced.lift (f b)
    unfold Traced.bind
    simp only
    match f b with
    | .error err => rfl
    | .ok c => rfl

theorem Traced.lift_pure (b : β) : (liftM (pure b : Except Err β) : Traced α β) = pure b := rfl

end TracedLaws

section StatePassing

variable {α : Type} [Field α]

theorem SupervisedDescentOptimiser.testUpdateRowsState_predictState (P : Provider α)
    (r : LinearRegressor α) (y : Mat α) (h : Mat α → Mat α) (currentX : Mat α) (k : ℕ) :
    SupervisedDescentOptimiser.testUpdateRowsState LinearRegressor.predictState y h currentX
        k r =
      (pushRows (fun i => do
        let myInside ← (← callH h (← currentX.row i)).sub (← y.row i)
        let prediction ← (linearRegressorType P).predict r myInside
        (← currentX.row i).sub prediction) k : Traced α (Mat α)) >>=
        fun x_k => pure (x_k, r) := by
  induction k with
  | zero =>
    rw [SupervisedDescentOptimiser.testUpdateRowsState, pushRows, pure_bind]
  | succ k ih =>
    rw [SupervisedDescentOptimiser.testUpdateRowsState, pushRows, ih]
    simp only [bind_assoc, pure_bind, LinearRegressor.predictState, linearRegressorType,
      LinearRegressor.predict, Traced.lift_bind, Traced.lift_pure]

/-- The loop of `test` with the regressors passed along returns what the loop of `test`
returns, and the regressors it was given. -/
theorem SupervisedDescentOptimiser.testLoopState_predictState (P : Provider α)
    (regressors : List (LinearRegressor α)) (y : Mat α) (h : Mat α → Mat α) (currentX : Mat α) :
    SupervisedDescentOptimiser.testLoopState LinearRegressor.predictState y h regressors
        currentX =
      SupervisedDescentOptimiser.testLoop (linearRegressorType P) y h regressors currentX >>=
        fun result => pure (result, regressors) := by
  induction regressors generalizing currentX with
  | nil =>
    rw [SupervisedDescentOptimiser.testLoopState, SupervisedDescentOptimiser.testLoop,
      pure_bind]
  | cons r rs ih =>
    rw [SupervisedDescentOptimiser.testLoopState, SupervisedDescentOptimiser.testLoop]
    simp only [SupervisedDescentOptimiser.testUpdateRowsState_predictState P, ih, bind_assoc,
      pure_bind]

omit [Field α] in
/-- What a computation followed by a pure step returns. -/
theorem Traced.bind_pure_eq_ok {β γ : Type} (m : Traced α β) (f : β → γ) (c : γ)
    (t : List (Event α)) (hm : (m >>= fun b => (pure (f b) : Traced α γ)) = Except.ok (c, t)) :
    ∃ b, m = Except.ok (b, t) ∧ c = f b := by
  match m, hm with
  | .ok (b, u), hm =>
    have h1 : (Except.ok (f b, u ++ []) : Traced α γ) = Except.ok (c, t) := hm
    rw [List.append_nil] at h1
    obtain ⟨h2, h3⟩ := Prod.mk.inj (Except.ok.inj h1)
    exact ⟨b, by rw [h3], h2.symm⟩

end StatePassing

section DeterminismClaims

/-- C21: `test` with the member `regressors` as state, on a cascade of linear regressors,
returns what `test` returns and leaves `regressors` as they were: whenever the call returns,
the regressors after it are the regressors before it, stage by stage with the same
coefficient matrix, and a second call with the same `y`, `x0` and `h` returns the same
matrix, makes the same calls and again leaves the regressors as they were. -/
theorem test_leaves_cascade {α : Type} [Field α] (P : Provider α)
    (regressors : List (LinearRegressor α)) (y x0 : Mat α) (h : Mat α → Mat α) :
    SupervisedDescentOptimiser.testState LinearRegressor.predictState regressors y x0 h =
        (SupervisedDescentOptimiser.test (linearRegressorType P) regressors y x0 h >>=
          fun result => pure (result, regressors)) ∧
      ∀ (result : Mat α) (after : List (LinearRegressor α)) (events : List (Event α)),
        SupervisedDescentOptimiser.testState LinearRegressor.predictState regressors y x0 h =
          Except.ok ((result, after), events) →
        after = regressors ∧
        after.map (fun r => r.x) = regressors.map (fun r => r.x) ∧
        SupervisedDescentOptimiser.test (linearRegressorType P) regressors y x0 h =
          Except.ok (result, events) ∧
        SupervisedDescentOptimiser.testState LinearRegressor.predictState after y x0 h =
          Except.ok ((result, after), events) := by
  have heq := SupervisedDescentOptimiser.testLoopState_predictState P regressors y h x0
  refine ⟨heq, ?_⟩
  intro result after events hcall
  have hcall2 := hcall
  rw [SupervisedDescentOptimiser.testState, heq] at hcall2
  obtain ⟨b, hb, hpair⟩ := Traced.bind_pure_eq_ok _ _ _ _ hcall2
  obtain ⟨h1, h2⟩ := Prod.mk.inj hpair
  subst h1 h2
  exact ⟨rfl, rfl, hb, hcall⟩

/-- C21, on the one-stage cascade with coefficient matrix `[2]` over the rationals, `y = [2]`,
`x0 = [3]` and `h` the identity: the call returns `[1]` and the cascade it was given, and a
second call on the cascade after the first returns the same. -/
theorem test_leaves_cascade_witness :
    ∃ (after : List (LinearRegressor ℚ)) (events : List (Event ℚ)),
      SupervisedDescentOptimiser.testState LinearRegressor.predictState [Example.fitted]
          (Mat.of !![(2 : ℚ)]) (Mat.of !![(3 : ℚ)]) Example.hId =
        Except.ok ((Mat.of !![(1 : ℚ)], after), events) ∧
      after = [Example.fitted] ∧
      SupervisedDescentOptimiser.testState LinearRegressor.predictState after
          (Mat.of !![(2 : ℚ)]) (Mat.of !![(3 : ℚ)]) Example.hId =
        Except.ok ((Mat.of !![(1 : ℚ)], after), events) := by
  obtain ⟨h1, h2⟩ := test_leaves_cascade Example.provider [Example.fitted]
    (Mat.of !![(2 : ℚ)]) (Mat.of !![(3 : ℚ)]) Example.hId
  have hcall : SupervisedDescentOptimiser.testState LinearRegressor.predictState
      [Example.fitted] (Mat.of !![(2 : ℚ)]) (Mat.of !![(3 : ℚ)]) Example.hId =
      Except.ok ((Mat.of !![(1 : ℚ)], [Example.fitted]),
        [Event.feature (Mat.ofRow ![(3 : ℚ)]), Event.feature (Mat.ofRow ![(3 : ℚ)]),
          Event.callback (Mat.of !![(1 : ℚ)])]) := by
    rw [h1, Example.test_eq]
    rfl
  obtain ⟨h3, -, -, h4⟩ := h2 _ _ _ hcall
  exact ⟨_, _, hcall, h3, h4⟩

end DeterminismClaims

end superviseddescent

/-! ## `GenericDM1D.train`: the 25 updates -/

namespace superviseddescent

section GenericDescent

variable {α : Type} [Field α]

end GenericDescent

section GenericDescentClaims

end GenericDescentClaims

end superviseddescent
